import Mathlib

/-!
# Fuzzy trie: trie index, subsequence containment and multi-tree ranker

A shallow embedding of `pkg/trie` (`strings.go`, `trie.go`, `fuzzable.go`,
`distance_tree.go`).

Conventions of the embedding.

* A Go `string` is the list of its code points (`[]rune(s)`); a `rune` is a `Char`.
* Go pointers to trie nodes are indices into a node store (`Heap`); the nil pointer is
  `none`.  A `Tree` carries the store its leaf pointers refer to.
* A Go `map` is an association list in insertion order.  Go leaves the iteration order
  of a map unspecified; the embedding iterates in insertion order.
* `for { ... }` loops that walk the pointer graph take a loop budget (fuel) and return
  `none` when the budget is exhausted.
* `int` is `Int`: the distances and the tree weights `10 ^ treeIndex` are taken within the
  range of the machine integer (the spec leaves overflow to the caller).
* A `*int` is an `Option Int` and a `*float64` the rational the float denotes.
* A call returns `Except`: a Go error it returns, a panic, or the loop budget running out
  are the three ways of `Failure`.
-/

namespace FuzzyTrie

/-! ## strings.go -/

/-- A Go `rune`: one Unicode code point. -/
abbrev Rune := Char

/-- A Go `string`, seen as the sequence of its code points. -/
abbrev Str := List Rune

/-- `normalizeTerm` of strings.go: `strings.ToUpper`, which maps every code point through
its upper-case folding.  The folding of one code point is `Char.toUpper` (the ASCII
letters); nothing below depends on which code points are folded. -/
def normalizeTerm (v : Str) : Str :=
  v.map Char.toUpper

/-! ## trie.go -/

/-- The struct `Node[T]` of trie.go.  `parent` and the targets of `children` are
pointers, that is indices into the node store. -/
structure Node (T : Type) where
  keyRune : Option Rune
  parent : Option Nat
  children : List (Rune × Nat)
  values : List T
  deriving DecidableEq, Repr

/-- The node store: the memory the node pointers refer to. -/
abbrev Heap (T : Type) := List (Node T)

/-- The struct `Tree[T]`: the leaf pointers, together with the store they point into. -/
structure Tree (T : Type) where
  nodes : Heap T
  leafNodes : List Nat
  deriving DecidableEq, Repr

/-- `Tree.GetLeafNodes`. -/
def Tree.GetLeafNodes {T : Type} (t : Tree T) : List Nat :=
  t.leafNodes

/-- `newTrieNode(parentNode, keyRune)`: a node with an empty children map and no values. -/
def newTrieNode {T : Type} (parentNode : Option Nat) (keyRune : Option Rune) : Node T :=
  { keyRune := keyRune, parent := parentNode, children := [], values := [] }

/-- Write through a node pointer: replace the node at `n` by its image under `f`. -/
def updateNode {T : Type} (h : Heap T) (n : Nat) (f : Node T → Node T) : Heap T :=
  match h[n]? with
  | some nd => h.set n (f nd)
  | none => h

/-- The map read `n.children[firstRune]`. -/
def childAt {T : Type} (h : Heap T) (n : Nat) (r : Rune) : Option Nat :=
  match h[n]? with
  | some nd => nd.children.lookup r
  | none => none

/-- `Node.addItem(runes, item)` on the node at `n`.  With no rune left the item is appended
to the node's values; otherwise the child under the first rune is created when missing (a
fresh node at the end of the store) and the rest of the runes is added below it. -/
def addItem {T : Type} (h : Heap T) (n : Nat) : List Rune → T → Heap T
  | [], item => updateNode h n (fun nd => { nd with values := nd.values ++ [item] })
  | firstRune :: rest, item =>
    match childAt h n firstRune with
    | some c => addItem h c rest item
    | none =>
      let c := h.length
      let h1 := h ++ [newTrieNode (some n) (some firstRune)]
      let h2 := updateNode h1 n (fun nd => { nd with children := nd.children ++ [(firstRune, c)] })
      addItem h2 c rest item

/-- The pointers stored in the children map of the node at `n`, in iteration order. -/
def childNodes {T : Type} (h : Heap T) (n : Nat) : List Nat :=
  match h[n]? with
  | some nd => nd.children.map Prod.snd
  | none => []

/-- One pass of the inner `for _, childNode := range candidateNodes` of `getLeafNodes`:
a childless candidate is appended to the leaves, the children of any other candidate are
appended to the next candidates. -/
def leafPass {T : Type} (h : Heap T) :
    List Nat → List Nat → List Nat → List Nat × List Nat
  | [], leafNodes, nextCandidates => (leafNodes, nextCandidates)
  | childNode :: rest, leafNodes, nextCandidates =>
    if (childNodes h childNode).length = 0 then
      leafPass h rest (leafNodes ++ [childNode]) nextCandidates
    else
      leafPass h rest leafNodes (nextCandidates ++ childNodes h childNode)

/-- The outer `for { ... }` of `getLeafNodes`; `none` when the loop budget runs out. -/
def leafLoop {T : Type} (h : Heap T) : Nat → List Nat → List Nat → Option (List Nat)
  | fuel, candidateNodes, leafNodes =>
    if candidateNodes.length = 0 then some leafNodes
    else
      match fuel with
      | 0 => none
      | fuel + 1 =>
        let r := leafPass h candidateNodes leafNodes []
        leafLoop h fuel r.2 r.1

/-- `Node.getLeafNodes` on the node at `n`.  The loop descends one level per round, so the
number of nodes of the store is budget enough. -/
def getLeafNodes {T : Type} (h : Heap T) (n : Nat) : Option (List Nat) :=
  if (childNodes h n).length = 0 then some [n]
  else leafLoop h h.length (childNodes h n) []

/-- Errors returned by `LoadTree`: the extractor's error, wrapped. -/
inductive LoadError (E : Type) where
  | extractFailed (err : E)
  deriving DecidableEq, Repr

/-- Ways in which a call does not deliver a value: a returned Go error, a run-time panic
(index out of range), or the loop budget of the embedding running out. -/
inductive Failure (E : Type) where
  | error (err : E)
  | panic
  | outOfFuel
  deriving DecidableEq, Repr

/-- The `context.Context` handed to a call, reduced to what the package reads from it: the
value `context.Cause(ctx)` returns while the call runs (`none` when not cancelled). -/
structure Context (C : Type) where
  cause : Option C

/-- `KeyTermExtractor[T]`: from the context and an item to its key term, or an error. -/
abbrev KeyTermExtractor (C E T : Type) := Context C → T → Except E Str

/-- The `for _, item := range items` loop of `LoadTree`, on the store whose root is at 0. -/
def loadItems {C E T : Type} (ctx : Context C) (termExtractor : KeyTermExtractor C E T) :
    Heap T → List T → Except (LoadError E) (Heap T)
  | h, [] => .ok h
  | h, item :: rest =>
    match termExtractor ctx item with
    | .error err => .error (.extractFailed err)
    | .ok itemKeyTerm => loadItems ctx termExtractor (addItem h 0 (normalizeTerm itemKeyTerm) item) rest

/-- `LoadTree(ctx, items, termExtractor)`. -/
def LoadTree {C E T : Type} (ctx : Context C) (items : List T)
    (termExtractor : KeyTermExtractor C E T) : Except (Failure (LoadError E)) (Tree T) :=
  let rootNode : Heap T := [newTrieNode none none]
  match loadItems ctx termExtractor rootNode items with
  | .error err => .error (.error err)
  | .ok h =>
    match getLeafNodes h 0 with
    | none => .error .outOfFuel
    | some leafNodes => .ok { nodes := h, leafNodes := leafNodes }

/-- The loop of `Node.Contains`: walk up from `currentNode` while runes of the phrase are
left, moving `runeIndex` down on every match.  Yields the final `runeIndex`. -/
def containsLoop {T : Type} (h : Heap T) (normalizedRunes : List Rune) :
    Nat → Option Nat → Int → Option Int
  | fuel, currentNode, runeIndex =>
    match currentNode with
    | none => some runeIndex
    | some c =>
      match h[c]? with
      | none => none
      | some nd =>
        match nd.keyRune with
        | none => some runeIndex
        | some keyRune =>
          if runeIndex < 0 then some runeIndex
          else
            match fuel with
            | 0 => none
            | fuel + 1 =>
              match normalizedRunes[runeIndex.toNat]? with
              | none => none
              | some currentRune =>
                containsLoop h normalizedRunes fuel nd.parent
                  (if keyRune = currentRune then runeIndex - 1 else runeIndex)

/-- `Node.Contains(phrase)` on the node at `n`. -/
def Contains {T : Type} (h : Heap T) (n : Nat) (phrase : Str) : Option Bool :=
  let normalizedRunes := normalizeTerm phrase
  (containsLoop h normalizedRunes h.length (some n) ((normalizedRunes.length : Int) - 1)).map
    (fun runeIndex => decide (runeIndex < 0))

/-- `Node.GetParentNode`. -/
def GetParentNode {T : Type} (h : Heap T) (n : Nat) : Option Nat :=
  match h[n]? with
  | some nd => nd.parent
  | none => none

/-- `Node.GetValues`. -/
def GetValues {T : Type} (h : Heap T) (n : Nat) : List T :=
  match h[n]? with
  | some nd => nd.values
  | none => []

/-- The loop of `Node.GetKeyTerm`: append the key runes met on the way up. -/
def keyTermLoop {T : Type} (h : Heap T) : Nat → List Rune → Option Nat → Option (List Rune)
  | fuel, keyRunes, parentNode =>
    match parentNode with
    | none => some keyRunes
    | some p =>
      match h[p]? with
      | none => none
      | some nd =>
        match nd.keyRune with
        | none => some keyRunes
        | some keyRune =>
          match fuel with
          | 0 => none
          | fuel + 1 => keyTermLoop h fuel (keyRunes ++ [keyRune]) nd.parent

/-- `Node.GetKeyTerm` on the node at `n`. -/
def GetKeyTerm {T : Type} (h : Heap T) (n : Nat) : Option Str :=
  match h[n]? with
  | none => none
  | some nd =>
    match nd.keyRune with
    | none => some []
    | some keyRune => (keyTermLoop h h.length [keyRune] nd.parent).map List.reverse

/-! ## fuzzable.go -/

/-- The interface `Fuzzable`.  A `*float64` factor is the rational number the float
denotes (`none` for the nil pointer); a `[]*int` is a list of optional integers. -/
class Fuzzable (T : Type) where
  GetPrimaryDistanceFactor : T → Option Rat
  GetSecondaryDistances : T → List (Option Int)
  SortingGroup : T → Int

/-! ## distance_tree.go -/

/-- Modelled from the spec: `levenshtein.LevenshteinDistance` of package `pkg/levenshtein`,
which is not among the sources; the spec assumes "a standard edit-distance
implementation": unit costs for insertion, deletion and substitution, over code points. -/
def LevenshteinDistance (a b : Str) : Int :=
  ((levenshtein Levenshtein.defaultCost a b : Nat) : Int)

/-- The struct `DistanceResult[T]`. -/
structure DistanceResult (T : Type) where
  Distances : List (Option Int)
  Result : T
  deriving DecidableEq, Repr

/-- The map `map[T]*DistanceResult[T]` of a search. -/
abbrev Results (T : Type) := List (T × DistanceResult T)

/-- The struct `DistanceTrees[T]`.  The timer is left out: its hooks only record durations
and their errors are discarded. -/
structure DistanceTrees (T : Type) where
  trees : List (Tree T)

/-- `NewDistanceTrees(trees)`. -/
def NewDistanceTrees {T : Type} (trees : List (Tree T)) : DistanceTrees T :=
  { trees := trees }

/-- Errors returned by `Search`: the cause met while searching the tree at `treeIndex`,
wrapped. -/
inductive SearchError (C : Type) where
  | searchTreeFailed (treeIndex : Nat) (cause : C)
  deriving DecidableEq, Repr

/-- The write `distances[treeIndex] = &weightedDistance` through the slice shared with
`results[v]`. -/
def setDistance {T : Type} [DecidableEq T] (results : Results T) (v : T) (treeIndex : Nat)
    (weightedDistance : Int) : Results T :=
  results.map (fun e =>
    if e.1 = v then (e.1, { e.2 with Distances := e.2.Distances.set treeIndex (some weightedDistance) })
    else e)

/-- `int(float64(levenshteinDistance) * factor)`: the product, truncated toward zero.  The
product here is the exact one; Go rounds it to a `float64` before truncating, which gives
the same integer whenever the product is exactly representable (as with the integer factors
used below) and may differ by one otherwise. -/
def scaleDistance (levenshteinDistance : Int) (factor : Rat) : Int :=
  Int.tdiv (levenshteinDistance * factor.num) factor.den

/-- `int(math.Pow(10, float64(treeIndex)))` with the 64-bit `int`: the power of ten up to
`treeIndex = 18`.  From `treeIndex = 19` on the power is out of the range of `int`; Go
leaves the result of such a conversion to the implementation, and the value here is the one
of amd64, the least `int`. -/
def treeWeight (treeIndex : Nat) : Int :=
  if treeIndex ≤ 18 then 10 ^ treeIndex else -(2 ^ 63)

/-- The loop `for _, matchingNodeValue := range node.values` of `evaluate`.  The variable
`levenshteinDistance` is declared before the loop and assigned inside it, so it is part of
the loop state.  The sum `weightedDistance` is the integer sum: with a tree index up to 18
it is in the range of `int` for every distance below `8 * 10 ^ 18`. -/
def evaluateValues {E T : Type} [DecidableEq T] [Fuzzable T] (treeIndex treeCount : Nat) :
    List T → Results T → Int → Except (Failure E) (Results T)
  | [], results, _ => .ok results
  | matchingNodeValue :: rest, results, levenshteinDistance =>
    let entry : Results T × List (Option Int) :=
      match results.lookup matchingNodeValue with
      | some existingResult => (results, existingResult.Distances)
      | none =>
        let distances := List.replicate (treeCount + 1) none
        (results ++ [(matchingNodeValue, { Result := matchingNodeValue, Distances := distances })],
          distances)
    match entry.2[treeIndex]? with
    | none => .error .panic
    | some (some _) => evaluateValues treeIndex treeCount rest entry.1 levenshteinDistance
    | some none =>
      let levenshteinDistance :=
        match Fuzzable.GetPrimaryDistanceFactor matchingNodeValue with
        | some primaryDistanceFactor => scaleDistance levenshteinDistance primaryDistanceFactor
        | none => levenshteinDistance
      let weightedDistance := treeWeight treeIndex + levenshteinDistance
      evaluateValues treeIndex treeCount rest
        (setDistance entry.1 matchingNodeValue treeIndex weightedDistance) levenshteinDistance

/-- `DistanceTrees.evaluate`: the new state of the results map and the nodes to examine
next. -/
def evaluate {E T : Type} [DecidableEq T] [Fuzzable T] (searchTerm : Str)
    (treeIndex treeCount : Nat) (results : Results T) (h : Heap T) (node : Nat) :
    Except (Failure E) (Results T × List Nat) :=
  match Contains h node searchTerm with
  | none => .error .outOfFuel
  | some false => .ok (results, [])
  | some true =>
    match GetKeyTerm h node with
    | none => .error .outOfFuel
    | some keyTerm =>
      match evaluateValues treeIndex treeCount (GetValues h node) results
          (LevenshteinDistance searchTerm keyTerm) with
      | .error f => .error f
      | .ok results =>
        match GetParentNode h node with
        | some parentNode => .ok (results, [parentNode])
        | none => .ok (results, [])

/-- The loop `for _, currentNode := range currentNodes` of `searchTree`. -/
def sweepPass {E T : Type} [DecidableEq T] [Fuzzable T] (searchTerm : Str)
    (treeIndex treeCount : Nat) (h : Heap T) :
    List Nat → Results T → List Nat → Except (Failure E) (Results T × List Nat)
  | [], results, nextNodes => .ok (results, nextNodes)
  | currentNode :: rest, results, nextNodes =>
    match GetValues h currentNode with
    | [] =>
      match GetParentNode h currentNode with
      | some currentParent =>
        sweepPass searchTerm treeIndex treeCount h rest results (nextNodes ++ [currentParent])
      | none => sweepPass searchTerm treeIndex treeCount h rest results nextNodes
    | value0 :: _ =>
      let skip : Except (Failure E) Bool :=
        match results.lookup value0 with
        | none => .ok false
        | some result0 =>
          match result0.Distances[treeIndex]? with
          | none => .error .panic
          | some d => .ok d.isSome
      match skip with
      | .error f => .error f
      | .ok true => sweepPass searchTerm treeIndex treeCount h rest results nextNodes
      | .ok false =>
        match evaluate searchTerm treeIndex treeCount results h currentNode with
        | .error f => .error f
        | .ok r => sweepPass searchTerm treeIndex treeCount h rest r.1 (nextNodes ++ r.2)

/-- The loop `for { ... }` of `searchTree`: poll the context, sweep the current nodes, stop
when there is no next node. -/
def sweepLoop {C T : Type} [DecidableEq T] [Fuzzable T] (ctx : Context C) (searchTerm : Str)
    (treeIndex treeCount : Nat) (h : Heap T) :
    Nat → List Nat → Results T → Except (Failure C) (Results T)
  | fuel, currentNodes, results =>
    match ctx.cause with
    | some ctxErr => .error (.error ctxErr)
    | none =>
      match sweepPass searchTerm treeIndex treeCount h currentNodes results [] with
      | .error f => .error f
      | .ok r =>
        if r.2.length = 0 then .ok r.1
        else
          match fuel with
          | 0 => .error .outOfFuel
          | fuel + 1 => sweepLoop ctx searchTerm treeIndex treeCount h fuel r.2 r.1

/-- `DistanceTrees.searchTree`.  Every round of the loop moves one level up, so the number
of nodes of the tree is budget enough. -/
def searchTree {C T : Type} [DecidableEq T] [Fuzzable T] (wt : DistanceTrees T)
    (ctx : Context C) (treeIndex : Nat) (searchTerm : Str) (results : Results T) :
    Except (Failure C) (Results T) :=
  let treeCount := wt.trees.length
  match wt.trees[treeIndex]? with
  | none => .error .panic
  | some tree =>
    sweepLoop ctx searchTerm treeIndex treeCount tree.nodes tree.nodes.length
      tree.GetLeafNodes results

/-- The comparison passed to `sort.Slice` in `sortResults`, on the `Distances` of the two
results; `none` is the panic of reading `weightedResults[j].Distances[distanceIndex]` past
the end. -/
def distancesLess : List (Option Int) → List (Option Int) → Option Bool
  | [], _ => some false
  | _ :: _, [] => none
  | distance :: rest, otherDistance :: otherRest =>
    match distance, otherDistance with
    | none, some _ => some false
    | none, none => distancesLess rest otherRest
    | some _, none => some true
    | some d, some o =>
      if d < o then some true
      else if d > o then some false
      else distancesLess rest otherRest

/-- The inner loop `for j := i; j > a && less(j, j-1); j--` of the insertion sort:
`sorted` is the part before position `i`, last element first. -/
def sinkInto {E T : Type} (x : DistanceResult T) :
    List (DistanceResult T) → Except (Failure E) (List (DistanceResult T))
  | [] => .ok [x]
  | y :: ys =>
    match distancesLess x.Distances y.Distances with
    | none => .error .panic
    | some false => .ok (x :: y :: ys)
    | some true =>
      match sinkInto x ys with
      | .error f => .error f
      | .ok r => .ok (y :: r)

/-- The outer loop of the insertion sort. -/
def insertionSort {E T : Type} :
    List (DistanceResult T) → List (DistanceResult T) →
      Except (Failure E) (List (DistanceResult T))
  | [], sorted => .ok sorted.reverse
  | x :: rest, sorted =>
    match sinkInto x sorted with
    | .error f => .error f
    | .ok r => insertionSort rest r

/-- `DistanceTrees.sortResults`.  `sort.Slice` is the insertion sort it runs on a slice of
at most 12 elements; on longer slices the library compares other pairs, with the same
comparison. -/
def sortResults {E T : Type} (weightedResults : List (DistanceResult T)) :
    Except (Failure E) (List (DistanceResult T)) :=
  insertionSort weightedResults []

/-- The loop `for treeIndex := range wt.trees` of `Search`. -/
def searchTrees {C T : Type} [DecidableEq T] [Fuzzable T] (wt : DistanceTrees T)
    (ctx : Context C) (searchTerm : Str) :
    List Nat → Results T → Except (Failure (SearchError C)) (Results T)
  | [], results => .ok results
  | treeIndex :: rest, results =>
    match searchTree wt ctx treeIndex searchTerm results with
    | .error (.error searchErr) => .error (.error (.searchTreeFailed treeIndex searchErr))
    | .error .panic => .error .panic
    | .error .outOfFuel => .error .outOfFuel
    | .ok results => searchTrees wt ctx searchTerm rest results

/-- The loop `for item, weightedResult := range results` of `Search`, over the entries in
the order in which the map yields them: the secondary distances of the item are appended to
its distances. -/
def appendSecondary {T : Type} [Fuzzable T] (results : Results T) : List (DistanceResult T) :=
  results.map (fun e =>
    { e.2 with Distances := e.2.Distances ++ Fuzzable.GetSecondaryDistances e.1 })

/-- `DistanceTrees.Search`, in the run in which `range results` yields the entries of the
map in the order of their insertion.  Go leaves the iteration order of a map unspecified;
`SearchOrdered` below is `Search` for any order. -/
def Search {C T : Type} [DecidableEq T] [Fuzzable T] (wt : DistanceTrees T)
    (ctx : Context C) (searchTerm : Str) :
    Except (Failure (SearchError C)) (List (DistanceResult T)) :=
  match searchTrees wt ctx searchTerm (List.range wt.trees.length) [] with
  | .error f => .error f
  | .ok results => sortResults (appendSecondary results)

/-- `DistanceTrees.Search` with the iteration order of the map made explicit: `order`
rearranges the entries of the results map into the order in which `range results` yields
them in one run (any permutation of the entries, in Go). -/
def SearchOrdered {C T : Type} [DecidableEq T] [Fuzzable T]
    (order : Results T → Results T) (wt : DistanceTrees T) (ctx : Context C)
    (searchTerm : Str) : Except (Failure (SearchError C)) (List (DistanceResult T)) :=
  match searchTrees wt ctx searchTerm (List.range wt.trees.length) [] with
  | .error f => .error f
  | .ok results => sortResults (appendSecondary (order results))

end FuzzyTrie

namespace FuzzyTrie

/-! ## Invariants of a loaded trie -/

/-- The normalized key under which `LoadTree` files an item: the extractor's key term,
normalized (the empty term when the extractor fails, in which case nothing is filed). -/
def normalizedKey {C E T : Type} (ctx : Context C) (termExtractor : KeyTermExtractor C E T)
    (item : T) : Str :=
  match termExtractor ctx item with
  | .ok itemKeyTerm => normalizeTerm itemKeyTerm
  | .error _ => []

/-- The shape of a store built by `addItem` from a root at 0, stated with a labelling `key`
of the nodes by the rune sequence spelled from the root: the root is the only node without
key rune and parent; every other node points to an older node whose label its own label
extends by its key rune; the children map of a node lists exactly the nodes pointing to it,
under their key runes; and no two nodes carry the same label. -/
structure Labelled {T : Type} (h : Heap T) (key : Nat → Str) : Prop where
  root : ∃ nd, h[0]? = some nd ∧ nd.keyRune = none ∧ nd.parent = none
  key_root : key 0 = []
  nonroot : ∀ (i : Nat) (nd : Node T), h[i]? = some nd → 0 < i →
    ∃ p r, p < i ∧ nd.parent = some p ∧ nd.keyRune = some r ∧ key i = key p ++ [r]
  child_iff : ∀ (p : Nat) (nd : Node T) (r : Rune) (c : Nat), h[p]? = some nd →
    ((r, c) ∈ nd.children ↔ ∃ cd, h[c]? = some cd ∧ cd.parent = some p ∧ cd.keyRune = some r)
  inj : ∀ (i j : Nat), i < h.length → j < h.length → key i = key j → i = j

/-- The values of a labelled store against the items filed so far: a node holds, in input
order, the items whose normalized key is its label, and every item has its node. -/
structure Filed {T : Type} (h : Heap T) (key : Nat → Str) (items : List T) (nk : T → Str) :
    Prop where
  values_eq : ∀ (i : Nat) (nd : Node T), h[i]? = some nd →
    nd.values = items.filter (fun it => decide (nk it = key i))
  has_node : ∀ (it : T), it ∈ items → ∃ i : Nat, i < h.length ∧ key i = nk it

/-- The store after a fresh child under `r` has been hung below the node at `n`. -/
def withChild {T : Type} (h : Heap T) (n : Nat) (r : Rune) : Heap T :=
  updateNode (h ++ [newTrieNode (some n) (some r)]) n
    (fun nd => { nd with children := nd.children ++ [(r, h.length)] })

/-- What a successful `LoadTree` establishes about the tree it returns: the store has the
shape `addItem` builds, the items are filed under their normalized keys, and the leaf
pointers are the nodes without children. -/
structure Loaded {T : Type} (t : Tree T) (key : Nat → Str) (items : List T) (nk : T → Str) :
    Prop where
  labelled : Labelled t.nodes key
  filed : Filed t.nodes key items nk
  leaf_iff : ∀ l : Nat, l ∈ t.leafNodes ↔ l < t.nodes.length ∧ childNodes t.nodes l = []

/-- The records that have an entry in the results map, in insertion order. -/
def keysOf {T : Type} (results : Results T) : List T :=
  results.map Prod.fst

/-- The distance the results map records for `v` at position `i`: `results[v].Distances[i]`,
or nil when `v` has no entry or the position is past the end. -/
def slotOf {T : Type} [DecidableEq T] (results : Results T) (v : T) (i : Nat) : Option Int :=
  match results.lookup v with
  | some distanceResult => (distanceResult.Distances[i]?).getD none
  | none => none

/-- The results map of a search over `treeCount` trees: one entry per record, which points
back to the record, with the distances slice `evaluate` allocates (`treeCount + 1` long). -/
structure ResultsOK {T : Type} (results : Results T) (treeCount : Nat) : Prop where
  nodup : (keysOf results).Nodup
  result_eq : ∀ e : T × DistanceResult T, e ∈ results → e.2.Result = e.1
  length_eq : ∀ e : T × DistanceResult T, e ∈ results → e.2.Distances.length = treeCount + 1

/-- The value of the variable `levenshteinDistance` of `evaluate` after the visit of a
value whose distance was not set yet: scaled by the value's primary distance factor, when
it has one. -/
def nextDistance {T : Type} [Fuzzable T] (v : T) (levenshteinDistance : Int) : Int :=
  match Fuzzable.GetPrimaryDistanceFactor v with
  | some primaryDistanceFactor => scaleDistance levenshteinDistance primaryDistanceFactor
  | none => levenshteinDistance

/-- The node labelled `key n` matches the phrase: the normalized phrase is a subsequence of
the label. -/
def Matches (key : Nat → Str) (phrase : Str) (n : Nat) : Prop :=
  (normalizeTerm phrase).Sublist (key n)

/-- The node at `n` holds values and each of them has its distance for tree `i`. -/
def NodeDone {T : Type} [DecidableEq T] (h : Heap T) (results : Results T) (i n : Nat) : Prop :=
  GetValues h n ≠ [] ∧ ∀ v, v ∈ GetValues h n → slotOf results v i ≠ none

/-- The state of the sweep of `searchTree` over one tree, between two visits: `results` is
the map now, `results0` the map when the sweep began, `pending` the nodes still to visit
(the rest of the current frontier and the next frontier so far).

* `frame`, `keys`: only distances of tree `i` have been written, and entries were added
  only for records that got one.
* `sound`: a distance of tree `i` belongs to a record held by a matching node, all of whose
  values have their distance; with no primary distance factor at the node it is the tree
  weight plus the Levenshtein distance between the phrase and the node's key term.
* `cover`: a matching node with values is done or has a pending node below it.
* `done_cover`: above a done node, a matching node with values is done or has a pending
  node below it that lies strictly above the done node. -/
structure SweepInv {T : Type} [DecidableEq T] [Fuzzable T] (h : Heap T) (key : Nat → Str)
    (phrase : Str) (i tc : Nat) (results0 results : Results T) (pending : List Nat) :
    Prop where
  ok : ResultsOK results tc
  pending_lt : ∀ f : Nat, f ∈ pending → f < h.length
  frame : ∀ (v : T) (j : Nat), j ≠ i → slotOf results v j = slotOf results0 v j
  keys : ∀ v : T, v ∈ keysOf results ↔ v ∈ keysOf results0 ∨ slotOf results v i ≠ none
  sound : ∀ v : T, slotOf results v i ≠ none →
    ∃ n : Nat, n < h.length ∧ v ∈ GetValues h n ∧ Matches key phrase n ∧
      NodeDone h results i n ∧
      ((∀ u : T, u ∈ GetValues h n → Fuzzable.GetPrimaryDistanceFactor u = none) →
        slotOf results v i = some (treeWeight i + LevenshteinDistance phrase (key n)))
  cover : ∀ a : Nat, a < h.length → GetValues h a ≠ [] → Matches key phrase a →
    NodeDone h results i a ∨ ∃ f : Nat, f ∈ pending ∧ key a <+: key f
  done_cover : ∀ m a : Nat, m < h.length → NodeDone h results i m → a < h.length →
    GetValues h a ≠ [] → Matches key phrase a → key a <+: key m → a ≠ m →
    NodeDone h results i a ∨
      ∃ f : Nat, f ∈ pending ∧ key a <+: key f ∧ key f <+: key m ∧ f ≠ m

/-- What one tree of a ranker is loaded from: the context, the items and the extractor
handed to `LoadTree`. -/
structure TreeSource (C E T : Type) where
  ctx : Context C
  items : List T
  termExtractor : KeyTermExtractor C E T

/-- The normalized key of an item in the tree loaded from `s`. -/
def TreeSource.key {C E T : Type} (s : TreeSource C E T) (item : T) : Str :=
  normalizedKey s.ctx s.termExtractor item

/-- The trees are the ones `LoadTree` returns for the sources, in order. -/
def Built {C E T : Type} (sources : List (TreeSource C E T)) (trees : List (Tree T)) : Prop :=
  sources.map (fun s => LoadTree s.ctx s.items s.termExtractor) = trees.map Except.ok

/-- The record `r` matches the phrase in tree `i`: it was loaded into that tree and its
normalized key there contains the normalized phrase as a subsequence. -/
def MatchesIn {C E T : Type} (sources : List (TreeSource C E T)) (phrase : Str) (r : T)
    (i : Nat) : Prop :=
  ∃ s, sources[i]? = some s ∧ r ∈ s.items ∧ (normalizeTerm phrase).Sublist (s.key r)

/-- The results map of `Search` when the first `k` trees have been searched: the distance
of a record for a searched tree is set exactly when the record matches there, nothing else
is set, and the records with an entry are those with a distance.  A distance set at a node
none of whose values has a primary distance factor is the tree weight plus the Levenshtein
distance between the phrase and the record's normalized key. -/
structure SearchState {C E T : Type} [DecidableEq T] [Fuzzable T]
    (sources : List (TreeSource C E T)) (phrase : Str) (tc k : Nat) (results : Results T) :
    Prop where
  ok : ResultsOK results tc
  slot_iff : ∀ (v : T) (j : Nat), j < k →
    (slotOf results v j ≠ none ↔ MatchesIn sources phrase v j)
  slot_none : ∀ (v : T) (j : Nat), k ≤ j → slotOf results v j = none
  keys_iff : ∀ v : T, v ∈ keysOf results ↔ ∃ j : Nat, j < k ∧ slotOf results v j ≠ none
  value : ∀ (v : T) (j : Nat) (s : TreeSource C E T), j < k → sources[j]? = some s →
    slotOf results v j ≠ none →
    (∀ u : T, u ∈ s.items → s.key u = s.key v → Fuzzable.GetPrimaryDistanceFactor u = none) →
    slotOf results v j = some (treeWeight j + LevenshteinDistance phrase (s.key v))

/-- The order of two distances at one position: two concrete values compare as integers, a
concrete value is before nil, and nil is before nothing (two nils tie). -/
def slotLt : Option Int → Option Int → Prop
  | some a, some b => a < b
  | some _, none => True
  | none, _ => False

/-- The lexicographic order of two distance vectors, position by position: the first is
strictly smaller when, after a run of positions that tie, it is smaller at a position. -/
inductive VecLt : List (Option Int) → List (Option Int) → Prop where
  | head {a b : Option Int} {as bs : List (Option Int)} : slotLt a b → VecLt (a :: as) (b :: bs)
  | tail {a : Option Int} {as bs : List (Option Int)} : VecLt as bs → VecLt (a :: as) (a :: bs)

/-- What is left of the phrase, read backwards (`phrase`, last rune first), after the walk
from a node to the root (`chain`, the key runes met on the way up) has consumed every rune
it could: the pure reading of the loop of `Node.Contains`. -/
def unmatched : List Rune → List Rune → List Rune
  | [], phrase => phrase
  | _ :: _, [] => []
  | keyRune :: chain, currentRune :: phrase =>
    if keyRune = currentRune then unmatched chain phrase
    else unmatched chain (currentRune :: phrase)

end FuzzyTrie

namespace FuzzyTrie

/-! ## Paths from the root, and the sample data of the package's tests -/

/-- The key runes on the way down from the root: `RootPath h n runes` holds when the node at
`n` is reached from the root (the node at 0) through children maps, and `runes` are the key
runes of the nodes passed after the root, in order. -/
inductive RootPath {T : Type} (h : Heap T) : Nat → List Rune → Prop where
  | root : RootPath h 0 []
  | step {p c : Nat} {runes : List Rune} {cd : Node T} {r : Rune} :
      RootPath h p runes → c ∈ childNodes h p → h[c]? = some cd → cd.keyRune = some r →
      RootPath h c (runes ++ [r])

/-- The `testItem` of trie_test.go; `id` stands for the identity of the pointer. -/
structure TestItem where
  id : Nat
  text : String
  deriving DecidableEq, Repr

/-- The extractor of trie_test.go: `item.GetText()`, never failing. -/
def TestItem.getText : KeyTermExtractor Unit Unit TestItem :=
  fun _ item => .ok item.text.toList

/-- The items of the test "should return a trie": two cats, cataracts, dog. -/
def testItems : List TestItem :=
  [⟨0, "cat"⟩, ⟨1, "cat"⟩, ⟨2, "cataracts"⟩, ⟨3, "dog"⟩]

/-- The store `LoadTree` builds from `testItems`: the chain C, CA, CAT, ..., CATARACTS at
1 to 9 and the chain D, DO, DOG at 10 to 12. -/
def testHeap : Heap TestItem :=
  [ ⟨none, none, [('C', 1), ('D', 10)], []⟩,
    ⟨some 'C', some 0, [('A', 2)], []⟩,
    ⟨some 'A', some 1, [('T', 3)], []⟩,
    ⟨some 'T', some 2, [('A', 4)], [⟨0, "cat"⟩, ⟨1, "cat"⟩]⟩,
    ⟨some 'A', some 3, [('R', 5)], []⟩,
    ⟨some 'R', some 4, [('A', 6)], []⟩,
    ⟨some 'A', some 5, [('C', 7)], []⟩,
    ⟨some 'C', some 6, [('T', 8)], []⟩,
    ⟨some 'T', some 7, [('S', 9)], []⟩,
    ⟨some 'S', some 8, [], [⟨2, "cataracts"⟩]⟩,
    ⟨some 'D', some 0, [('O', 11)], []⟩,
    ⟨some 'O', some 10, [('G', 12)], []⟩,
    ⟨some 'G', some 11, [], [⟨3, "dog"⟩]⟩ ]

/-- The tree `LoadTree` returns for `testItems`. -/
def testTree : Tree TestItem :=
  { nodes := testHeap, leafNodes := [12, 9] }

/-- Two key terms, one a prefix of the other: "cat" and "catapult". -/
def catapultTerms : List Str :=
  ["cat".toList, "catapult".toList]

/-- The tree `LoadTree` returns for `catapultTerms` filed under themselves: the chain
C, CA, CAT, ..., CATAPULT at 1 to 8. -/
def catapultTree : Tree Str :=
  { nodes :=
      [ ⟨none, none, [('C', 1)], []⟩,
        ⟨some 'C', some 0, [('A', 2)], []⟩,
        ⟨some 'A', some 1, [('T', 3)], []⟩,
        ⟨some 'T', some 2, [('A', 4)], ["cat".toList]⟩,
        ⟨some 'A', some 3, [('P', 5)], []⟩,
        ⟨some 'P', some 4, [('U', 6)], []⟩,
        ⟨some 'U', some 5, [('L', 7)], []⟩,
        ⟨some 'L', some 6, [('T', 8)], []⟩,
        ⟨some 'T', some 7, [], ["catapult".toList]⟩ ],
    leafNodes := [8] }

/-- A record type for the ranker, after `testComparableFuzzable` of distance_tree_test.go:
a text to file the record under, with the primary distance factor and the secondary
distances it reports. -/
structure Sample where
  text : String
  factor : Option Rat
  secondary : List (Option Int)
  deriving DecidableEq, Repr

instance : Fuzzable Sample where
  GetPrimaryDistanceFactor := Sample.factor
  GetSecondaryDistances := Sample.secondary
  SortingGroup := fun _ => 1

/-- Loading samples under their text, with a context that is not cancelled. -/
def Sample.source (items : List Sample) : TreeSource Unit Unit Sample :=
  { ctx := { cause := none }, items := items, termExtractor := fun _ item => .ok item.text.toList }

/-- The tree `LoadTree` returns for the samples (the empty tree if it returned none). -/
def Sample.tree (items : List Sample) : Tree Sample :=
  match LoadTree (Sample.source items).ctx items (Sample.source items).termExtractor with
  | .ok t => t
  | .error _ => { nodes := [], leafNodes := [] }

/-- Three animals without primary distance factor; the secondary distance is the length of
the text. -/
def animals : List Sample :=
  [⟨"Cat", none, [some 3]⟩, ⟨"Wildcat", none, [some 7]⟩, ⟨"Dog", none, [some 3]⟩]

/-- Two records under the same normalized key, the second with one secondary distance more
than the first. -/
def unevenSamples : List Sample :=
  [⟨"A", none, []⟩, ⟨"a", none, [some 5]⟩]

/-- Two records under the same normalized key, the first with the primary distance factor
2, the second without a factor. -/
def factorSamples : List Sample :=
  [⟨"ABC", some 2, []⟩, ⟨"abc", none, []⟩]

deriving instance DecidableEq for Except

end FuzzyTrie

namespace FuzzyTrie

/-! ## Further notions: children maps, parent chains, the calls of the extractor -/

/-- The children maps of the store are maps: no code point has two entries. -/
def MapsOK {T : Type} (h : Heap T) : Prop :=
  ∀ (n : Nat) (nd : Node T), h[n]? = some nd → (nd.children.map Prod.fst).Nodup

/-- `GetParentNode` followed `k` times from the node at `n`; `none` when the chain ends
before. -/
def parentIter {T : Type} (h : Heap T) : Nat → Nat → Option Nat
  | 0, n => some n
  | k + 1, n =>
    match GetParentNode h n with
    | some p => parentIter h k p
    | none => none

end FuzzyTrie

namespace FuzzyTrie

/-! ## The calls of the extractor, and more sample data -/

/-- The `for _, item := range items` loop of `LoadTree` with the calls of the extractor
recorded: next to what `loadItems` returns, the items `termExtractor` was called on, in
the order of the calls. -/
def loadItemsTraced {C E T : Type} (ctx : Context C) (termExtractor : KeyTermExtractor C E T) :
    Heap T → List T → Except (LoadError E) (Heap T) × List T
  | h, [] => (.ok h, [])
  | h, item :: rest =>
    match termExtractor ctx item with
    | .error err => (.error (.extractFailed err), [item])
    | .ok itemKeyTerm =>
      let r := loadItemsTraced ctx termExtractor (addItem h 0 (normalizeTerm itemKeyTerm) item) rest
      (r.1, item :: r.2)

/-- The tree `LoadTree` returns for a source (the empty tree if it returned none). -/
def TreeSource.tree {C E T : Type} (s : TreeSource C E T) : Tree T :=
  match LoadTree s.ctx s.items s.termExtractor with
  | .ok t => t
  | .error _ => { nodes := [], leafNodes := [] }

/-- A record with two fields to search, after scenario S4 of the spec (developer names,
project names), and a rank it reports as its only secondary distance. -/
structure Asset where
  developer : String
  project : String
  rank : Int
  deriving DecidableEq, Repr

instance : Fuzzable Asset where
  GetPrimaryDistanceFactor := fun _ => none
  GetSecondaryDistances := fun a => [some a.rank]
  SortingGroup := fun _ => 1

/-- Loading assets under the developer name. -/
def Asset.byDeveloper (items : List Asset) : TreeSource Unit Unit Asset :=
  { ctx := { cause := none }, items := items,
    termExtractor := fun _ item => .ok item.developer.toList }

/-- Loading assets under the project name. -/
def Asset.byProject (items : List Asset) : TreeSource Unit Unit Asset :=
  { ctx := { cause := none }, items := items,
    termExtractor := fun _ item => .ok item.project.toList }

/-- Two assets: for the phrase "ADA" the first matches only by project (exactly), the
second only by developer (weakly). -/
def assets : List Asset :=
  [⟨"Bob", "Ada", 1⟩, ⟨"Amanda", "Trie", 2⟩]

/-- The sources of the ranker over `assets`: tree 0 by developer, tree 1 by project. -/
def assetSources : List (TreeSource Unit Unit Asset) :=
  [Asset.byDeveloper assets, Asset.byProject assets]

/-- The trees of the ranker over `assets`. -/
def assetTrees : List (Tree Asset) :=
  assetSources.map TreeSource.tree

/-- An extractor that fails on the item "dog" and on nothing else. -/
def dogFails : KeyTermExtractor Unit String TestItem :=
  fun _ item => if item.text = "dog" then .error "no key for dog" else .ok item.text.toList

/-- Three records for the empty phrase: one under the empty key (held by the root), one
at the interior node CA, one at the leaf CAT. -/
def rootSamples : List Sample :=
  [⟨"", none, [some 0]⟩, ⟨"Ca", none, [some 2]⟩, ⟨"Cat", none, [some 3]⟩]

/-- Two records whose keys differ in length; the record with the longer key reports the
smaller secondary distance. -/
def shortLong : List Sample :=
  [⟨"AB", none, [some 1]⟩, ⟨"A", none, [some 2]⟩]

/-- Two records under one normalized key, the first with the larger secondary distance. -/
def tiedSamples : List Sample :=
  [⟨"Cat", none, [some 9]⟩, ⟨"cat", none, [some 4]⟩]

end FuzzyTrie

namespace FuzzyTrie

/-! ## Frames of the results map, depths, and values at the leaves -/

/-- What a step of the search of tree `i` may do to an entry the results map has: the
entry stays, for the same record and with as many distances; no distance at a position
other than `i` changes; and a distance that is set at position `i` keeps its value. -/
def KeepsSlots {T : Type} [DecidableEq T] (i : Nat) (R R' : Results T) : Prop :=
  ∀ (v : T) (dr : DistanceResult T), R.lookup v = some dr →
    ∃ dr', R'.lookup v = some dr' ∧ dr'.Result = dr.Result ∧
      dr'.Distances.length = dr.Distances.length ∧
      (∀ j, j ≠ i → dr'.Distances[j]? = dr.Distances[j]?) ∧
      (∀ d : Int, dr.Distances[i]? = some (some d) → dr'.Distances[i]? = some (some d))

/-- The depth of the node at `n`: the length of its key term. -/
def depth {T : Type} (h : Heap T) (n : Nat) : Nat :=
  match GetKeyTerm h n with
  | some keyTerm => keyTerm.length
  | none => 0

/-- The node at `n`, if it has no children, holds a value. -/
def HoldsValue {T : Type} (h : Heap T) (n : Nat) : Prop :=
  ∀ nd : Node T, h[n]? = some nd → nd.children = [] → nd.values ≠ []

end FuzzyTrie

namespace FuzzyTrie

/-! ## A ranker with twenty trees -/

/-- The sources of a ranker with twenty trees: nineteen loaded with no items, the last one
with the record "Cat", which has no primary distance factor and no secondary distance. -/
def deepSources : List (TreeSource Unit Unit Sample) :=
  List.replicate 19 (Sample.source []) ++ [Sample.source [⟨"Cat", none, []⟩]]

/-- The trees of the ranker over `deepSources`. -/
def deepTrees : List (Tree Sample) :=
  deepSources.map TreeSource.tree

end FuzzyTrie

namespace FuzzyTrie

/-! ## The node store under `addItem` -/

section Store
variable {T : Type}

theorem length_updateNode (h : Heap T) (n : Nat) (f : Node T → Node T) :
    (updateNode h n f).length = h.length := by
  unfold updateNode
  split <;> simp

theorem getElem?_updateNode (h : Heap T) (n i : Nat) (f : Node T → Node T) :
    (updateNode h n f)[i]? = if i = n then (h[n]?).map f else h[i]? := by
  unfold updateNode
  split
  · rename_i nd hnd
    have hlt : n < h.length := by
      rcases Nat.lt_or_ge n h.length with hl | hl
      · exact hl
      · rw [List.getElem?_eq_none hl] at hnd; cases hnd
    rw [List.getElem?_set]
    by_cases hi : n = i
    · subst hi; simp [hnd, hlt]
    · have hi2 : ¬ i = n := fun e => hi e.symm
      simp [hi, hi2]
  · rename_i hnone
    by_cases hi : i = n
    · subst hi; simp [hnone]
    · simp [hi]

theorem lt_length_of_getElem? {α : Type} {l : List α} {i : Nat} {a : α} (hi : l[i]? = some a) :
    i < l.length := by
  rcases Nat.lt_or_ge i l.length with hl | hl
  · exact hl
  · rw [List.getElem?_eq_none hl] at hi; cases hi

theorem exists_getElem?_of_lt {α : Type} {l : List α} {i : Nat} (hi : i < l.length) :
    ∃ a, l[i]? = some a :=
  ⟨l[i], List.getElem?_eq_getElem hi⟩

/-- In a labelled store the label of a parent is the label of the child without its last
rune, and the parent is an older node. -/
theorem Labelled.parent_lt {h : Heap T} {key : Nat → Str} (hl : Labelled h key)
    {i p : Nat} {nd : Node T} (hi : h[i]? = some nd) (hp : nd.parent = some p) : p < i := by
  rcases Nat.eq_zero_or_pos i with h0 | hpos
  · subst h0
    obtain ⟨rt, hrt, _, hpar⟩ := hl.root
    rw [hi] at hrt; cases hrt
    rw [hp] at hpar; cases hpar
  · obtain ⟨p', r, hlt, hpar, _, _⟩ := hl.nonroot i nd hi hpos
    rw [hp] at hpar; cases hpar
    exact hlt

/-- A node with the label `key n ++ [r]` is the child of `n` under `r`. -/
theorem Labelled.child_of_key {h : Heap T} {key : Nat → Str} (hl : Labelled h key)
    {n m : Nat} {r : Rune} {nd : Node T} (hn : h[n]? = some nd) (hm : m < h.length)
    (hk : key m = key n ++ [r]) : (r, m) ∈ nd.children := by
  obtain ⟨md, hmd⟩ := exists_getElem?_of_lt hm
  have hpos : 0 < m := by
    rcases Nat.eq_zero_or_pos m with h0 | hpos
    · subst h0
      rw [hl.key_root] at hk
      simp at hk
    · exact hpos
  obtain ⟨p, r', hlt, hpar, hkr, hkey⟩ := hl.nonroot m md hmd hpos
  rw [hk] at hkey
  have hsplit := List.append_inj' hkey (by simp)
  obtain ⟨hkp, hr⟩ := hsplit
  simp at hr
  subst hr
  have hpn : n = p := hl.inj n p (lt_length_of_getElem? hn) (Nat.lt_trans hlt hm) hkp
  subst hpn
  exact (hl.child_iff n nd r m hn).2 ⟨md, hmd, hpar, hkr⟩

theorem lookup_mem {α β : Type} [BEq α] [LawfulBEq α] {l : List (α × β)} {k : α} {b : β}
    (hk : l.lookup k = some b) : (k, b) ∈ l := by
  obtain ⟨l₁, l₂, rfl, _⟩ := List.lookup_eq_some_iff.1 hk
  simp

end Store

end FuzzyTrie

namespace FuzzyTrie

section AddItem
variable {T : Type}

/-- Appending a value to the node at `n`: what the new store holds at `i`. -/
theorem getElem?_appendValue {h : Heap T} {n i : Nat} {item : T} {nd' : Node T}
    (hi : (updateNode h n (fun nd => { nd with values := nd.values ++ [item] }))[i]? = some nd') :
    ∃ nd, h[i]? = some nd ∧ nd'.keyRune = nd.keyRune ∧ nd'.parent = nd.parent ∧
      nd'.children = nd.children ∧
      nd'.values = if i = n then nd.values ++ [item] else nd.values := by
  rw [getElem?_updateNode] at hi
  by_cases hin : i = n
  · subst hin
    simp only [if_true] at hi
    cases hnd : h[i]? with
    | none => rw [hnd] at hi; cases hi
    | some nd =>
      rw [hnd] at hi
      simp only [Option.map_some', Option.some.injEq] at hi
      subst hi
      exact ⟨nd, rfl, rfl, rfl, rfl, by simp⟩
  · simp only [hin, if_false] at hi
    exact ⟨nd', hi, rfl, rfl, rfl, by simp [hin]⟩

theorem getElem?_appendValue_of {h : Heap T} (n : Nat) {i : Nat} (item : T) {nd : Node T}
    (hi : h[i]? = some nd) :
    ∃ nd', (updateNode h n (fun nd => { nd with values := nd.values ++ [item] }))[i]? = some nd' ∧
      nd'.keyRune = nd.keyRune ∧ nd'.parent = nd.parent ∧ nd'.children = nd.children := by
  rw [getElem?_updateNode]
  by_cases hin : i = n
  · subst hin
    simp only [if_true, hi, Option.map_some']
    exact ⟨_, rfl, rfl, rfl, rfl⟩
  · simp only [hin, if_false]
    exact ⟨nd, hi, rfl, rfl, rfl⟩

/-- Appending a value keeps the shape of the store. -/
theorem Labelled.appendValue_shape {h : Heap T} {key : Nat → Str} (hl : Labelled h key) (n : Nat)
    (item : T) :
    Labelled (updateNode h n (fun nd => { nd with values := nd.values ++ [item] })) key := by
  constructor
  · obtain ⟨rt, hrt, hk, hp⟩ := hl.root
    obtain ⟨nd', hnd', h1, h2, _⟩ := getElem?_appendValue_of n item hrt
    exact ⟨nd', hnd', by rw [h1, hk], by rw [h2, hp]⟩
  · exact hl.key_root
  · intro i nd' hi hpos
    obtain ⟨nd, hnd, h1, h2, _, _⟩ := getElem?_appendValue hi
    obtain ⟨p, r, hlt, hpar, hkr, hkey⟩ := hl.nonroot i nd hnd hpos
    exact ⟨p, r, hlt, by rw [h2, hpar], by rw [h1, hkr], hkey⟩
  · intro p nd' r c hp
    obtain ⟨nd, hnd, _, _, h3, _⟩ := getElem?_appendValue hp
    rw [h3, hl.child_iff p nd r c hnd]
    constructor
    · rintro ⟨cd, hcd, hpar, hkr⟩
      obtain ⟨cd', hcd', h1, h2, _⟩ := getElem?_appendValue_of n item hcd
      exact ⟨cd', hcd', by rw [h2, hpar], by rw [h1, hkr]⟩
    · rintro ⟨cd', hcd', hpar, hkr⟩
      obtain ⟨cd, hcd, h1, h2, _, _⟩ := getElem?_appendValue hcd'
      exact ⟨cd, hcd, by rw [← h2, hpar], by rw [← h1, hkr]⟩
  · intro i j hi hj
    rw [length_updateNode] at hi hj
    exact hl.inj i j hi hj

theorem filter_append_singleton_pos {α : Type} (l : List α) (a : α) (p : α → Bool)
    (hp : p a = true) : (l ++ [a]).filter p = l.filter p ++ [a] := by
  simp [List.filter_append, List.filter_cons, hp]

theorem filter_append_singleton_neg {α : Type} (l : List α) (a : α) (p : α → Bool)
    (hp : p a = false) : (l ++ [a]).filter p = l.filter p := by
  simp [List.filter_append, List.filter_cons, hp]

/-- Filing an item at the node that carries its normalized key. -/
theorem Filed.appendValue_filed {h : Heap T} {key : Nat → Str} {items : List T} {nk : T → Str}
    (hl : Labelled h key) (hf : Filed h key items nk) {n : Nat} (hn : n < h.length) (item : T)
    (hk : key n = nk item) :
    Filed (updateNode h n (fun nd => { nd with values := nd.values ++ [item] })) key
      (items ++ [item]) nk := by
  constructor
  · intro i nd' hi
    obtain ⟨nd, hnd, _, _, _, hv⟩ := getElem?_appendValue hi
    rw [hv, hf.values_eq i nd hnd]
    by_cases hin : i = n
    · subst hin
      rw [if_pos rfl, filter_append_singleton_pos]
      simp [hk]
    · rw [if_neg hin, filter_append_singleton_neg]
      have hne : ¬ nk item = key i := by
        intro e
        exact hin (hl.inj i n (lt_length_of_getElem? hnd) hn (by rw [← e, hk]))
      simp [hne]
  · intro it hit
    rw [length_updateNode]
    rcases List.mem_append.1 hit with hold | hnew
    · exact hf.has_node it hold
    · simp only [List.mem_singleton] at hnew
      subst hnew
      exact ⟨n, hn, hk⟩

end AddItem

end FuzzyTrie

namespace FuzzyTrie

section AddChild
variable {T : Type}

theorem length_withChild (h : Heap T) (n : Nat) (r : Rune) :
    (withChild h n r).length = h.length + 1 := by
  simp [withChild, length_updateNode]

theorem getElem?_withChild {h : Heap T} {n i : Nat} {r : Rune} (hn : n < h.length)
    {nd2 : Node T} (hi : (withChild h n r)[i]? = some nd2) :
    (i < h.length ∧ ∃ nd, h[i]? = some nd ∧ nd2.keyRune = nd.keyRune ∧
        nd2.parent = nd.parent ∧ nd2.values = nd.values ∧
        nd2.children = if i = n then nd.children ++ [(r, h.length)] else nd.children) ∨
      (i = h.length ∧ nd2 = newTrieNode (some n) (some r)) := by
  unfold withChild at hi
  rw [getElem?_updateNode] at hi
  by_cases hin : i = n
  · subst hin
    simp only [if_true] at hi
    rw [List.getElem?_append_left hn] at hi
    cases hnd : h[i]? with
    | none => rw [hnd] at hi; cases hi
    | some nd =>
      rw [hnd] at hi
      simp only [Option.map_some', Option.some.injEq] at hi
      subst hi
      exact Or.inl ⟨hn, nd, rfl, rfl, rfl, rfl, by simp⟩
  · simp only [hin, if_false] at hi
    rcases Nat.lt_or_ge i h.length with hlt | hge
    · rw [List.getElem?_append_left hlt] at hi
      exact Or.inl ⟨hlt, nd2, hi, rfl, rfl, rfl, by simp [hin]⟩
    · rw [List.getElem?_append_right hge] at hi
      have hil : i - h.length = 0 := by
        rcases Nat.eq_zero_or_pos (i - h.length) with h0 | hpos
        · exact h0
        · rw [List.getElem?_eq_none (by simp only [List.length_singleton]; omega)] at hi; cases hi
      rw [hil] at hi
      simp only [List.getElem?_cons_zero, Option.some.injEq] at hi
      exact Or.inr ⟨by omega, hi.symm⟩

theorem getElem?_withChild_old {h : Heap T} {n i : Nat} {r : Rune} {nd : Node T}
    (hi : h[i]? = some nd) :
    ∃ nd2, (withChild h n r)[i]? = some nd2 ∧ nd2.keyRune = nd.keyRune ∧
      nd2.parent = nd.parent ∧ nd2.values = nd.values ∧
      nd2.children = if i = n then nd.children ++ [(r, h.length)] else nd.children := by
  have hlt := lt_length_of_getElem? hi
  unfold withChild
  rw [getElem?_updateNode]
  by_cases hin : i = n
  · subst hin
    simp only [if_true, List.getElem?_append_left hlt, hi, Option.map_some']
    exact ⟨_, rfl, rfl, rfl, rfl, rfl⟩
  · simp only [hin, if_false, List.getElem?_append_left hlt]
    exact ⟨nd, hi, rfl, rfl, rfl, rfl⟩

theorem getElem?_withChild_new {h : Heap T} {n : Nat} {r : Rune} (hn : n < h.length) :
    (withChild h n r)[h.length]? = some (newTrieNode (some n) (some r)) := by
  unfold withChild
  rw [getElem?_updateNode]
  have hne : ¬ h.length = n := by omega
  simp [hne]

/-- Hanging a fresh child under a rune the node has no child for keeps the shape of the
store; the new node is labelled with the label of its parent extended by the rune. -/
theorem Labelled.withChild_shape {h : Heap T} {key : Nat → Str} (hl : Labelled h key) {n : Nat}
    (hn : n < h.length) (r : Rune)
    (hfresh : ∀ m, m < h.length → key m ≠ key n ++ [r]) :
    Labelled (withChild h n r) (Function.update key h.length (key n ++ [r])) := by
  have hkey_old : ∀ i, i < h.length →
      Function.update key h.length (key n ++ [r]) i = key i := by
    intro i hi
    exact Function.update_noteq (by omega) _ _
  have hkey_new : Function.update key h.length (key n ++ [r]) h.length = key n ++ [r] :=
    Function.update_same _ _ _
  have hpos : 0 < h.length := by omega
  constructor
  · obtain ⟨rt, hrt, hk, hp⟩ := hl.root
    obtain ⟨nd2, hnd2, h1, h2, _⟩ := getElem?_withChild_old (n := n) (r := r) hrt
    exact ⟨nd2, hnd2, by rw [h1, hk], by rw [h2, hp]⟩
  · rw [hkey_old 0 hpos]; exact hl.key_root
  · intro i nd2 hi hipos
    rcases getElem?_withChild hn hi with ⟨hlt, nd, hnd, h1, h2, _, _⟩ | ⟨hil, hnew⟩
    · obtain ⟨p, r', hpl, hpar, hkr, hkey⟩ := hl.nonroot i nd hnd hipos
      refine ⟨p, r', hpl, by rw [h2, hpar], by rw [h1, hkr], ?_⟩
      rw [hkey_old i hlt, hkey_old p (by omega)]
      exact hkey
    · subst hil; subst hnew
      refine ⟨n, r, hn, rfl, rfl, ?_⟩
      rw [hkey_new, hkey_old n hn]
  · intro p nd2 r' c hp
    rcases getElem?_withChild hn hp with ⟨hlt, nd, hnd, _, _, _, hch⟩ | ⟨hil, hnew⟩
    · rw [hch]
      constructor
      · intro hmem
        have hold_or : (r', c) ∈ nd.children ∨ (p = n ∧ r' = r ∧ c = h.length) := by
          by_cases hpn : p = n
          · rw [if_pos hpn] at hmem
            rcases List.mem_append.1 hmem with ho | hn'
            · exact Or.inl ho
            · simp only [List.mem_singleton, Prod.mk.injEq] at hn'
              exact Or.inr ⟨hpn, hn'.1, hn'.2⟩
          · rw [if_neg hpn] at hmem
            exact Or.inl hmem
        rcases hold_or with ho | ⟨hpn, hr, hc⟩
        · obtain ⟨cd, hcd, hpar, hkr⟩ := (hl.child_iff p nd r' c hnd).1 ho
          obtain ⟨cd2, hcd2, h1, h2, _⟩ := getElem?_withChild_old (n := n) (r := r) hcd
          exact ⟨cd2, hcd2, by rw [h2, hpar], by rw [h1, hkr]⟩
        · subst hpn; subst hr; subst hc
          exact ⟨_, getElem?_withChild_new hn, rfl, rfl⟩
      · rintro ⟨cd2, hcd2, hpar, hkr⟩
        rcases getElem?_withChild hn hcd2 with ⟨_, cd, hcd, h1, h2, _, _⟩ | ⟨hcl, hnew⟩
        · have hmem : (r', c) ∈ nd.children :=
            (hl.child_iff p nd r' c hnd).2 ⟨cd, hcd, by rw [← h2, hpar], by rw [← h1, hkr]⟩
          by_cases hpn : p = n
          · rw [if_pos hpn]; exact List.mem_append_left _ hmem
          · rw [if_neg hpn]; exact hmem
        · subst hnew
          simp only [newTrieNode, Option.some.injEq] at hpar hkr
          subst hpar; subst hkr; subst hcl
          rw [if_pos rfl]
          exact List.mem_append_right _ (by simp)
    · subst hnew
      constructor
      · intro hmem
        simp [newTrieNode] at hmem
      · rintro ⟨cd2, hcd2, hpar, _⟩
        exfalso
        rcases getElem?_withChild hn hcd2 with ⟨hcl, cd, hcd, _, h2, _, _⟩ | ⟨_, hnew⟩
        · have := hl.parent_lt hcd (by rw [← h2, hpar])
          omega
        · subst hnew
          simp only [newTrieNode, Option.some.injEq] at hpar
          omega
  · intro i j hi hj hij
    rw [length_withChild] at hi hj
    rcases Nat.lt_or_ge i h.length with hil | hil
    · rcases Nat.lt_or_ge j h.length with hjl | hjl
      · rw [hkey_old i hil, hkey_old j hjl] at hij
        exact hl.inj i j hil hjl hij
      · have hje : j = h.length := by omega
        subst hje
        rw [hkey_old i hil, hkey_new] at hij
        exact absurd hij (hfresh i hil)
    · have hie : i = h.length := by omega
      subst hie
      rcases Nat.lt_or_ge j h.length with hjl | hjl
      · rw [hkey_old j hjl, hkey_new] at hij
        exact absurd hij.symm (hfresh j hjl)
      · omega

/-- Hanging a fresh child keeps the filing of the items: the new node is empty, and no item
filed so far has its label. -/
theorem Filed.withChild_filed {h : Heap T} {key : Nat → Str} {items : List T} {nk : T → Str}
    (hf : Filed h key items nk) {n : Nat} (hn : n < h.length) (r : Rune)
    (hfresh : ∀ m, m < h.length → key m ≠ key n ++ [r]) :
    Filed (withChild h n r) (Function.update key h.length (key n ++ [r])) items nk := by
  have hkey_old : ∀ i, i < h.length →
      Function.update key h.length (key n ++ [r]) i = key i := by
    intro i hi
    exact Function.update_noteq (by omega) _ _
  have hkey_new : Function.update key h.length (key n ++ [r]) h.length = key n ++ [r] :=
    Function.update_same _ _ _
  constructor
  · intro i nd2 hi
    rcases getElem?_withChild hn hi with ⟨hlt, nd, hnd, _, _, hv, _⟩ | ⟨hil, hnew⟩
    · rw [hv, hkey_old i hlt]
      exact hf.values_eq i nd hnd
    · subst hil; subst hnew
      rw [hkey_new]
      show ([] : List T) = _
      symm
      rw [List.filter_eq_nil_iff]
      intro it hit
      obtain ⟨m, hm, hkm⟩ := hf.has_node it hit
      simp only [decide_eq_true_eq]
      intro e
      exact hfresh m hm (by rw [hkm, e])
  · intro it hit
    obtain ⟨m, hm, hkm⟩ := hf.has_node it hit
    refine ⟨m, ?_, ?_⟩
    · rw [length_withChild]; omega
    · rw [hkey_old m hm]; exact hkm

/-- `addItem` keeps the shape of the store and files the item under its normalized key. -/
theorem addItem_spec (items : List T) (nk : T → Str) (item : T) :
    ∀ (runes : List Rune) (h : Heap T) (key : Nat → Str) (n : Nat),
      Labelled h key → Filed h key items nk → n < h.length → key n ++ runes = nk item →
      ∃ key', Labelled (addItem h n runes item) key' ∧
        Filed (addItem h n runes item) key' (items ++ [item]) nk := by
  intro runes
  induction runes with
  | nil =>
    intro h key n hl hf hn hk
    rw [List.append_nil] at hk
    exact ⟨key, hl.appendValue_shape n item, hf.appendValue_filed hl hn item hk⟩
  | cons firstRune rest ih =>
    intro h key n hl hf hn hk
    obtain ⟨nd, hnd⟩ := exists_getElem?_of_lt hn
    unfold addItem
    cases hc : childAt h n firstRune with
    | some c =>
      simp only
      have hlook : nd.children.lookup firstRune = some c := by
        simpa [childAt, hnd] using hc
      have hmem := lookup_mem hlook
      obtain ⟨cd, hcd, hpar, hkr⟩ := (hl.child_iff n nd firstRune c hnd).1 hmem
      have hclt := lt_length_of_getElem? hcd
      have hcpos : 0 < c := by
        have := hl.parent_lt hcd hpar
        omega
      obtain ⟨p, r', _, hpar', hkr', hkey⟩ := hl.nonroot c cd hcd hcpos
      rw [hpar] at hpar'; cases hpar'
      rw [hkr] at hkr'; cases hkr'
      exact ih h key c hl hf hclt (by rw [hkey, List.append_assoc]; exact hk)
    | none =>
      simp only
      have hlook : nd.children.lookup firstRune = none := by
        simpa [childAt, hnd] using hc
      have hfresh : ∀ m, m < h.length → key m ≠ key n ++ [firstRune] := by
        intro m hm e
        have hmem := hl.child_of_key hnd hm e
        rw [List.lookup_eq_none_iff] at hlook
        have := hlook (firstRune, m) hmem
        simp at this
      have hl2 := hl.withChild_shape hn firstRune hfresh
      have hf2 := hf.withChild_filed hn firstRune hfresh
      have := ih (withChild h n firstRune) _ h.length hl2 hf2
        (by rw [length_withChild]; omega)
        (by rw [Function.update_same, List.append_assoc]; exact hk)
      exact this

end AddChild

end FuzzyTrie

namespace FuzzyTrie

section Walks
variable {T : Type}

theorem unmatched_nil_right (chain : List Rune) : unmatched chain [] = [] := by
  cases chain <;> rfl

/-- The greedy walk consumes the whole phrase exactly when the phrase is a subsequence. -/
theorem unmatched_eq_nil_iff (chain : List Rune) :
    ∀ phrase : List Rune, unmatched chain phrase = [] ↔ phrase.Sublist chain := by
  induction chain with
  | nil =>
    intro phrase
    simp [unmatched]
  | cons k ks ih =>
    intro phrase
    cases phrase with
    | nil => simp [unmatched]
    | cons p ps =>
      by_cases hkp : k = p
      · subst hkp
        simp only [unmatched, if_true]
        rw [ih ps, List.cons_sublist_cons]
      · simp only [unmatched, if_neg hkp]
        rw [ih (p :: ps), List.sublist_cons_iff]
        constructor
        · intro hs
          exact Or.inl hs
        · rintro (hs | ⟨r, hr, _⟩)
          · exact hs
          · simp only [List.cons.injEq] at hr
            exact absurd hr.1.symm hkp

theorem keyTermLoop_eq {h : Heap T} {key : Nat → Str} (hl : Labelled h key) :
    ∀ (fuel p : Nat) (acc : List Rune), p < fuel → p < h.length →
      keyTermLoop h fuel acc (some p) = some (acc ++ (key p).reverse) := by
  intro fuel
  induction fuel with
  | zero => intro p acc hp; omega
  | succ fuel ih =>
    intro p acc hp hlen
    obtain ⟨nd, hnd⟩ := exists_getElem?_of_lt hlen
    rw [keyTermLoop]
    simp only [hnd]
    rcases Nat.eq_zero_or_pos p with h0 | hpos
    · subst h0
      obtain ⟨rt, hrt, hk, _⟩ := hl.root
      rw [hnd] at hrt; cases hrt
      simp [hk, hl.key_root]
    · obtain ⟨p', r, hlt, hpar, hkr, hkey⟩ := hl.nonroot p nd hnd hpos
      simp only [hkr, hpar]
      rw [ih p' (acc ++ [r]) (by omega) (by omega), hkey]
      simp

/-- `GetKeyTerm` returns the label of the node. -/
theorem GetKeyTerm_eq {h : Heap T} {key : Nat → Str} (hl : Labelled h key) {n : Nat}
    (hn : n < h.length) : GetKeyTerm h n = some (key n) := by
  obtain ⟨nd, hnd⟩ := exists_getElem?_of_lt hn
  unfold GetKeyTerm
  simp only [hnd]
  rcases Nat.eq_zero_or_pos n with h0 | hpos
  · subst h0
    obtain ⟨rt, hrt, hk, _⟩ := hl.root
    rw [hnd] at hrt; cases hrt
    simp [hk, hl.key_root]
  · obtain ⟨p', r, hlt, hpar, hkr, hkey⟩ := hl.nonroot n nd hnd hpos
    simp only [hkr, hpar]
    rw [keyTermLoop_eq hl h.length p' [r] (by omega) (by omega), hkey]
    simp

theorem containsLoop_eq {h : Heap T} {key : Nat → Str} (hl : Labelled h key)
    (runes : List Rune) :
    ∀ (fuel p m : Nat), p < fuel → p < h.length → m ≤ runes.length →
      containsLoop h runes fuel (some p) ((m : Int) - 1) =
        some (((unmatched (key p).reverse (runes.take m).reverse).length : Int) - 1) := by
  intro fuel
  induction fuel with
  | zero => intro p m hp; omega
  | succ fuel ih =>
    intro p m hp hlen hm
    obtain ⟨nd, hnd⟩ := exists_getElem?_of_lt hlen
    rw [containsLoop]
    simp only [hnd]
    rcases Nat.eq_zero_or_pos p with h0 | hpos
    · subst h0
      obtain ⟨rt, hrt, hk, _⟩ := hl.root
      rw [hnd] at hrt; cases hrt
      simp [hk, hl.key_root, unmatched, Nat.min_eq_left hm]
    · obtain ⟨p', r, hlt, hpar, hkr, hkey⟩ := hl.nonroot p nd hnd hpos
      simp only [hkr, hpar]
      rcases Nat.eq_zero_or_pos m with hm0 | hmpos
      · subst hm0
        simp [unmatched_nil_right]
      · have hnotneg : ¬ ((m : Int) - 1 < 0) := by omega
        rw [if_neg hnotneg]
        have hidx : ((m : Int) - 1).toNat = m - 1 := by omega
        have hlt' : m - 1 < runes.length := by omega
        rw [hidx, List.getElem?_eq_getElem hlt']
        simp only
        have htake : runes.take m = runes.take (m - 1) ++ [runes[m - 1]] := by
          have := List.take_succ (l := runes) (n := m - 1)
          rw [List.getElem?_eq_getElem hlt'] at this
          have hm1 : m - 1 + 1 = m := by omega
          rw [hm1] at this
          simpa using this
        have hrev : (runes.take m).reverse = runes[m - 1] :: (runes.take (m - 1)).reverse := by
          rw [htake]; simp
        rw [hrev, hkey]
        simp only [List.reverse_append, List.reverse_cons, List.reverse_nil, List.nil_append,
          List.singleton_append, unmatched]
        by_cases hrc : r = runes[m - 1]
        · rw [if_pos hrc, if_pos hrc]
          have hcast : ((m : Int) - 1 - 1) = (((m - 1 : Nat) : Int) - 1) := by omega
          rw [hcast, ih p' (m - 1) (by omega) (by omega) (by omega)]
        · rw [if_neg hrc, if_neg hrc]
          rw [ih p' m (by omega) (by omega) hm, hrev]

/-- `Contains` decides whether the normalized phrase is a subsequence of the node's label. -/
theorem Contains_eq {h : Heap T} {key : Nat → Str} (hl : Labelled h key) {n : Nat}
    (hn : n < h.length) (phrase : Str) :
    Contains h n phrase = some (decide ((normalizeTerm phrase).Sublist (key n))) := by
  unfold Contains
  simp only
  have := containsLoop_eq hl (normalizeTerm phrase) h.length n (normalizeTerm phrase).length
    hn hn (Nat.le_refl _)
  rw [this]
  simp only [Option.map_some', Option.some.injEq, List.take_length]
  have hiff : (((unmatched (key n).reverse (normalizeTerm phrase).reverse).length : Int) - 1 < 0)
      ↔ (normalizeTerm phrase).Sublist (key n) := by
    rw [← List.reverse_sublist, ← unmatched_eq_nil_iff, ← List.length_eq_zero]
    omega
  exact decide_eq_decide.2 hiff

end Walks

end FuzzyTrie

namespace FuzzyTrie

section Leaves
variable {T : Type}

theorem Labelled.mem_childNodes {h : Heap T} {key : Nat → Str} (hl : Labelled h key)
    {n c : Nat} (hn : n < h.length) :
    c ∈ childNodes h n ↔ ∃ cd, h[c]? = some cd ∧ cd.parent = some n := by
  obtain ⟨nd, hnd⟩ := exists_getElem?_of_lt hn
  unfold childNodes
  simp only [hnd, List.mem_map]
  constructor
  · rintro ⟨⟨r, c'⟩, hmem, hc⟩
    simp only at hc
    subst hc
    obtain ⟨cd, hcd, hpar, _⟩ := (hl.child_iff n nd r c' hnd).1 hmem
    exact ⟨cd, hcd, hpar⟩
  · rintro ⟨cd, hcd, hpar⟩
    have hlt := hl.parent_lt hcd hpar
    obtain ⟨p, r, _, hpar', hkr, _⟩ := hl.nonroot c cd hcd (by omega)
    exact ⟨(r, c), (hl.child_iff n nd r c hnd).2 ⟨cd, hcd, hpar, hkr⟩, rfl⟩

/-- A child is a younger node of the store whose label extends its parent's by one rune. -/
theorem Labelled.child_facts {h : Heap T} {key : Nat → Str} (hl : Labelled h key)
    {n c : Nat} (hn : n < h.length) (hc : c ∈ childNodes h n) :
    n < c ∧ c < h.length ∧ ∃ r, key c = key n ++ [r] := by
  obtain ⟨cd, hcd, hpar⟩ := (hl.mem_childNodes hn).1 hc
  have hlt := hl.parent_lt hcd hpar
  obtain ⟨p, r, _, hpar', _, hkey⟩ := hl.nonroot c cd hcd (by omega)
  rw [hpar] at hpar'; cases hpar'
  exact ⟨hlt, lt_length_of_getElem? hcd, r, hkey⟩

/-- Every prefix of a label is the label of a node. -/
theorem Labelled.exists_prefix_node {h : Heap T} {key : Nat → Str} (hl : Labelled h key) :
    ∀ (l : Nat), l < h.length → ∀ k : Str, k <+: key l → ∃ m, m < h.length ∧ key m = k := by
  intro l
  induction l using Nat.strong_induction_on with
  | _ l ih =>
    intro hlen k hk
    rcases Nat.eq_zero_or_pos l with h0 | hpos
    · subst h0
      rw [hl.key_root, List.prefix_nil] at hk
      exact ⟨0, hlen, by rw [hl.key_root, hk]⟩
    · obtain ⟨nd, hnd⟩ := exists_getElem?_of_lt hlen
      obtain ⟨p, r, hlt, _, _, hkey⟩ := hl.nonroot l nd hnd hpos
      rw [hkey, List.prefix_concat_iff] at hk
      rcases hk with he | hp
      · exact ⟨l, hlen, by rw [hkey, he]⟩
      · exact ih p hlt (by omega) k hp

/-- Below a node, toward any proper descendant, there is a child. -/
theorem Labelled.exists_child_toward {h : Heap T} {key : Nat → Str} (hl : Labelled h key)
    {n l : Nat} (hn : n < h.length) (hlen : l < h.length) (hpre : key n <+: key l)
    (hne : n ≠ l) : ∃ c, c ∈ childNodes h n ∧ key c <+: key l := by
  obtain ⟨t, ht⟩ := hpre
  cases t with
  | nil =>
    rw [List.append_nil] at ht
    exact absurd (hl.inj n l hn hlen ht) hne
  | cons r t' =>
    have hk : key n ++ [r] <+: key l := ⟨t', by rw [← ht]; simp⟩
    obtain ⟨m, hm, hkm⟩ := hl.exists_prefix_node l hlen _ hk
    obtain ⟨nd, hnd⟩ := exists_getElem?_of_lt hn
    have hmem := hl.child_of_key hnd hm hkm
    refine ⟨m, ?_, by rw [hkm]; exact hk⟩
    unfold childNodes
    simp only [hnd, List.mem_map]
    exact ⟨(r, m), hmem, rfl⟩

theorem leafPass_eq (h : Heap T) :
    ∀ (cands leaves next : List Nat),
      leafPass h cands leaves next =
        (leaves ++ cands.filter (fun c => decide (childNodes h c = [])),
          next ++ cands.flatMap (childNodes h)) := by
  intro cands
  induction cands with
  | nil => intro leaves next; simp [leafPass]
  | cons c rest ih =>
    intro leaves next
    rw [leafPass]
    by_cases hc : childNodes h c = []
    · have hlen : (childNodes h c).length = 0 := by rw [hc]; rfl
      rw [if_pos hlen, ih]
      simp [hc, List.filter_cons]
    · have hlen : ¬ (childNodes h c).length = 0 := by
        intro e; exact hc (List.length_eq_zero.1 e)
      rw [if_neg hlen, ih]
      simp [hc, List.filter_cons, List.append_assoc]

/-- The leaf loop ends within its budget and returns, besides the leaves found before, the
childless nodes below the candidates. -/
theorem leafLoop_spec {h : Heap T} {key : Nat → Str} (hl : Labelled h key) :
    ∀ (fuel : Nat) (cands leaves : List Nat) (b : Nat),
      (∀ c, c ∈ cands → b ≤ c ∧ c < h.length) → h.length ≤ fuel + b →
      ∃ out, leafLoop h fuel cands leaves = some out ∧
        ∀ l, l ∈ out ↔ l ∈ leaves ∨
          (l < h.length ∧ childNodes h l = [] ∧ ∃ c, c ∈ cands ∧ key c <+: key l) := by
  intro fuel
  induction fuel with
  | zero =>
    intro cands leaves b hc hb
    cases cands with
    | nil =>
      refine ⟨leaves, by simp [leafLoop], ?_⟩
      intro l; simp
    | cons c rest =>
      have := hc c (List.mem_cons_self _ _)
      omega
  | succ fuel ih =>
    intro cands leaves b hc hb
    cases hcands : cands with
    | nil =>
      refine ⟨leaves, by simp [leafLoop], ?_⟩
      intro l; simp
    | cons c0 rest =>
      rw [← hcands]
      have hne : ¬ cands.length = 0 := by rw [hcands]; simp
      rw [leafLoop, if_neg hne]
      simp only [leafPass_eq, List.nil_append]
      have hnext : ∀ c', c' ∈ cands.flatMap (childNodes h) → b + 1 ≤ c' ∧ c' < h.length := by
        intro c' hc'
        obtain ⟨c, hcm, hcc⟩ := List.mem_flatMap.1 hc'
        have hcb := hc c hcm
        have := hl.child_facts hcb.2 hcc
        omega
      obtain ⟨out, hout, hmem⟩ := ih (cands.flatMap (childNodes h))
        (leaves ++ cands.filter (fun c => decide (childNodes h c = []))) (b + 1) hnext
        (by omega)
      refine ⟨out, hout, ?_⟩
      intro l
      rw [hmem l, List.mem_append, List.mem_filter]
      constructor
      · rintro ((hleaf | ⟨hlc, hch⟩) | ⟨hlen, hch, c', hc', hpre⟩)
        · exact Or.inl hleaf
        · have hch' : childNodes h l = [] := by simpa using hch
          exact Or.inr ⟨(hc l hlc).2, hch', l, hlc, List.prefix_refl _⟩
        · obtain ⟨c, hcm, hcc⟩ := List.mem_flatMap.1 hc'
          obtain ⟨_, _, r, hkey⟩ := hl.child_facts (hc c hcm).2 hcc
          refine Or.inr ⟨hlen, hch, c, hcm, ?_⟩
          exact List.IsPrefix.trans (by rw [hkey]; exact List.prefix_append _ _) hpre
      · rintro (hleaf | ⟨hlen, hch, c, hcm, hpre⟩)
        · exact Or.inl (Or.inl hleaf)
        · by_cases hcl : c = l
          · subst hcl
            exact Or.inl (Or.inr ⟨hcm, by simpa using hch⟩)
          · obtain ⟨c', hc', hpre'⟩ := hl.exists_child_toward (hc c hcm).2 hlen hpre hcl
            exact Or.inr ⟨hlen, hch, c', List.mem_flatMap.2 ⟨c, hcm, hc'⟩, hpre'⟩

/-- `getLeafNodes` from the root returns the nodes without children. -/
theorem getLeafNodes_spec {h : Heap T} {key : Nat → Str} (hl : Labelled h key) :
    ∃ out, getLeafNodes h 0 = some out ∧
      ∀ l, l ∈ out ↔ l < h.length ∧ childNodes h l = [] := by
  obtain ⟨rt, hrt, _, _⟩ := hl.root
  have h0 : 0 < h.length := lt_length_of_getElem? hrt
  unfold getLeafNodes
  by_cases hroot : childNodes h 0 = []
  · have hlen : (childNodes h 0).length = 0 := by rw [hroot]; rfl
    rw [if_pos hlen]
    refine ⟨[0], rfl, ?_⟩
    intro l
    simp only [List.mem_singleton]
    constructor
    · intro e; subst e; exact ⟨h0, hroot⟩
    · rintro ⟨hlen', _⟩
      by_contra hne
      obtain ⟨c, hc, _⟩ := hl.exists_child_toward h0 hlen'
        (by rw [hl.key_root]; exact List.nil_prefix) (fun e => hne e.symm)
      rw [hroot] at hc
      cases hc
  · have hlen : ¬ (childNodes h 0).length = 0 := by
      intro e; exact hroot (List.length_eq_zero.1 e)
    rw [if_neg hlen]
    have hc : ∀ c, c ∈ childNodes h 0 → 1 ≤ c ∧ c < h.length := by
      intro c hc
      have := hl.child_facts h0 hc
      omega
    obtain ⟨out, hout, hmem⟩ := leafLoop_spec hl h.length (childNodes h 0) [] 1 hc (by omega)
    refine ⟨out, hout, ?_⟩
    intro l
    rw [hmem l]
    constructor
    · rintro (hnil | ⟨hlen', hch, _⟩)
      · cases hnil
      · exact ⟨hlen', hch⟩
    · rintro ⟨hlen', hch⟩
      have hne : (0 : Nat) ≠ l := by
        intro e; subst e; exact hroot hch
      obtain ⟨c, hc', hpre⟩ := hl.exists_child_toward h0 hlen'
        (by rw [hl.key_root]; exact List.nil_prefix) hne
      exact Or.inr ⟨hlen', hch, c, hc', hpre⟩

end Leaves

section Load
variable {C E T : Type}

theorem normalizedKey_of_ok {ctx : Context C} {termExtractor : KeyTermExtractor C E T}
    {item : T} {k : Str} (hk : termExtractor ctx item = .ok k) :
    normalizedKey ctx termExtractor item = normalizeTerm k := by
  simp [normalizedKey, hk]

/-- The loop of `LoadTree` keeps the shape of the store and files every item. -/
theorem loadItems_spec (ctx : Context C) (termExtractor : KeyTermExtractor C E T) :
    ∀ (rest : List T) (h : Heap T) (key : Nat → Str) (done : List T) (h' : Heap T),
      Labelled h key → Filed h key done (normalizedKey ctx termExtractor) →
      loadItems ctx termExtractor h rest = .ok h' →
      ∃ key', Labelled h' key' ∧
        Filed h' key' (done ++ rest) (normalizedKey ctx termExtractor) := by
  intro rest
  induction rest with
  | nil =>
    intro h key done h' hl hf hload
    simp only [loadItems, Except.ok.injEq] at hload
    subst hload
    exact ⟨key, hl, by simpa using hf⟩
  | cons item rest ih =>
    intro h key done h' hl hf hload
    rw [loadItems] at hload
    cases hk : termExtractor ctx item with
    | error err => rw [hk] at hload; cases hload
    | ok k =>
      rw [hk] at hload
      simp only at hload
      obtain ⟨rt, hrt, _, _⟩ := hl.root
      obtain ⟨key1, hl1, hf1⟩ := addItem_spec done
        (normalizedKey ctx termExtractor) item (normalizeTerm k) h key 0 hl hf
        (lt_length_of_getElem? hrt)
        (by rw [hl.key_root, normalizedKey_of_ok hk]; rfl)
      obtain ⟨key', hl', hf'⟩ := ih _ key1 (done ++ [item]) h' hl1 hf1 hload
      exact ⟨key', hl', by simpa using hf'⟩

/-- The loop of `LoadTree` succeeds when the extractor succeeds on every item. -/
theorem loadItems_ok (ctx : Context C) (termExtractor : KeyTermExtractor C E T) :
    ∀ (rest : List T) (h : Heap T),
      (∀ item, item ∈ rest → ∃ k, termExtractor ctx item = .ok k) →
      ∃ h', loadItems ctx termExtractor h rest = .ok h' := by
  intro rest
  induction rest with
  | nil => intro h _; exact ⟨h, rfl⟩
  | cons item rest ih =>
    intro h hok
    obtain ⟨k, hk⟩ := hok item (List.mem_cons_self _ _)
    rw [loadItems, hk]
    exact ih _ (fun it hit => hok it (List.mem_cons_of_mem _ hit))

theorem rootNode_labelled : Labelled ([newTrieNode none none] : Heap T) (fun _ => []) := by
  constructor
  · exact ⟨_, rfl, rfl, rfl⟩
  · rfl
  · intro i nd hi hpos
    have := lt_length_of_getElem? hi
    simp only [List.length_singleton] at this
    omega
  · intro p nd r c hp
    have hp0 := lt_length_of_getElem? hp
    simp only [List.length_singleton] at hp0
    have hp00 : p = 0 := by omega
    subst hp00
    simp only [List.getElem?_cons_zero, Option.some.injEq] at hp
    subst hp
    constructor
    · intro hmem; simp [newTrieNode] at hmem
    · rintro ⟨cd, hcd, hpar, _⟩
      have hc0 := lt_length_of_getElem? hcd
      simp only [List.length_singleton] at hc0
      have hc00 : c = 0 := by omega
      subst hc00
      simp only [List.getElem?_cons_zero, Option.some.injEq] at hcd
      subst hcd
      simp [newTrieNode] at hpar
  · intro i j hi hj _
    simp only [List.length_singleton] at hi hj
    omega

theorem rootNode_filed (nk : T → Str) :
    Filed ([newTrieNode none none] : Heap T) (fun _ => []) [] nk := by
  constructor
  · intro i nd hi
    have hi0 := lt_length_of_getElem? hi
    simp only [List.length_singleton] at hi0
    have hi00 : i = 0 := by omega
    subst hi00
    simp only [List.getElem?_cons_zero, Option.some.injEq] at hi
    subst hi
    simp [newTrieNode]
  · intro it hit; cases hit

/-- A tree returned by `LoadTree` is loaded with the items, under their normalized keys. -/
theorem LoadTree_loaded {ctx : Context C} {items : List T}
    {termExtractor : KeyTermExtractor C E T} {t : Tree T}
    (hload : LoadTree ctx items termExtractor = .ok t) :
    ∃ key, Loaded t key items (normalizedKey ctx termExtractor) := by
  unfold LoadTree at hload
  simp only at hload
  cases hli : loadItems ctx termExtractor [newTrieNode none none] items with
  | error err => rw [hli] at hload; cases hload
  | ok h =>
    rw [hli] at hload
    simp only at hload
    obtain ⟨key, hl, hf⟩ := loadItems_spec ctx termExtractor items _ _ [] h
      rootNode_labelled (rootNode_filed _) hli
    obtain ⟨out, hout, hmem⟩ := getLeafNodes_spec hl
    rw [hout] at hload
    simp only [Except.ok.injEq] at hload
    subst hload
    exact ⟨key, ⟨hl, by simpa using hf, hmem⟩⟩

/-- `LoadTree` returns a tree when the extractor succeeds on every item. -/
theorem LoadTree_ok {ctx : Context C} {items : List T}
    {termExtractor : KeyTermExtractor C E T}
    (hok : ∀ item, item ∈ items → ∃ k, termExtractor ctx item = .ok k) :
    ∃ t, LoadTree ctx items termExtractor = .ok t := by
  obtain ⟨h, hli⟩ := loadItems_ok ctx termExtractor items [newTrieNode none none] hok
  obtain ⟨key, hl, _⟩ := loadItems_spec ctx termExtractor items _ _ [] h
    rootNode_labelled (rootNode_filed _) hli
  obtain ⟨out, hout, _⟩ := getLeafNodes_spec hl
  refine ⟨{ nodes := h, leafNodes := out }, ?_⟩
  unfold LoadTree
  simp only [hli, hout]

end Load

end FuzzyTrie

namespace FuzzyTrie

section TrieClaims
variable {C E T : Type}

theorem testTree_loaded : LoadTree (⟨none⟩ : Context Unit) testItems TestItem.getText = .ok testTree := by
  rfl

theorem catapultTree_loaded :
    LoadTree (E := Unit) (⟨none⟩ : Context Unit) catapultTerms (fun _ s => .ok s) = .ok catapultTree := by
  rfl

/-- C1: at every node of a tree built by `LoadTree`, `Contains(phrase)` returns, and it
returns true exactly when the code points of the normalized phrase occur in order, not
necessarily contiguously, in the node's key term. -/
theorem Contains_iff_subsequence (ctx : Context C) (items : List T)
    (termExtractor : KeyTermExtractor C E T) (t : Tree T)
    (hload : LoadTree ctx items termExtractor = .ok t) (n : Nat) (hn : n < t.nodes.length)
    (phrase : Str) :
    ∃ keyTerm b, GetKeyTerm t.nodes n = some keyTerm ∧ Contains t.nodes n phrase = some b ∧
      (b = true ↔ (normalizeTerm phrase).Sublist keyTerm) := by
  obtain ⟨key, hL⟩ := LoadTree_loaded hload
  refine ⟨key n, _, GetKeyTerm_eq hL.labelled hn, Contains_eq hL.labelled hn phrase, ?_⟩
  simp

/-- Witness for C1: in the tree of "cat" and "catapult", `Contains("cal")` is true at the
node with key term CATAPULT and false at the node with key term CAT. -/
theorem Contains_iff_subsequence_witness :
    (GetKeyTerm catapultTree.nodes 8 = some "CATAPULT".toList ∧
      Contains catapultTree.nodes 8 "cal".toList = some true ∧
      GetKeyTerm catapultTree.nodes 3 = some "CAT".toList ∧
      Contains catapultTree.nodes 3 "cal".toList = some false) ∧
    ∃ keyTerm b, GetKeyTerm catapultTree.nodes 8 = some keyTerm ∧
      Contains catapultTree.nodes 8 "cal".toList = some b ∧
      (b = true ↔ (normalizeTerm "cal".toList).Sublist keyTerm) :=
  ⟨by decide!,
    Contains_iff_subsequence (⟨none⟩ : Context Unit) catapultTerms (fun _ s => .ok s)
      catapultTree catapultTree_loaded 8 (by decide) "cal".toList⟩

theorem GetValues_eq_filter {t : Tree T} {key : Nat → Str} {items : List T} {nk : T → Str}
    (hL : Loaded t key items nk) {n : Nat} (hn : n < t.nodes.length) :
    GetValues t.nodes n = items.filter (fun item => decide (nk item = key n)) := by
  obtain ⟨nd, hnd⟩ := exists_getElem?_of_lt hn
  unfold GetValues
  simp only [hnd]
  exact hL.filed.values_eq n nd hnd

/-- C9: when the extractor succeeds on every item, `LoadTree` returns a tree in which the
values of the node with key term `K` are the items whose normalized key is `K`, in input
order and with duplicates kept (so a node whose key term is no item's normalized key holds
nothing); no two nodes have the same key term. -/
theorem LoadTree_values_by_key (ctx : Context C) (items : List T)
    (termExtractor : KeyTermExtractor C E T)
    (hok : ∀ item, item ∈ items → ∃ k, termExtractor ctx item = .ok k) :
    ∃ t, LoadTree ctx items termExtractor = .ok t ∧
      (∀ n, n < t.nodes.length → ∃ keyTerm, GetKeyTerm t.nodes n = some keyTerm ∧
        GetValues t.nodes n =
          items.filter (fun item => decide (normalizedKey ctx termExtractor item = keyTerm))) ∧
      (∀ n m, n < t.nodes.length → m < t.nodes.length →
        GetKeyTerm t.nodes n = GetKeyTerm t.nodes m → n = m) := by
  obtain ⟨t, hload⟩ := LoadTree_ok hok
  obtain ⟨key, hL⟩ := LoadTree_loaded hload
  refine ⟨t, hload, ?_, ?_⟩
  · intro n hn
    exact ⟨key n, GetKeyTerm_eq hL.labelled hn, GetValues_eq_filter hL hn⟩
  · intro n m hn hm he
    rw [GetKeyTerm_eq hL.labelled hn, GetKeyTerm_eq hL.labelled hm] at he
    exact hL.labelled.inj n m hn hm (Option.some.inj he)

/-- Witness for C9: for the inputs cat, cat, cataracts, dog the node CAT holds the two cat
items in insertion order, CATARACTS holds cataracts and DOG holds dog. -/
theorem LoadTree_values_by_key_witness :
    (LoadTree (⟨none⟩ : Context Unit) testItems TestItem.getText = .ok testTree ∧
      GetKeyTerm testTree.nodes 3 = some "CAT".toList ∧
      GetValues testTree.nodes 3 = [⟨0, "cat"⟩, ⟨1, "cat"⟩] ∧
      GetKeyTerm testTree.nodes 9 = some "CATARACTS".toList ∧
      GetValues testTree.nodes 9 = [⟨2, "cataracts"⟩] ∧
      GetKeyTerm testTree.nodes 12 = some "DOG".toList ∧
      GetValues testTree.nodes 12 = [⟨3, "dog"⟩]) ∧
    ∃ t, LoadTree (⟨none⟩ : Context Unit) testItems TestItem.getText = .ok t ∧
      (∀ n, n < t.nodes.length → ∃ keyTerm, GetKeyTerm t.nodes n = some keyTerm ∧
        GetValues t.nodes n = testItems.filter (fun item =>
          decide (normalizedKey (⟨none⟩ : Context Unit) TestItem.getText item = keyTerm))) ∧
      (∀ n m, n < t.nodes.length → m < t.nodes.length →
        GetKeyTerm t.nodes n = GetKeyTerm t.nodes m → n = m) :=
  ⟨⟨testTree_loaded, by decide!⟩,
    LoadTree_values_by_key (⟨none⟩ : Context Unit) testItems TestItem.getText
      (fun item _ => ⟨item.text.toList, rfl⟩)⟩

theorem RootPath.eq_key {h : Heap T} {key : Nat → Str} (hl : Labelled h key) {n : Nat}
    {runes : List Rune} (hp : RootPath h n runes) : n < h.length ∧ runes = key n := by
  induction hp with
  | root =>
    obtain ⟨rt, hrt, _, _⟩ := hl.root
    exact ⟨lt_length_of_getElem? hrt, hl.key_root.symm⟩
  | step hpath hc hcd hkr ih =>
    rename_i p c runes cd r
    obtain ⟨hplen, hrunes⟩ := ih
    obtain ⟨cd', hcd', hpar⟩ := (hl.mem_childNodes hplen).1 hc
    rw [hcd] at hcd'; cases hcd'
    have hlt := hl.parent_lt hcd hpar
    obtain ⟨p', r', _, hpar', hkr', hkey⟩ := hl.nonroot c cd hcd (by omega)
    rw [hpar] at hpar'; cases hpar'
    rw [hkr] at hkr'; cases hkr'
    exact ⟨lt_length_of_getElem? hcd, by rw [hkey, hrunes]⟩

theorem RootPath.of_labelled {h : Heap T} {key : Nat → Str} (hl : Labelled h key) :
    ∀ n, n < h.length → RootPath h n (key n) := by
  intro n
  induction n using Nat.strong_induction_on with
  | _ n ih =>
    intro hn
    rcases Nat.eq_zero_or_pos n with h0 | hpos
    · subst h0
      rw [hl.key_root]
      exact RootPath.root
    · obtain ⟨nd, hnd⟩ := exists_getElem?_of_lt hn
      obtain ⟨p, r, hlt, hpar, hkr, hkey⟩ := hl.nonroot n nd hnd hpos
      have hplen : p < h.length := by omega
      rw [hkey]
      exact RootPath.step (ih p hlt hplen) ((hl.mem_childNodes hplen).2 ⟨nd, hnd, hpar⟩)
        hnd hkr

/-- C10: in a tree built by `LoadTree`, every node is reached from the root and its
`GetKeyTerm()` is the sequence of the key runes on the way down from the root (empty for
the root); every item is held by a node, and a node that holds an item inserted with key
`k` has `GetKeyTerm() = normalize(k)`. -/
theorem GetKeyTerm_eq_root_path (ctx : Context C) (items : List T)
    (termExtractor : KeyTermExtractor C E T) (t : Tree T)
    (hload : LoadTree ctx items termExtractor = .ok t) :
    (∀ n, n < t.nodes.length →
      (∃ runes, RootPath t.nodes n runes) ∧
      ∀ runes, RootPath t.nodes n runes → GetKeyTerm t.nodes n = some runes) ∧
    GetKeyTerm t.nodes 0 = some [] ∧
    (∀ item k, item ∈ items → termExtractor ctx item = .ok k →
      (∃ n, n < t.nodes.length ∧ item ∈ GetValues t.nodes n) ∧
      ∀ n, n < t.nodes.length → item ∈ GetValues t.nodes n →
        GetKeyTerm t.nodes n = some (normalizeTerm k)) := by
  obtain ⟨key, hL⟩ := LoadTree_loaded hload
  have hl := hL.labelled
  obtain ⟨rt, hrt, _, _⟩ := hl.root
  have h0 : 0 < t.nodes.length := lt_length_of_getElem? hrt
  refine ⟨?_, ?_, ?_⟩
  · intro n hn
    refine ⟨⟨key n, RootPath.of_labelled hl n hn⟩, ?_⟩
    intro runes hp
    rw [(hp.eq_key hl).2]
    exact GetKeyTerm_eq hl hn
  · rw [GetKeyTerm_eq hl h0, hl.key_root]
  · intro item k hmem hk
    have hnk := normalizedKey_of_ok hk
    constructor
    · obtain ⟨i, hi, hki⟩ := hL.filed.has_node item hmem
      refine ⟨i, hi, ?_⟩
      rw [GetValues_eq_filter hL hi, List.mem_filter]
      exact ⟨hmem, by simp [hki]⟩
    · intro n hn hv
      rw [GetValues_eq_filter hL hn, List.mem_filter] at hv
      have := hv.2
      simp only [decide_eq_true_eq] at this
      rw [GetKeyTerm_eq hl hn, ← this, hnk]

theorem testTree_path_CAT : RootPath testTree.nodes 3 "CAT".toList := by
  have h1 : RootPath testTree.nodes 1 ([] ++ ['C']) :=
    RootPath.step RootPath.root (by decide!)
      (show testTree.nodes[1]? = some ⟨some 'C', some 0, [('A', 2)], []⟩ from rfl) rfl
  have h2 : RootPath testTree.nodes 2 (([] ++ ['C']) ++ ['A']) :=
    RootPath.step h1 (by decide!)
      (show testTree.nodes[2]? = some ⟨some 'A', some 1, [('T', 3)], []⟩ from rfl) rfl
  have h3 : RootPath testTree.nodes 3 ((([] ++ ['C']) ++ ['A']) ++ ['T']) :=
    RootPath.step h2 (by decide!)
      (show testTree.nodes[3]? =
        some ⟨some 'T', some 2, [('A', 4)], [⟨0, "cat"⟩, ⟨1, "cat"⟩]⟩ from rfl) rfl
  exact h3

/-- Witness for C10: in the tree of cat, cat, cataracts, dog the node reached through
C, A, T has key term CAT and holds the item inserted with key "cat". -/
theorem GetKeyTerm_eq_root_path_witness :
    (RootPath testTree.nodes 3 "CAT".toList ∧
      GetKeyTerm testTree.nodes 3 = some (normalizeTerm "cat".toList) ∧
      (⟨0, "cat"⟩ : TestItem) ∈ GetValues testTree.nodes 3) ∧
    ((∀ n, n < testTree.nodes.length →
      (∃ runes, RootPath testTree.nodes n runes) ∧
      ∀ runes, RootPath testTree.nodes n runes → GetKeyTerm testTree.nodes n = some runes) ∧
    GetKeyTerm testTree.nodes 0 = some [] ∧
    (∀ item k, item ∈ testItems → TestItem.getText (⟨none⟩ : Context Unit) item = .ok k →
      (∃ n, n < testTree.nodes.length ∧ item ∈ GetValues testTree.nodes n) ∧
      ∀ n, n < testTree.nodes.length → item ∈ GetValues testTree.nodes n →
        GetKeyTerm testTree.nodes n = some (normalizeTerm k))) :=
  ⟨⟨testTree_path_CAT, by decide!, by decide!⟩,
    GetKeyTerm_eq_root_path (⟨none⟩ : Context Unit) testItems TestItem.getText testTree
      testTree_loaded⟩

end TrieClaims

end FuzzyTrie

namespace FuzzyTrie

section ResultsMap
variable {T : Type} [DecidableEq T]

theorem lookup_eq_none_iff_not_mem_keys {results : Results T} {v : T} :
    results.lookup v = none ↔ v ∉ keysOf results := by
  rw [List.lookup_eq_none_iff]
  unfold keysOf
  simp only [List.mem_map, not_exists, not_and]
  constructor
  · intro h e he hv
    have := h e he
    rw [hv] at this
    simp at this
  · intro h e he
    have := h e he
    simp only [bne_iff_ne, ne_eq]
    exact fun hv => this hv.symm

theorem mem_keys_of_lookup {results : Results T} {v : T} {dr : DistanceResult T}
    (h : results.lookup v = some dr) : v ∈ keysOf results := by
  by_contra hn
  rw [lookup_eq_none_iff_not_mem_keys.2 hn] at h
  cases h

theorem slotOf_of_lookup_none {results : Results T} {v : T} (h : results.lookup v = none)
    (i : Nat) : slotOf results v i = none := by
  simp [slotOf, h]

theorem slotOf_of_not_mem {results : Results T} {v : T} (h : v ∉ keysOf results) (i : Nat) :
    slotOf results v i = none :=
  slotOf_of_lookup_none (lookup_eq_none_iff_not_mem_keys.2 h) i

theorem mem_keys_of_slotOf {results : Results T} {v : T} {i : Nat}
    (h : slotOf results v i ≠ none) : v ∈ keysOf results := by
  by_contra hn
  exact h (slotOf_of_not_mem hn i)

/-- A fresh entry, all of whose distances are nil, changes no recorded distance. -/
theorem slotOf_append_fresh (results : Results T) (v : T) (k : Nat)
    (hv : results.lookup v = none) (u : T) (j : Nat) :
    slotOf (results ++ [(v, { Result := v, Distances := List.replicate k none })]) u j =
      slotOf results u j := by
  unfold slotOf
  rw [List.lookup_append]
  cases hu : results.lookup u with
  | some dr => simp
  | none =>
    simp only [Option.or, List.lookup_cons, List.lookup_nil]
    by_cases huv : u = v
    · subst huv
      simp only [beq_self_eq_true]
      cases hg : (List.replicate k (none : Option Int))[j]? with
      | none => rfl
      | some x =>
        have := List.getElem?_replicate (a := (none : Option Int)) (n := k) (m := j)
        rw [hg] at this
        by_cases hjk : j < k
        · simp [hjk] at this; subst this; rfl
        · simp [hjk] at this
    · have : (u == v) = false := by simpa using huv
      simp [this]

omit [DecidableEq T] in
theorem keysOf_append (results : Results T) (e : T × DistanceResult T) :
    keysOf (results ++ [e]) = keysOf results ++ [e.1] := by
  simp [keysOf]

theorem ResultsOK.append_fresh {results : Results T} {treeCount : Nat}
    (hok : ResultsOK results treeCount) (v : T) (hv : results.lookup v = none) :
    ResultsOK
      (results ++ [(v, { Result := v, Distances := List.replicate (treeCount + 1) none })])
      treeCount := by
  constructor
  · rw [keysOf_append]
    have hnot := lookup_eq_none_iff_not_mem_keys.1 hv
    exact List.nodup_append.2 ⟨hok.nodup, List.nodup_singleton _, by
      intro a ha hb
      simp only [List.mem_singleton] at hb
      subst hb
      exact hnot ha⟩
  · intro e he
    rcases List.mem_append.1 he with ho | hn
    · exact hok.result_eq e ho
    · simp only [List.mem_singleton] at hn; subst hn; rfl
  · intro e he
    rcases List.mem_append.1 he with ho | hn
    · exact hok.length_eq e ho
    · simp only [List.mem_singleton] at hn; subst hn; simp

theorem keysOf_setDistance (results : Results T) (v : T) (i : Nat) (w : Int) :
    keysOf (setDistance results v i w) = keysOf results := by
  unfold keysOf setDistance
  rw [List.map_map]
  apply List.map_congr_left
  intro e _
  by_cases hev : e.1 = v <;> simp [hev]

theorem lookup_setDistance (results : Results T) (v : T) (i : Nat) (w : Int) (u : T) :
    (setDistance results v i w).lookup u =
      (results.lookup u).map (fun dr =>
        if u = v then { dr with Distances := dr.Distances.set i (some w) } else dr) := by
  induction results with
  | nil => simp [setDistance]
  | cons e rest ih =>
    obtain ⟨k, dr⟩ := e
    have hcons : setDistance ((k, dr) :: rest) v i w =
        (if k = v then (k, { dr with Distances := dr.Distances.set i (some w) }) else (k, dr)) ::
          setDistance rest v i w := by
      simp [setDistance]
    rw [hcons]
    by_cases hkv : k = v
    · rw [if_pos hkv]
      simp only [List.lookup_cons]
      by_cases huk : u = k
      · subst huk
        simp [hkv]
      · have : (u == k) = false := by simpa using huk
        simp only [this]
        exact ih
    · rw [if_neg hkv]
      simp only [List.lookup_cons]
      by_cases huk : u = k
      · subst huk
        simp [hkv]
      · have : (u == k) = false := by simpa using huk
        simp only [this]
        exact ih

theorem slotOf_setDistance_ne (results : Results T) (v : T) (i : Nat) (w : Int) (u : T)
    (j : Nat) (h : u ≠ v ∨ j ≠ i) :
    slotOf (setDistance results v i w) u j = slotOf results u j := by
  unfold slotOf
  rw [lookup_setDistance]
  cases hu : results.lookup u with
  | none => simp
  | some dr =>
    simp only [Option.map_some']
    by_cases huv : u = v
    · rw [if_pos huv]
      have hji : j ≠ i := by
        rcases h with h | h
        · exact absurd huv h
        · exact h
      simp only
      rw [List.getElem?_set_ne (fun e => hji e.symm)]
    · rw [if_neg huv]

theorem slotOf_setDistance_self {results : Results T} {treeCount : Nat}
    (hok : ResultsOK results treeCount) (v : T) (i : Nat) (w : Int)
    (hv : v ∈ keysOf results) (hi : i ≤ treeCount) :
    slotOf (setDistance results v i w) v i = some w := by
  unfold slotOf
  rw [lookup_setDistance]
  cases hu : results.lookup v with
  | none => exact absurd hv (lookup_eq_none_iff_not_mem_keys.1 hu)
  | some dr =>
    have hlen := hok.length_eq (v, dr) (lookup_mem hu)
    simp only at hlen
    simp [List.getElem?_set, hlen, Nat.lt_succ_of_le hi]

theorem ResultsOK.setDistance {results : Results T} {treeCount : Nat}
    (hok : ResultsOK results treeCount) (v : T) (i : Nat) (w : Int) :
    ResultsOK (setDistance results v i w) treeCount := by
  constructor
  · rw [keysOf_setDistance]; exact hok.nodup
  · intro e he
    unfold FuzzyTrie.setDistance at he
    obtain ⟨e0, he0, rfl⟩ := List.mem_map.1 he
    by_cases hev : e0.1 = v
    · simp only [hev, if_true]
      rw [← hev]
      exact hok.result_eq e0 he0
    · simp only [hev, if_false]
      exact hok.result_eq e0 he0
  · intro e he
    unfold FuzzyTrie.setDistance at he
    obtain ⟨e0, he0, rfl⟩ := List.mem_map.1 he
    by_cases hev : e0.1 = v
    · simp only [hev, if_true, List.length_set]
      exact hok.length_eq e0 he0
    · simp only [hev, if_false]
      exact hok.length_eq e0 he0

theorem slotOf_eq_of_lookup {results : Results T} {v : T} {dr : DistanceResult T}
    (h : results.lookup v = some dr) (i : Nat) :
    slotOf results v i = (dr.Distances[i]?).getD none := by
  simp [slotOf, h]

end ResultsMap

end FuzzyTrie

namespace FuzzyTrie

section EvaluateValues
variable {T : Type} [DecidableEq T] [Fuzzable T]

/-- One round of the loop over the values of a node: the record gets its entry and, unless
already set, its distance for the tree; no other distance changes. -/
theorem evaluateValues_cons (E : Type) (i tc : Nat) (hi : i ≤ tc) (v : T) (R : Results T)
    (d : Int) (hok : ResultsOK R tc) :
    ∃ R1 d1,
      (∀ rest, evaluateValues (E := E) i tc (v :: rest) R d = evaluateValues i tc rest R1 d1) ∧
      ResultsOK R1 tc ∧
      (∀ u j, j ≠ i → slotOf R1 u j = slotOf R u j) ∧
      (∀ u, u ≠ v → slotOf R1 u i = slotOf R u i) ∧
      (∀ u, slotOf R u i ≠ none → slotOf R1 u i = slotOf R u i) ∧
      slotOf R1 v i ≠ none ∧
      (∀ u, u ∈ keysOf R1 ↔ u ∈ keysOf R ∨ u = v) ∧
      (Fuzzable.GetPrimaryDistanceFactor v = none →
        d1 = d ∧ (slotOf R v i = none → slotOf R1 v i = some (treeWeight i + d))) := by
  have hilt : i < tc + 1 := Nat.lt_succ_of_le hi
  cases hlook : R.lookup v with
  | some dr =>
    have hmemv : v ∈ keysOf R := mem_keys_of_lookup hlook
    have hlen := hok.length_eq (v, dr) (lookup_mem hlook)
    simp only at hlen
    have hslot := slotOf_eq_of_lookup hlook i
    have hlt : i < dr.Distances.length := by omega
    have hget : dr.Distances[i]? = some dr.Distances[i] :=
      List.getElem?_eq_getElem hlt
    cases hx : dr.Distances[i] with
    | some y =>
      rw [hx] at hget
      rw [hget] at hslot
      simp only [Option.getD_some] at hslot
      refine ⟨R, d, ?_, hok, fun _ _ _ => rfl, fun _ _ => rfl, fun _ _ => rfl, ?_, ?_, ?_⟩
      · intro rest
        rw [evaluateValues]
        simp only [hlook, hget]
      · rw [hslot]; simp
      · intro u
        constructor
        · intro h; exact Or.inl h
        · rintro (h | h)
          · exact h
          · subst h; exact hmemv
      · intro _
        refine ⟨rfl, ?_⟩
        intro hnone
        rw [hslot] at hnone
        cases hnone
    | none =>
      rw [hx] at hget
      rw [hget] at hslot
      simp only [Option.getD_some] at hslot
      refine ⟨setDistance R v i (treeWeight i + nextDistance v d), nextDistance v d, ?_,
        hok.setDistance _ _ _, ?_, ?_, ?_, ?_, ?_, ?_⟩
      · intro rest
        rw [evaluateValues]
        simp only [hlook, hget]
        rfl
      · intro u j hj
        exact slotOf_setDistance_ne R v i _ u j (Or.inr hj)
      · intro u hu
        exact slotOf_setDistance_ne R v i _ u i (Or.inl hu)
      · intro u hu
        have huv : u ≠ v := by
          intro e; subst e; exact hu hslot
        exact slotOf_setDistance_ne R v i _ u i (Or.inl huv)
      · rw [slotOf_setDistance_self hok v i _ hmemv hi]; simp
      · intro u
        rw [keysOf_setDistance]
        constructor
        · intro h; exact Or.inl h
        · rintro (h | h)
          · exact h
          · subst h; exact hmemv
      · intro hf
        have hnd : nextDistance v d = d := by simp [nextDistance, hf]
        rw [hnd]
        exact ⟨rfl, fun _ => slotOf_setDistance_self hok v i _ hmemv hi⟩
  | none =>
    have hok0 := hok.append_fresh v hlook
    have hmem0 : v ∈ keysOf
        (R ++ [(v, { Result := v, Distances := List.replicate (tc + 1) none })]) := by
      rw [keysOf_append]; simp
    have hget : (List.replicate (tc + 1) (none : Option Int))[i]? = some none := by
      rw [List.getElem?_replicate]; simp [hilt]
    refine ⟨setDistance (R ++ [(v, { Result := v, Distances := List.replicate (tc + 1) none })])
        v i (treeWeight i + nextDistance v d), nextDistance v d, ?_,
      hok0.setDistance _ _ _, ?_, ?_, ?_, ?_, ?_, ?_⟩
    · intro rest
      rw [evaluateValues]
      simp only [hlook, hget]
      rfl
    · intro u j hj
      rw [slotOf_setDistance_ne _ v i _ u j (Or.inr hj), slotOf_append_fresh R v _ hlook]
    · intro u hu
      rw [slotOf_setDistance_ne _ v i _ u i (Or.inl hu), slotOf_append_fresh R v _ hlook]
    · intro u hu
      have huv : u ≠ v := by
        intro e; subst e; exact hu (slotOf_of_lookup_none hlook i)
      rw [slotOf_setDistance_ne _ v i _ u i (Or.inl huv), slotOf_append_fresh R v _ hlook]
    · rw [slotOf_setDistance_self hok0 v i _ hmem0 hi]; simp
    · intro u
      rw [keysOf_setDistance, keysOf_append]
      simp
    · intro hf
      have hnd : nextDistance v d = d := by simp [nextDistance, hf]
      rw [hnd]
      exact ⟨rfl, fun _ => slotOf_setDistance_self hok0 v i _ hmem0 hi⟩

/-- The loop over the values of a node: every value gets its entry and, unless already set,
its distance for the tree; the distances of the other trees and of the other records are
left alone.  When no value has a primary distance factor, the distance written is the tree
weight plus the Levenshtein distance of the node. -/
theorem evaluateValues_spec (E : Type) (i tc : Nat) (hi : i ≤ tc) :
    ∀ (vs : List T) (R : Results T) (d : Int), ResultsOK R tc →
      ∃ R', evaluateValues (E := E) i tc vs R d = .ok R' ∧ ResultsOK R' tc ∧
        (∀ u j, j ≠ i → slotOf R' u j = slotOf R u j) ∧
        (∀ u, u ∉ vs → slotOf R' u i = slotOf R u i) ∧
        (∀ u, slotOf R u i ≠ none → slotOf R' u i = slotOf R u i) ∧
        (∀ u, u ∈ vs → slotOf R' u i ≠ none) ∧
        (∀ u, u ∈ keysOf R' ↔ u ∈ keysOf R ∨ u ∈ vs) ∧
        ((∀ u, u ∈ vs → Fuzzable.GetPrimaryDistanceFactor u = none) →
          ∀ u, u ∈ vs → slotOf R u i = none → slotOf R' u i = some (treeWeight i + d)) := by
  intro vs
  induction vs with
  | nil =>
    intro R d hok
    refine ⟨R, rfl, hok, fun _ _ _ => rfl, fun _ _ => rfl, fun _ _ => rfl, ?_, ?_, ?_⟩
    · intro u hu; cases hu
    · intro u; simp
    · intro _ u hu; cases hu
  | cons v rest ih =>
    intro R d hok
    obtain ⟨R1, d1, hstep, hok1, hf1, hne1, hkeep1, hset1, hkeys1, hval1⟩ :=
      evaluateValues_cons E i tc hi v R d hok
    obtain ⟨R', hres, hok', hf', hne', hkeep', hset', hkeys', hval'⟩ := ih R1 d1 hok1
    refine ⟨R', by rw [hstep rest]; exact hres, hok', ?_, ?_, ?_, ?_, ?_, ?_⟩
    · intro u j hj
      rw [hf' u j hj, hf1 u j hj]
    · intro u hu
      have huv : u ≠ v := fun e => hu (by rw [e]; exact List.mem_cons_self _ _)
      have hur : u ∉ rest := fun e => hu (List.mem_cons_of_mem _ e)
      rw [hne' u hur, hne1 u huv]
    · intro u hu
      have h1 := hkeep1 u hu
      rw [hkeep' u (by rw [h1]; exact hu), h1]
    · intro u hu
      rcases List.mem_cons.1 hu with he | hr
      · subst he
        rw [hkeep' u hset1]
        exact hset1
      · exact hset' u hr
    · intro u
      rw [hkeys' u, hkeys1 u, List.mem_cons]
      constructor
      · rintro ((h | h) | h)
        · exact Or.inl h
        · exact Or.inr (Or.inl h)
        · exact Or.inr (Or.inr h)
      · rintro (h | h | h)
        · exact Or.inl (Or.inl h)
        · exact Or.inl (Or.inr h)
        · exact Or.inr h
    · intro hnf u hu hnone
      obtain ⟨hd1, hv1⟩ := hval1 (hnf v (List.mem_cons_self _ _))
      by_cases huv : u = v
      · subst huv
        rw [hkeep' u hset1]
        exact hv1 hnone
      · have hur : u ∈ rest := by
          rcases List.mem_cons.1 hu with he | hr
          · exact absurd he huv
          · exact hr
        have := hval' (fun x hx => hnf x (List.mem_cons_of_mem _ hx)) u hur
          (by rw [hne1 u huv]; exact hnone)
        rw [this, hd1]

end EvaluateValues

end FuzzyTrie

namespace FuzzyTrie

section TreeFacts
variable {T : Type}

/-- A record is held by one node of a loaded tree only. -/
theorem Loaded.holder_unique {t : Tree T} {key : Nat → Str} {items : List T} {nk : T → Str}
    (hL : Loaded t key items nk) {v : T} {n m : Nat} (hn : n < t.nodes.length)
    (hm : m < t.nodes.length) (hvn : v ∈ GetValues t.nodes n) (hvm : v ∈ GetValues t.nodes m) :
    n = m := by
  rw [GetValues_eq_filter hL hn, List.mem_filter] at hvn
  rw [GetValues_eq_filter hL hm, List.mem_filter] at hvm
  have h1 := hvn.2
  have h2 := hvm.2
  simp only [decide_eq_true_eq] at h1 h2
  exact hL.labelled.inj n m hn hm (by rw [← h1, ← h2])

theorem Labelled.parent_cases {h : Heap T} {key : Nat → Str} (hl : Labelled h key) {n : Nat}
    (hn : n < h.length) :
    (n = 0 ∧ GetParentNode h n = none) ∨
      ∃ p r, GetParentNode h n = some p ∧ p < n ∧ key n = key p ++ [r] := by
  obtain ⟨nd, hnd⟩ := exists_getElem?_of_lt hn
  rcases Nat.eq_zero_or_pos n with h0 | hpos
  · subst h0
    obtain ⟨rt, hrt, _, hpar⟩ := hl.root
    rw [hnd] at hrt; cases hrt
    exact Or.inl ⟨rfl, by simp [GetParentNode, hnd, hpar]⟩
  · obtain ⟨p, r, hlt, hpar, _, hkey⟩ := hl.nonroot n nd hnd hpos
    exact Or.inr ⟨p, r, by simp [GetParentNode, hnd, hpar], hlt, hkey⟩

/-- Toward a proper ancestor the way leads through the parent. -/
theorem Labelled.toward_parent {h : Heap T} {key : Nat → Str} (hl : Labelled h key)
    {a f : Nat} (ha : a < h.length) (hf : f < h.length) (hpre : key a <+: key f)
    (hne : a ≠ f) :
    ∃ p, GetParentNode h f = some p ∧ p < f ∧ key a <+: key p ∧ key p <+: key f ∧
      (key p).length < (key f).length := by
  rcases hl.parent_cases hf with ⟨h0, _⟩ | ⟨p, r, hpar, hlt, hkey⟩
  · subst h0
    rw [hl.key_root, List.prefix_nil] at hpre
    exact absurd (hl.inj a 0 ha hf (by rw [hpre, hl.key_root])) hne
  · refine ⟨p, hpar, hlt, ?_, by rw [hkey]; exact List.prefix_append _ _, by rw [hkey]; simp⟩
    rw [hkey, List.prefix_concat_iff] at hpre
    rcases hpre with he | hp
    · exact absurd (hl.inj a f ha hf (by rw [he, hkey])) hne
    · exact hp

theorem Matches.mono_prefix {key : Nat → Str} {phrase : Str} {a f : Nat} (hpre : key a <+: key f)
    (ha : Matches key phrase a) : Matches key phrase f :=
  List.Sublist.trans ha hpre.sublist

end TreeFacts

section SweepSteps
variable {T : Type} [DecidableEq T] [Fuzzable T]

omit [Fuzzable T] in
theorem NodeDone.mono_slots {h : Heap T} {R R' : Results T} {i n : Nat}
    (hkeep : ∀ v, slotOf R v i ≠ none → slotOf R' v i ≠ none) (hd : NodeDone h R i n) :
    NodeDone h R' i n :=
  ⟨hd.1, fun v hv => hkeep v (hd.2 v hv)⟩

omit [DecidableEq T] [Fuzzable T] in
theorem mem_parent_toList {h : Heap T} {f p : Nat} (hp : GetParentNode h f = some p) :
    p ∈ (GetParentNode h f).toList := by
  rw [hp]; simp

/-- The pending nodes may be replaced by any nodes of the tree that include them. -/
theorem SweepInv.weaken {h : Heap T} {key : Nat → Str} {phrase : Str} {i tc : Nat}
    {R0 R : Results T} {P Q : List Nat}
    (hinv : SweepInv h key phrase i tc R0 R P) (hsub : ∀ f, f ∈ P → f ∈ Q)
    (hlt : ∀ f, f ∈ Q → f < h.length) : SweepInv h key phrase i tc R0 R Q := by
  refine ⟨hinv.ok, hlt, hinv.frame, hinv.keys, hinv.sound, ?_, ?_⟩
  · intro a ha hva hma
    rcases hinv.cover a ha hva hma with hd | ⟨f, hf, hpre⟩
    · exact Or.inl hd
    · exact Or.inr ⟨f, hsub f hf, hpre⟩
  · intro m a hm hdm ha hva hma hpre hne
    rcases hinv.done_cover m a hm hdm ha hva hma hpre hne with hd | ⟨f, hf, h1, h2, h3⟩
    · exact Or.inl hd
    · exact Or.inr ⟨f, hsub f hf, h1, h2, h3⟩

/-- Visiting a node without values: its parent becomes pending. -/
theorem SweepInv.step_empty {t : Tree T} {key : Nat → Str} {items : List T} {nk : T → Str}
    (hL : Loaded t key items nk) {phrase : Str} {i tc : Nat} {R0 R : Results T} {f : Nat}
    {Q : List Nat} (hinv : SweepInv t.nodes key phrase i tc R0 R (f :: Q))
    (hempty : GetValues t.nodes f = []) :
    SweepInv t.nodes key phrase i tc R0 R (Q ++ (GetParentNode t.nodes f).toList) := by
  have hl := hL.labelled
  have hf : f < t.nodes.length := hinv.pending_lt f (List.mem_cons_self _ _)
  refine ⟨hinv.ok, ?_, hinv.frame, hinv.keys, hinv.sound, ?_, ?_⟩
  · intro g hg
    rcases List.mem_append.1 hg with hq | hp
    · exact hinv.pending_lt g (List.mem_cons_of_mem _ hq)
    · rcases hl.parent_cases hf with ⟨_, hnone⟩ | ⟨p, r, hpar, hlt, _⟩
      · rw [hnone] at hp; cases hp
      · rw [hpar] at hp
        simp only [Option.toList, List.mem_singleton] at hp
        omega
  · intro a ha hva hma
    rcases hinv.cover a ha hva hma with hd | ⟨g, hg, hpre⟩
    · exact Or.inl hd
    · rcases List.mem_cons.1 hg with he | hq
      · subst he
        have hne : a ≠ g := by
          intro e; subst e; exact hva hempty
        obtain ⟨p, hpar, _, hap, _, _⟩ := hl.toward_parent ha hf hpre hne
        exact Or.inr ⟨p, List.mem_append_right _ (mem_parent_toList hpar), hap⟩
      · exact Or.inr ⟨g, List.mem_append_left _ hq, hpre⟩
  · intro m a hm hdm ha hva hma hpre hne
    rcases hinv.done_cover m a hm hdm ha hva hma hpre hne with hd | ⟨g, hg, h1, h2, h3⟩
    · exact Or.inl hd
    · rcases List.mem_cons.1 hg with he | hq
      · subst he
        have hne' : a ≠ g := by
          intro e; subst e; exact hva hempty
        obtain ⟨p, hpar, _, hap, hpf, hlen⟩ := hl.toward_parent ha hf h1 hne'
        refine Or.inr ⟨p, List.mem_append_right _ (mem_parent_toList hpar), hap,
          hpf.trans h2, ?_⟩
        intro e
        subst e
        have := h2.length_le
        omega
      · exact Or.inr ⟨g, List.mem_append_left _ hq, h1, h2, h3⟩

/-- Visiting a node that is done: nothing to do, what it covered is covered otherwise. -/
theorem SweepInv.step_done {t : Tree T} {key : Nat → Str} {items : List T} {nk : T → Str}
    (hL : Loaded t key items nk) {phrase : Str} {i tc : Nat} {R0 R : Results T} {f : Nat}
    {Q : List Nat} (hinv : SweepInv t.nodes key phrase i tc R0 R (f :: Q))
    (hdone : NodeDone t.nodes R i f) :
    SweepInv t.nodes key phrase i tc R0 R Q := by
  have hl := hL.labelled
  have hf : f < t.nodes.length := hinv.pending_lt f (List.mem_cons_self _ _)
  refine ⟨hinv.ok, fun g hg => hinv.pending_lt g (List.mem_cons_of_mem _ hg), hinv.frame,
    hinv.keys, hinv.sound, ?_, ?_⟩
  · intro a ha hva hma
    rcases hinv.cover a ha hva hma with hd | ⟨g, hg, hpre⟩
    · exact Or.inl hd
    · rcases List.mem_cons.1 hg with he | hq
      · subst he
        by_cases hag : a = g
        · subst hag; exact Or.inl hdone
        · rcases hinv.done_cover g a hf hdone ha hva hma hpre hag with hd | ⟨g', hg', h1, _, h3⟩
          · exact Or.inl hd
          · rcases List.mem_cons.1 hg' with he' | hq'
            · exact absurd he' h3
            · exact Or.inr ⟨g', hq', h1⟩
      · exact Or.inr ⟨g, hq, hpre⟩
  · intro m a hm hdm ha hva hma hpre hne
    rcases hinv.done_cover m a hm hdm ha hva hma hpre hne with hd | ⟨g, hg, h1, h2, h3⟩
    · exact Or.inl hd
    · rcases List.mem_cons.1 hg with he | hq
      · subst he
        by_cases hag : a = g
        · subst hag; exact Or.inl hdone
        · rcases hinv.done_cover g a hf hdone ha hva hma h1 hag with
            hd | ⟨g', hg', k1, k2, k3⟩
          · exact Or.inl hd
          · rcases List.mem_cons.1 hg' with he' | hq'
            · exact absurd he' k3
            · refine Or.inr ⟨g', hq', k1, k2.trans h2, ?_⟩
              intro e
              subst e
              have hlen1 := k2.length_le
              have hlen2 := h2.length_le
              have hkeq : key g' = key g :=
                k2.eq_of_length_le hlen2
              exact k3 (hl.inj g' g (hinv.pending_lt g' (List.mem_cons_of_mem _ hq')) hf hkeq)
      · exact Or.inr ⟨g, hq, h1, h2, h3⟩

/-- Visiting a node that does not match: it covers no matching node, and is dropped. -/
theorem SweepInv.step_prune {h : Heap T} {key : Nat → Str} {phrase : Str} {i tc : Nat}
    {R0 R : Results T} {f : Nat} {Q : List Nat}
    (hinv : SweepInv h key phrase i tc R0 R (f :: Q)) (hno : ¬ Matches key phrase f) :
    SweepInv h key phrase i tc R0 R Q := by
  refine ⟨hinv.ok, fun g hg => hinv.pending_lt g (List.mem_cons_of_mem _ hg), hinv.frame,
    hinv.keys, hinv.sound, ?_, ?_⟩
  · intro a ha hva hma
    rcases hinv.cover a ha hva hma with hd | ⟨g, hg, hpre⟩
    · exact Or.inl hd
    · rcases List.mem_cons.1 hg with he | hq
      · subst he; exact absurd (hma.mono_prefix hpre) hno
      · exact Or.inr ⟨g, hq, hpre⟩
  · intro m a hm hdm ha hva hma hpre hne
    rcases hinv.done_cover m a hm hdm ha hva hma hpre hne with hd | ⟨g, hg, h1, h2, h3⟩
    · exact Or.inl hd
    · rcases List.mem_cons.1 hg with he | hq
      · subst he; exact absurd (hma.mono_prefix h1) hno
      · exact Or.inr ⟨g, hq, h1, h2, h3⟩

/-- Visiting a matching node with values: its values get their distances, and its parent
becomes pending. -/
theorem SweepInv.step_eval {t : Tree T} {key : Nat → Str} {items : List T} {nk : T → Str}
    (hL : Loaded t key items nk) {phrase : Str} {i tc : Nat} {R0 R R' : Results T} {f : Nat}
    {Q : List Nat} (hinv : SweepInv t.nodes key phrase i tc R0 R (f :: Q))
    (hmatch : Matches key phrase f) (hvals : GetValues t.nodes f ≠ [])
    (hok' : ResultsOK R' tc)
    (hframe : ∀ u j, j ≠ i → slotOf R' u j = slotOf R u j)
    (hother : ∀ u, u ∉ GetValues t.nodes f → slotOf R' u i = slotOf R u i)
    (hkeep : ∀ u, slotOf R u i ≠ none → slotOf R' u i = slotOf R u i)
    (hset : ∀ u, u ∈ GetValues t.nodes f → slotOf R' u i ≠ none)
    (hkeys : ∀ u, u ∈ keysOf R' ↔ u ∈ keysOf R ∨ u ∈ GetValues t.nodes f)
    (hval : (∀ u, u ∈ GetValues t.nodes f → Fuzzable.GetPrimaryDistanceFactor u = none) →
      ∀ u, u ∈ GetValues t.nodes f → slotOf R u i = none →
        slotOf R' u i = some (treeWeight i + LevenshteinDistance phrase (key f))) :
    SweepInv t.nodes key phrase i tc R0 R' (Q ++ (GetParentNode t.nodes f).toList) := by
  have hl := hL.labelled
  have hf : f < t.nodes.length := hinv.pending_lt f (List.mem_cons_self _ _)
  have hkeep' : ∀ u, slotOf R u i ≠ none → slotOf R' u i ≠ none := by
    intro u hu; rw [hkeep u hu]; exact hu
  have hdonef : NodeDone t.nodes R' i f := ⟨hvals, hset⟩
  have hnew : ∀ u, slotOf R' u i ≠ none → slotOf R u i ≠ none ∨ u ∈ GetValues t.nodes f := by
    intro u hu
    by_cases hmem : u ∈ GetValues t.nodes f
    · exact Or.inr hmem
    · rw [hother u hmem] at hu; exact Or.inl hu
  refine ⟨hok', ?_, ?_, ?_, ?_, ?_, ?_⟩
  · intro g hg
    rcases List.mem_append.1 hg with hq | hp
    · exact hinv.pending_lt g (List.mem_cons_of_mem _ hq)
    · rcases hl.parent_cases hf with ⟨_, hnone⟩ | ⟨p, r, hpar, hlt, _⟩
      · rw [hnone] at hp; cases hp
      · rw [hpar] at hp
        simp only [Option.toList, List.mem_singleton] at hp
        omega
  · intro v j hj
    rw [hframe v j hj, hinv.frame v j hj]
  · intro v
    rw [hkeys v, hinv.keys v]
    constructor
    · rintro ((h0 | hs) | hm)
      · exact Or.inl h0
      · exact Or.inr (hkeep' v hs)
      · exact Or.inr (hset v hm)
    · rintro (h0 | hs)
      · exact Or.inl (Or.inl h0)
      · rcases hnew v hs with ho | hm
        · exact Or.inl (Or.inr ho)
        · exact Or.inr hm
  · intro v hv
    by_cases hold : slotOf R v i ≠ none
    · obtain ⟨n, hn, hvn, hmn, hdn, hvaln⟩ := hinv.sound v hold
      refine ⟨n, hn, hvn, hmn, hdn.mono_slots hkeep', ?_⟩
      intro hnf
      rw [hkeep v hold]
      exact hvaln hnf
    · have hnone : slotOf R v i = none := by
        by_contra hc; exact hold hc
      have hmem : v ∈ GetValues t.nodes f := by
        rcases hnew v hv with ho | hm
        · exact absurd ho hold
        · exact hm
      exact ⟨f, hf, hmem, hmatch, hdonef, fun hnf => hval hnf v hmem hnone⟩
  · intro a ha hva hma
    rcases hinv.cover a ha hva hma with hd | ⟨g, hg, hpre⟩
    · exact Or.inl (hd.mono_slots hkeep')
    · rcases List.mem_cons.1 hg with he | hq
      · subst he
        by_cases hag : a = g
        · subst hag; exact Or.inl hdonef
        · obtain ⟨p, hpar, _, hap, _, _⟩ := hl.toward_parent ha hf hpre hag
          exact Or.inr ⟨p, List.mem_append_right _ (mem_parent_toList hpar), hap⟩
      · exact Or.inr ⟨g, List.mem_append_left _ hq, hpre⟩
  · intro m a hm hdm ha hva hma hpre hne
    by_cases hmf : m = f
    · subst hmf
      obtain ⟨p, hpar, _, hap, hpf, hlen⟩ := hl.toward_parent ha hf hpre hne
      refine Or.inr ⟨p, List.mem_append_right _ (mem_parent_toList hpar), hap, hpf, ?_⟩
      intro e
      subst e
      omega
    · have hdm0 : NodeDone t.nodes R i m := by
        refine ⟨hdm.1, ?_⟩
        intro v hv
        rcases hnew v (hdm.2 v hv) with ho | hmem
        · exact ho
        · exact absurd (hL.holder_unique hm hf hv hmem) hmf
      rcases hinv.done_cover m a hm hdm0 ha hva hma hpre hne with hd | ⟨g, hg, h1, h2, h3⟩
      · exact Or.inl (hd.mono_slots hkeep')
      · rcases List.mem_cons.1 hg with he | hq
        · subst he
          by_cases hag : a = g
          · subst hag; exact Or.inl hdonef
          · obtain ⟨p, hpar, _, hap, hpf, hlen⟩ := hl.toward_parent ha hf h1 hag
            refine Or.inr ⟨p, List.mem_append_right _ (mem_parent_toList hpar), hap,
              hpf.trans h2, ?_⟩
            intro e
            subst e
            have := h2.length_le
            omega
        · exact Or.inr ⟨g, List.mem_append_left _ hq, h1, h2, h3⟩

end SweepSteps

end FuzzyTrie

namespace FuzzyTrie

section SweepCode
variable {T : Type} [DecidableEq T] [Fuzzable T]

omit [DecidableEq T] [Fuzzable T] in
/-- Every node of a loaded tree lies on the parent chain of a leaf of the frontier. -/
theorem Loaded.leaf_cover {t : Tree T} {key : Nat → Str} {items : List T} {nk : T → Str}
    (hL : Loaded t key items nk) :
    ∀ (k n : Nat), t.nodes.length - n ≤ k → n < t.nodes.length →
      ∃ l, l ∈ t.leafNodes ∧ key n <+: key l := by
  intro k
  induction k with
  | zero => intro n hk hn; omega
  | succ k ih =>
    intro n hk hn
    by_cases hch : childNodes t.nodes n = []
    · exact ⟨n, (hL.leaf_iff n).2 ⟨hn, hch⟩, List.prefix_refl _⟩
    · obtain ⟨c, hc⟩ := List.exists_mem_of_ne_nil _ hch
      obtain ⟨hlt, hclen, r, hkey⟩ := hL.labelled.child_facts hn hc
      obtain ⟨l, hl, hpre⟩ := ih c (by omega) hclen
      exact ⟨l, hl, List.IsPrefix.trans (by rw [hkey]; exact List.prefix_append _ _) hpre⟩

theorem evaluate_nomatch (E : Type) {t : Tree T} {key : Nat → Str} {items : List T}
    {nk : T → Str} (hL : Loaded t key items nk) (phrase : Str) (i tc : Nat) (R : Results T)
    {n : Nat} (hn : n < t.nodes.length) (hno : ¬ Matches key phrase n) :
    evaluate (E := E) phrase i tc R t.nodes n = .ok (R, []) := by
  unfold evaluate
  rw [Contains_eq hL.labelled hn phrase]
  have : decide ((normalizeTerm phrase).Sublist (key n)) = false := by
    simpa [Matches] using hno
  rw [this]

theorem evaluate_match (E : Type) {t : Tree T} {key : Nat → Str} {items : List T}
    {nk : T → Str} (hL : Loaded t key items nk) (phrase : Str) (i tc : Nat) (hi : i ≤ tc)
    (R : Results T) (hok : ResultsOK R tc) {n : Nat} (hn : n < t.nodes.length)
    (hm : Matches key phrase n) :
    ∃ R', evaluate (E := E) phrase i tc R t.nodes n =
        .ok (R', (GetParentNode t.nodes n).toList) ∧
      ResultsOK R' tc ∧
      (∀ u j, j ≠ i → slotOf R' u j = slotOf R u j) ∧
      (∀ u, u ∉ GetValues t.nodes n → slotOf R' u i = slotOf R u i) ∧
      (∀ u, slotOf R u i ≠ none → slotOf R' u i = slotOf R u i) ∧
      (∀ u, u ∈ GetValues t.nodes n → slotOf R' u i ≠ none) ∧
      (∀ u, u ∈ keysOf R' ↔ u ∈ keysOf R ∨ u ∈ GetValues t.nodes n) ∧
      ((∀ u, u ∈ GetValues t.nodes n → Fuzzable.GetPrimaryDistanceFactor u = none) →
        ∀ u, u ∈ GetValues t.nodes n → slotOf R u i = none →
          slotOf R' u i = some (treeWeight i + LevenshteinDistance phrase (key n))) := by
  obtain ⟨R', hres, hrest⟩ := evaluateValues_spec E i tc hi (GetValues t.nodes n) R
    (LevenshteinDistance phrase (key n)) hok
  refine ⟨R', ?_, hrest⟩
  unfold evaluate
  rw [Contains_eq hL.labelled hn phrase]
  have : decide ((normalizeTerm phrase).Sublist (key n)) = true := by
    simpa [Matches] using hm
  rw [this]
  simp only [GetKeyTerm_eq hL.labelled hn, hres]
  cases GetParentNode t.nodes n <;> rfl

/-- One sweep over the current nodes keeps the invariant; the nodes it hands on are parents
of current nodes. -/
theorem sweepPass_spec (E : Type) {t : Tree T} {key : Nat → Str} {items : List T}
    {nk : T → Str} (hL : Loaded t key items nk) (phrase : Str) (i tc : Nat) (hi : i ≤ tc)
    (R0 : Results T) :
    ∀ (cur : List Nat) (R : Results T) (next : List Nat) (B : Nat),
      SweepInv t.nodes key phrase i tc R0 R (cur ++ next) →
      (∀ f, f ∈ cur → f < B) → (∀ p, p ∈ next → p + 1 < B) →
      ∃ R' next', sweepPass (E := E) phrase i tc t.nodes cur R next = .ok (R', next') ∧
        SweepInv t.nodes key phrase i tc R0 R' next' ∧ (∀ p, p ∈ next' → p + 1 < B) := by
  intro cur
  induction cur with
  | nil =>
    intro R next B hinv _ hnext
    exact ⟨R, next, rfl, by simpa using hinv, hnext⟩
  | cons f rest ih =>
    intro R next B hinv hcur hnext
    have hinv' : SweepInv t.nodes key phrase i tc R0 R (f :: (rest ++ next)) := by
      simpa using hinv
    have hf : f < t.nodes.length := hinv'.pending_lt f (List.mem_cons_self _ _)
    have hfB : f < B := hcur f (List.mem_cons_self _ _)
    have hrestB : ∀ g, g ∈ rest → g < B := fun g hg => hcur g (List.mem_cons_of_mem _ hg)
    have hparB : ∀ p, p ∈ next ++ (GetParentNode t.nodes f).toList → p + 1 < B := by
      intro p hp
      rcases List.mem_append.1 hp with hq | hq
      · exact hnext p hq
      · rcases hL.labelled.parent_cases hf with ⟨_, hnone⟩ | ⟨p', r, hpar, hlt, _⟩
        · rw [hnone] at hq; cases hq
        · rw [hpar] at hq
          simp only [Option.toList, List.mem_singleton] at hq
          omega
    cases hv : GetValues t.nodes f with
    | nil =>
      have hstep := hinv'.step_empty hL hv
      rw [List.append_assoc] at hstep
      obtain ⟨R', next', hres, hinv2, hb⟩ := ih R _ B hstep hrestB hparB
      refine ⟨R', next', ?_, hinv2, hb⟩
      rw [sweepPass]
      simp only [hv]
      cases hp : GetParentNode t.nodes f with
      | none =>
        rw [hp] at hres
        simpa using hres
      | some p =>
        rw [hp] at hres
        simpa using hres
    | cons v0 vs =>
      have hvals : GetValues t.nodes f ≠ [] := by rw [hv]; simp
      have hv0 : v0 ∈ GetValues t.nodes f := by rw [hv]; exact List.mem_cons_self _ _
      -- the two things the visit can do
      have hskip : slotOf R v0 i ≠ none →
          ∃ R' next', sweepPass (E := E) phrase i tc t.nodes rest R next = .ok (R', next') ∧
            SweepInv t.nodes key phrase i tc R0 R' next' ∧ (∀ p, p ∈ next' → p + 1 < B) := by
        intro hs
        obtain ⟨n, hn, hvn, _, hdn, _⟩ := hinv'.sound v0 hs
        have hnf : n = f := hL.holder_unique hn hf hvn hv0
        subst hnf
        exact ih R next B (hinv'.step_done hL hdn) hrestB hnext
      have heval : ∃ R1 add, evaluate (E := E) phrase i tc R t.nodes f = .ok (R1, add) ∧
          ∃ R' next', sweepPass (E := E) phrase i tc t.nodes rest R1 (next ++ add) =
              .ok (R', next') ∧
            SweepInv t.nodes key phrase i tc R0 R' next' ∧ (∀ p, p ∈ next' → p + 1 < B) := by
        by_cases hm : Matches key phrase f
        · obtain ⟨R1, hres, hok1, h1, h2, h3, h4, h5, h6⟩ :=
            evaluate_match E hL phrase i tc hi R hinv'.ok hf hm
          have hstep := hinv'.step_eval hL hm hvals hok1 h1 h2 h3 h4 h5 h6
          rw [List.append_assoc] at hstep
          exact ⟨R1, _, hres, ih R1 _ B hstep hrestB hparB⟩
        · have hres := evaluate_nomatch E hL phrase i tc R hf hm
          refine ⟨R, [], hres, ?_⟩
          rw [List.append_nil]
          exact ih R next B (hinv'.step_prune hm) hrestB hnext
      rw [sweepPass]
      simp only [hv]
      cases hlook : R.lookup v0 with
      | none =>
        simp only
        obtain ⟨R1, add, hres, R', next', hpass, hinv2, hb⟩ := heval
        rw [hres]
        exact ⟨R', next', hpass, hinv2, hb⟩
      | some dr =>
        have hlen := hinv'.ok.length_eq (v0, dr) (lookup_mem hlook)
        simp only at hlen
        have hlt : i < dr.Distances.length := by omega
        have hget : dr.Distances[i]? = some dr.Distances[i] :=
          List.getElem?_eq_getElem hlt
        have hslot := slotOf_eq_of_lookup hlook i
        rw [hget] at hslot
        simp only [Option.getD_some] at hslot
        simp only [hget]
        cases hx : dr.Distances[i] with
        | none =>
          simp only [Option.isSome_none]
          obtain ⟨R1, add, hres, R', next', hpass, hinv2, hb⟩ := heval
          rw [hres]
          exact ⟨R', next', hpass, hinv2, hb⟩
        | some y =>
          simp only [Option.isSome_some]
          exact hskip (by rw [hslot, hx]; simp)

/-- The sweep of `searchTree` ends within its budget when the context is not cancelled, with
nothing pending. -/
theorem sweepLoop_spec {C : Type} {t : Tree T} {key : Nat → Str} {items : List T}
    {nk : T → Str} (hL : Loaded t key items nk) (ctx : Context C) (hctx : ctx.cause = none)
    (phrase : Str) (i tc : Nat) (hi : i ≤ tc) (R0 : Results T) :
    ∀ (fuel : Nat) (cur : List Nat) (R : Results T) (B : Nat),
      SweepInv t.nodes key phrase i tc R0 R cur → (∀ f, f ∈ cur → f < B) → B ≤ fuel + 1 →
      ∃ R', sweepLoop ctx phrase i tc t.nodes fuel cur R = .ok R' ∧
        SweepInv t.nodes key phrase i tc R0 R' [] := by
  intro fuel
  induction fuel with
  | zero =>
    intro cur R B hinv hcur hB
    obtain ⟨R1, next1, hpass, hinv1, hb1⟩ :=
      sweepPass_spec C hL phrase i tc hi R0 cur R [] B (by simpa using hinv) hcur
        (fun p hp => by cases hp)
    cases next1 with
    | nil =>
      refine ⟨R1, ?_, hinv1⟩
      rw [sweepLoop]
      simp only [hctx, hpass]
      rfl
    | cons p rest =>
      have := hb1 p (List.mem_cons_self _ _)
      omega
  | succ fuel ih =>
    intro cur R B hinv hcur hB
    obtain ⟨R1, next1, hpass, hinv1, hb1⟩ :=
      sweepPass_spec C hL phrase i tc hi R0 cur R [] B (by simpa using hinv) hcur
        (fun p hp => by cases hp)
    cases hnext : next1 with
    | nil =>
      subst hnext
      refine ⟨R1, ?_, hinv1⟩
      rw [sweepLoop]
      simp only [hctx, hpass]
      rfl
    | cons p rest =>
      obtain ⟨R', hres, hinv'⟩ := ih next1 R1 (B - 1) hinv1
        (fun f hf => by have := hb1 f hf; omega) (by omega)
      refine ⟨R', ?_, hinv'⟩
      rw [sweepLoop]
      simp only [hctx, hpass]
      have hne : ¬ next1.length = 0 := by rw [hnext]; simp
      rw [if_neg hne]
      exact hres

end SweepCode

end FuzzyTrie

namespace FuzzyTrie

section SearchTrees
variable {C E T : Type} [DecidableEq T] [Fuzzable T]

/-- `searchTree` on a loaded tree, with no distance of that tree set beforehand and the
context not cancelled: it returns, having set the distance of exactly the records of the
tree whose normalized key contains the phrase, and nothing else. -/
theorem searchTree_spec (wt : DistanceTrees T) (ctx : Context C) (hctx : ctx.cause = none)
    (phrase : Str) (i : Nat) (t : Tree T) (ht : wt.trees[i]? = some t) {key : Nat → Str}
    {items : List T} {nk : T → Str} (hL : Loaded t key items nk) (R0 : Results T)
    (hok : ResultsOK R0 wt.trees.length) (hfresh : ∀ v, slotOf R0 v i = none) :
    ∃ R', searchTree wt ctx i phrase R0 = .ok R' ∧ ResultsOK R' wt.trees.length ∧
      (∀ v j, j ≠ i → slotOf R' v j = slotOf R0 v j) ∧
      (∀ v, v ∈ keysOf R' ↔ v ∈ keysOf R0 ∨ slotOf R' v i ≠ none) ∧
      (∀ v, slotOf R' v i ≠ none ↔ v ∈ items ∧ (normalizeTerm phrase).Sublist (nk v)) ∧
      (∀ v, slotOf R' v i ≠ none →
        (∀ u, u ∈ items → nk u = nk v → Fuzzable.GetPrimaryDistanceFactor u = none) →
        slotOf R' v i = some (treeWeight i + LevenshteinDistance phrase (nk v))) := by
  have hi : i < wt.trees.length := lt_length_of_getElem? ht
  have hleaf_lt : ∀ f, f ∈ t.leafNodes → f < t.nodes.length :=
    fun f hf => ((hL.leaf_iff f).1 hf).1
  have hinit : SweepInv t.nodes key phrase i wt.trees.length R0 R0 t.leafNodes := by
    refine ⟨hok, hleaf_lt, fun _ _ _ => rfl, ?_, ?_, ?_, ?_⟩
    · intro v
      constructor
      · intro h; exact Or.inl h
      · rintro (h | h)
        · exact h
        · exact absurd (hfresh v) h
    · intro v hv
      exact absurd (hfresh v) hv
    · intro a ha _ _
      obtain ⟨l, hl, hpre⟩ := hL.leaf_cover (t.nodes.length - a) a (Nat.le_refl _) ha
      exact Or.inr ⟨l, hl, hpre⟩
    · intro m a _ hdm _ _ _ _ _
      obtain ⟨v, hv⟩ := List.exists_mem_of_ne_nil _ hdm.1
      exact absurd (hfresh v) (hdm.2 v hv)
  obtain ⟨R', hres, hinv⟩ := sweepLoop_spec hL ctx hctx phrase i wt.trees.length
    (Nat.le_of_lt hi) R0 t.nodes.length t.leafNodes R0 t.nodes.length hinit hleaf_lt
    (Nat.le_succ _)
  refine ⟨R', ?_, hinv.ok, hinv.frame, hinv.keys, ?_, ?_⟩
  · unfold searchTree
    simp only [ht, Tree.GetLeafNodes]
    exact hres
  · intro v
    constructor
    · intro hv
      obtain ⟨n, hn, hvn, hmn, _, _⟩ := hinv.sound v hv
      rw [GetValues_eq_filter hL hn, List.mem_filter] at hvn
      have hk := hvn.2
      simp only [decide_eq_true_eq] at hk
      exact ⟨hvn.1, by rw [hk]; exact hmn⟩
    · rintro ⟨hmem, hsub⟩
      obtain ⟨n, hn, hkn⟩ := hL.filed.has_node v hmem
      have hvn : v ∈ GetValues t.nodes n := by
        rw [GetValues_eq_filter hL hn, List.mem_filter]
        exact ⟨hmem, by simp [hkn]⟩
      have hvals : GetValues t.nodes n ≠ [] := List.ne_nil_of_mem hvn
      have hmn : Matches key phrase n := by
        unfold Matches; rw [hkn]; exact hsub
      rcases hinv.cover n hn hvals hmn with hd | ⟨f, hf, _⟩
      · exact hd.2 v hvn
      · cases hf
  · intro v hv hnf
    obtain ⟨n, hn, hvn, _, _, hval⟩ := hinv.sound v hv
    have hvn' := hvn
    rw [GetValues_eq_filter hL hn, List.mem_filter] at hvn'
    have hk := hvn'.2
    simp only [decide_eq_true_eq] at hk
    rw [hk]
    apply hval
    intro u hu
    rw [GetValues_eq_filter hL hn, List.mem_filter] at hu
    have hku := hu.2
    simp only [decide_eq_true_eq] at hku
    exact hnf u hu.1 (by rw [hku, hk])

omit [DecidableEq T] [Fuzzable T] in
theorem Built.length_eq {sources : List (TreeSource C E T)} {trees : List (Tree T)}
    (hb : Built sources trees) : sources.length = trees.length := by
  have := congrArg List.length hb
  simpa using this

omit [DecidableEq T] [Fuzzable T] in
theorem Built.at {sources : List (TreeSource C E T)} {trees : List (Tree T)}
    (hb : Built sources trees) {i : Nat} (hi : i < trees.length) :
    ∃ s t, sources[i]? = some s ∧ trees[i]? = some t ∧
      LoadTree s.ctx s.items s.termExtractor = .ok t := by
  have hlen := hb.length_eq
  obtain ⟨s, hs⟩ := exists_getElem?_of_lt (l := sources) (i := i) (by omega)
  obtain ⟨t, ht⟩ := exists_getElem?_of_lt hi
  refine ⟨s, t, hs, ht, ?_⟩
  have := congrArg (fun l => l[i]?) hb
  simp only [List.getElem?_map, hs, ht, Option.map_some', Option.some.injEq] at this
  exact this

/-- Searching tree `k` takes the state after `k` trees to the state after `k + 1` trees. -/
theorem searchTree_state {sources : List (TreeSource C E T)} {trees : List (Tree T)}
    (hb : Built sources trees) (ctx : Context C) (hctx : ctx.cause = none) (phrase : Str)
    (k : Nat) (hk : k < trees.length) (R : Results T)
    (hst : SearchState sources phrase trees.length k R) :
    ∃ R', searchTree { trees := trees } ctx k phrase R = .ok R' ∧
      SearchState sources phrase trees.length (k + 1) R' := by
  obtain ⟨s, t, hs, ht, hload⟩ := hb.at hk
  obtain ⟨key, hL⟩ := LoadTree_loaded hload
  obtain ⟨R', hres, hok', hframe, hkeys, hiff, hval⟩ :=
    searchTree_spec { trees := trees } ctx hctx phrase k t ht hL R hst.ok
      (fun v => hst.slot_none v k (Nat.le_refl _))
  refine ⟨R', hres, hok', ?_, ?_, ?_, ?_⟩
  · intro v j hj
    by_cases hjk : j = k
    · subst hjk
      rw [hiff v]
      constructor
      · rintro ⟨hmem, hsub⟩
        exact ⟨s, hs, hmem, hsub⟩
      · rintro ⟨s', hs', hmem, hsub⟩
        rw [hs] at hs'; cases hs'
        exact ⟨hmem, hsub⟩
    · rw [hframe v j hjk]
      exact hst.slot_iff v j (by omega)
  · intro v j hj
    rw [hframe v j (by omega)]
    exact hst.slot_none v j (by omega)
  · intro v
    rw [hkeys v, hst.keys_iff v]
    constructor
    · rintro (⟨j, hj, hsj⟩ | hsk)
      · exact ⟨j, by omega, by rw [hframe v j (by omega)]; exact hsj⟩
      · exact ⟨k, by omega, hsk⟩
    · rintro ⟨j, hj, hsj⟩
      by_cases hjk : j = k
      · subst hjk; exact Or.inr hsj
      · exact Or.inl ⟨j, by omega, by rw [← hframe v j hjk]; exact hsj⟩
  · intro v j s' hj hs' hsj hnf
    by_cases hjk : j = k
    · subst hjk
      rw [hs] at hs'; cases hs'
      exact hval v hsj hnf
    · rw [hframe v j hjk] at hsj ⊢
      exact hst.value v j s' (by omega) hs' hsj hnf

/-- The loop of `Search` over the trees not yet searched. -/
theorem searchTrees_spec {sources : List (TreeSource C E T)} {trees : List (Tree T)}
    (hb : Built sources trees) (ctx : Context C) (hctx : ctx.cause = none) (phrase : Str) :
    ∀ (n k : Nat) (R : Results T), k + n = trees.length →
      SearchState sources phrase trees.length k R →
      ∃ R', searchTrees { trees := trees } ctx phrase (List.range' k n) R = .ok R' ∧
        SearchState sources phrase trees.length trees.length R' := by
  intro n
  induction n with
  | zero =>
    intro k R hk hst
    have : k = trees.length := by omega
    subst this
    exact ⟨R, rfl, hst⟩
  | succ n ih =>
    intro k R hk hst
    obtain ⟨R1, hres, hst1⟩ := searchTree_state hb ctx hctx phrase k (by omega) R hst
    obtain ⟨R', hres', hst'⟩ := ih (k + 1) R1 (by omega) hst1
    refine ⟨R', ?_, hst'⟩
    rw [List.range'_succ, searchTrees, hres]
    exact hres'

theorem SearchState.init (sources : List (TreeSource C E T)) (phrase : Str) (tc : Nat) :
    SearchState sources phrase tc 0 ([] : Results T) := by
  refine ⟨⟨List.nodup_nil, ?_, ?_⟩, ?_, ?_, ?_, ?_⟩
  · intro e he; cases he
  · intro e he; cases he
  · intro v j hj; omega
  · intro v j _; rfl
  · intro v
    constructor
    · intro h; cases h
    · rintro ⟨j, hj, _⟩; omega
  · intro v j s hj; omega

/-- The loop of `Search` over all the trees, from the empty results map. -/
theorem searchTrees_all {sources : List (TreeSource C E T)} {trees : List (Tree T)}
    (hb : Built sources trees) (ctx : Context C) (hctx : ctx.cause = none) (phrase : Str) :
    ∃ R, searchTrees { trees := trees } ctx phrase (List.range trees.length) [] = .ok R ∧
      SearchState sources phrase trees.length trees.length R := by
  rw [List.range_eq_range']
  exact searchTrees_spec hb ctx hctx phrase trees.length 0 [] (by omega)
    (SearchState.init sources phrase trees.length)

end SearchTrees

end FuzzyTrie

namespace FuzzyTrie

section Sorting
variable {T : Type}

/-- The comparison of `sortResults` reads no position past the end of the second vector
when that one is at least as long as the first. -/
theorem distancesLess_isSome :
    ∀ (a b : List (Option Int)), a.length ≤ b.length → ∃ x, distancesLess a b = some x := by
  intro a
  induction a with
  | nil => intro b _; exact ⟨false, rfl⟩
  | cons x as ih =>
    intro b hlen
    cases b with
    | nil => simp at hlen
    | cons y bs =>
      have hlen' : as.length ≤ bs.length := by simpa using hlen
      obtain ⟨z, hz⟩ := ih bs hlen'
      cases x with
      | none =>
        cases y with
        | none => exact ⟨z, by simp [distancesLess, hz]⟩
        | some o => exact ⟨false, by simp [distancesLess]⟩
      | some d =>
        cases y with
        | none => exact ⟨true, by simp [distancesLess]⟩
        | some o =>
          by_cases h1 : d < o
          · exact ⟨true, by simp [distancesLess, h1]⟩
          · by_cases h2 : d > o
            · exact ⟨false, by simp [distancesLess, h1, h2]⟩
            · exact ⟨z, by simp [distancesLess, h1, h2, hz]⟩

/-- On vectors of equal length the comparison of `sortResults` is the lexicographic order. -/
theorem distancesLess_iff_VecLt :
    ∀ (a b : List (Option Int)), a.length = b.length →
      (distancesLess a b = some true ↔ VecLt a b) := by
  intro a
  induction a with
  | nil =>
    intro b _
    constructor
    · intro h; simp [distancesLess] at h
    · intro h; cases h
  | cons x as ih =>
    intro b hlen
    cases b with
    | nil => simp at hlen
    | cons y bs =>
      have hlen' : as.length = bs.length := by simpa using hlen
      have hih := ih bs hlen'
      cases x with
      | none =>
        cases y with
        | none =>
          simp only [distancesLess]
          rw [hih]
          constructor
          · intro h; exact VecLt.tail h
          · intro h
            cases h with
            | head hs => exact absurd hs (by simp [slotLt])
            | tail ht => exact ht
        | some o =>
          simp only [distancesLess]
          constructor
          · intro h; cases h
          · intro h
            cases h with
            | head hs => exact absurd hs (by simp [slotLt])
      | some d =>
        cases y with
        | none =>
          simp only [distancesLess]
          constructor
          · intro _; exact VecLt.head (by simp [slotLt])
          · intro _; trivial
        | some o =>
          simp only [distancesLess]
          by_cases h1 : d < o
          · simp only [h1, if_true]
            constructor
            · intro _; exact VecLt.head (by simpa [slotLt] using h1)
            · intro _; trivial
          · by_cases h2 : d > o
            · simp only [h1, h2, if_true, if_false]
              constructor
              · intro h; cases h
              · intro h
                cases h with
                | head hs => exact absurd (by simpa [slotLt] using hs) h1
                | tail ht => omega
            · simp only [h1, h2, if_false]
              rw [hih]
              have hdo : d = o := by omega
              subst hdo
              constructor
              · intro h; exact VecLt.tail h
              · intro h
                cases h with
                | head hs => simp [slotLt] at hs
                | tail ht => exact ht

/-- The comparison of `sortResults` is asymmetric. -/
theorem distancesLess_asymm :
    ∀ (a b : List (Option Int)), distancesLess a b = some true →
      distancesLess b a = some false := by
  intro a
  induction a with
  | nil => intro b h; simp [distancesLess] at h
  | cons x as ih =>
    intro b h
    cases b with
    | nil => simp [distancesLess] at h
    | cons y bs =>
      cases x with
      | none =>
        cases y with
        | none =>
          simp only [distancesLess] at h ⊢
          exact ih bs h
        | some o => simp [distancesLess] at h
      | some d =>
        cases y with
        | none => simp [distancesLess]
        | some o =>
          simp only [distancesLess] at h ⊢
          by_cases h1 : d < o
          · have h3 : ¬ o < d := by omega
            have h4 : o > d := h1
            simp [h3, h4]
          · by_cases h2 : d > o
            · simp [h1, h2] at h
            · simp only [h1, h2, if_false] at h
              have h3 : ¬ o < d := by omega
              have h4 : ¬ o > d := by omega
              simp only [h3, h4, if_false]
              exact ih bs h

/-- The inner loop of the insertion sort rearranges the elements, whenever it returns. -/
theorem sinkInto_perm (E : Type) (x : DistanceResult T) :
    ∀ (sorted r : List (DistanceResult T)),
      sinkInto (E := E) x sorted = .ok r → r.Perm (x :: sorted) := by
  intro sorted
  induction sorted with
  | nil =>
    intro r h
    simp only [sinkInto, Except.ok.injEq] at h
    subst h
    exact List.Perm.refl _
  | cons y ys ih =>
    intro r h
    rw [sinkInto] at h
    cases hc : distancesLess x.Distances y.Distances with
    | none => rw [hc] at h; cases h
    | some c =>
      rw [hc] at h
      cases c with
      | false =>
        simp only [Except.ok.injEq] at h
        subst h
        exact List.Perm.refl _
      | true =>
        simp only at h
        cases hr : sinkInto (E := E) x ys with
        | error f => rw [hr] at h; cases h
        | ok r' =>
          rw [hr] at h
          simp only [Except.ok.injEq] at h
          subst h
          exact ((ih r' hr).cons y).trans (List.Perm.swap x y ys)

/-- The insertion sort rearranges the elements, whenever it returns. -/
theorem insertionSort_perm (E : Type) :
    ∀ (l sorted out : List (DistanceResult T)),
      insertionSort (E := E) l sorted = .ok out → out.Perm (l ++ sorted) := by
  intro l
  induction l with
  | nil =>
    intro sorted out h
    simp only [insertionSort, Except.ok.injEq] at h
    subst h
    simp
  | cons x rest ih =>
    intro sorted out h
    rw [insertionSort] at h
    cases hs : sinkInto (E := E) x sorted with
    | error f => rw [hs] at h; cases h
    | ok r =>
      rw [hs] at h
      have h1 := ih r out h
      have h2 := sinkInto_perm E x sorted r hs
      have h3 : (rest ++ r).Perm (rest ++ (x :: sorted)) := List.Perm.append_left rest h2
      exact h1.trans (h3.trans List.perm_middle)

/-- With vectors of one length the inner loop returns, and keeps the part before the
position in order: no element is smaller than the one before it. -/
theorem sinkInto_sorted (E : Type) (L : Nat) (x : DistanceResult T)
    (hx : x.Distances.length = L) :
    ∀ (sorted : List (DistanceResult T)),
      (∀ y, y ∈ sorted → y.Distances.length = L) →
      List.Chain' (fun later earlier : DistanceResult T =>
        distancesLess later.Distances earlier.Distances ≠ some true) sorted →
      ∃ r, sinkInto (E := E) x sorted = .ok r ∧
        List.Chain' (fun later earlier : DistanceResult T =>
          distancesLess later.Distances earlier.Distances ≠ some true) r ∧
        (∀ z, z ∈ r.head? → z = x ∨ z ∈ sorted.head?) := by
  intro sorted
  induction sorted with
  | nil =>
    intro _ _
    exact ⟨[x], rfl, List.chain'_singleton _, by simp⟩
  | cons y ys ih =>
    intro hlen hch
    have hy : y.Distances.length = L := hlen y (List.mem_cons_self _ _)
    obtain ⟨c, hc⟩ := distancesLess_isSome x.Distances y.Distances (by omega)
    cases c with
    | false =>
      refine ⟨x :: y :: ys, by rw [sinkInto, hc], ?_, by simp⟩
      exact List.chain'_cons.2 ⟨by rw [hc]; simp, hch⟩
    | true =>
      obtain ⟨r', hr', hch', hhead⟩ := ih (fun z hz => hlen z (List.mem_cons_of_mem _ hz))
        hch.tail
      refine ⟨y :: r', by rw [sinkInto, hc]; simp only [hr'], ?_, by simp⟩
      rw [List.chain'_cons']
      refine ⟨?_, hch'⟩
      intro z hz
      rcases hhead z hz with he | ho
      · subst he
        rw [distancesLess_asymm _ _ hc]
        simp
      · exact (List.chain'_cons'.1 hch).1 z ho

/-- With vectors of one length the insertion sort returns a list in which no element is
smaller than the one before it. -/
theorem insertionSort_sorted (E : Type) (L : Nat) :
    ∀ (l sorted : List (DistanceResult T)),
      (∀ y, y ∈ l → y.Distances.length = L) →
      (∀ y, y ∈ sorted → y.Distances.length = L) →
      List.Chain' (fun later earlier : DistanceResult T =>
        distancesLess later.Distances earlier.Distances ≠ some true) sorted →
      ∃ out, insertionSort (E := E) l sorted = .ok out ∧
        List.Chain' (fun earlier later : DistanceResult T =>
          distancesLess later.Distances earlier.Distances ≠ some true) out := by
  intro l
  induction l with
  | nil =>
    intro sorted _ _ hch
    refine ⟨sorted.reverse, rfl, ?_⟩
    rw [List.chain'_reverse]
    exact hch
  | cons x rest ih =>
    intro sorted hl hs hch
    obtain ⟨r, hr, hch', _⟩ := sinkInto_sorted E L x (hl x (List.mem_cons_self _ _)) sorted
      hs hch
    have hperm := sinkInto_perm E x sorted r hr
    have hrlen : ∀ y, y ∈ r → y.Distances.length = L := by
      intro y hy
      rcases List.mem_cons.1 (hperm.mem_iff.1 hy) with he | ho
      · subst he; exact hl y (List.mem_cons_self _ _)
      · exact hs y ho
    obtain ⟨out, hout, hsorted⟩ := ih r (fun y hy => hl y (List.mem_cons_of_mem _ hy))
      hrlen hch'
    exact ⟨out, by rw [insertionSort, hr]; exact hout, hsorted⟩

end Sorting

end FuzzyTrie

namespace FuzzyTrie

section SearchView
variable {C E T : Type} [DecidableEq T] [Fuzzable T]

omit [Fuzzable T] in
theorem ResultsOK.lookup_of_mem {tc : Nat} :
    ∀ {R : Results T}, ResultsOK R tc → ∀ {v : T} {dr : DistanceResult T},
      (v, dr) ∈ R → R.lookup v = some dr := by
  intro R
  induction R with
  | nil => intro _ v dr h; cases h
  | cons e rest ih =>
    intro hok v dr hmem
    obtain ⟨k, d⟩ := e
    have hnd : k ∉ keysOf rest ∧ (keysOf rest).Nodup := by
      have := hok.nodup
      simp only [keysOf, List.map_cons, List.nodup_cons] at this
      exact this
    have hokrest : ResultsOK rest tc :=
      ⟨hnd.2, fun e he => hok.result_eq e (List.mem_cons_of_mem _ he),
        fun e he => hok.length_eq e (List.mem_cons_of_mem _ he)⟩
    rw [List.lookup_cons]
    by_cases hvk : v = k
    · subst hvk
      simp only [beq_self_eq_true]
      rcases List.mem_cons.1 hmem with he | hr
      · simp only [Prod.mk.injEq, true_and] at he
        rw [he]
      · exfalso
        apply hnd.1
        unfold keysOf
        exact List.mem_map.2 ⟨(v, dr), hr, rfl⟩
    · have hb : (v == k) = false := by simpa using hvk
      simp only [hb]
      rcases List.mem_cons.1 hmem with he | hr
      · simp only [Prod.mk.injEq] at he
        exact absurd he.1 hvk
      · exact ih hokrest hr

omit [DecidableEq T] in
theorem map_Result_appendSecondary {tc : Nat} {R : Results T} (hok : ResultsOK R tc) :
    (appendSecondary R).map (fun dr => dr.Result) = keysOf R := by
  unfold appendSecondary keysOf
  rw [List.map_map]
  apply List.map_congr_left
  intro e he
  exact hok.result_eq e he

/-- `Search` with the context not cancelled: the loop over the trees returns the state
after all trees, and what `Search` returns is what the sort makes of the entries with the
secondary distances appended. -/
theorem Search_eq_sort {sources : List (TreeSource C E T)} {trees : List (Tree T)}
    (hb : Built sources trees) (ctx : Context C) (hctx : ctx.cause = none) (phrase : Str) :
    ∃ R, SearchState sources phrase trees.length trees.length R ∧
      Search { trees := trees } ctx phrase = sortResults (appendSecondary R) := by
  obtain ⟨R, hres, hst⟩ := searchTrees_all hb ctx hctx phrase
  refine ⟨R, hst, ?_⟩
  unfold Search
  simp only [hres]

/-- Every result of `Search` is an entry of the final results map with the secondary
distances of its record appended to the `treeCount + 1` distances `evaluate` allocated. -/
theorem Search_result_view {sources : List (TreeSource C E T)} {trees : List (Tree T)}
    (hb : Built sources trees) (ctx : Context C) (hctx : ctx.cause = none) (phrase : Str)
    (out : List (DistanceResult T)) (hout : Search { trees := trees } ctx phrase = .ok out) :
    ∃ R, SearchState sources phrase trees.length trees.length R ∧
      (out.map (fun dr => dr.Result)).Perm (keysOf R) ∧
      ∀ dr, dr ∈ out → ∃ perTree : List (Option Int),
        perTree.length = trees.length + 1 ∧
        dr.Distances = perTree ++ Fuzzable.GetSecondaryDistances dr.Result ∧
        ∀ i, slotOf R dr.Result i = (perTree[i]?).getD none := by
  obtain ⟨R, hst, heq⟩ := Search_eq_sort hb ctx hctx phrase
  rw [heq] at hout
  have hperm : out.Perm (appendSecondary R) := by
    have := insertionSort_perm _ (appendSecondary R) [] out hout
    simpa using this
  refine ⟨R, hst, ?_, ?_⟩
  · rw [← map_Result_appendSecondary hst.ok]
    exact hperm.map _
  · intro dr hdr
    have hmem := hperm.mem_iff.1 hdr
    unfold appendSecondary at hmem
    obtain ⟨e, he, hdre⟩ := List.mem_map.1 hmem
    obtain ⟨v, dr0⟩ := e
    have hres : dr0.Result = v := hst.ok.result_eq (v, dr0) he
    have hlen : dr0.Distances.length = trees.length + 1 := hst.ok.length_eq (v, dr0) he
    have hlook := hst.ok.lookup_of_mem he
    subst hdre
    simp only
    refine ⟨dr0.Distances, hlen, by rw [hres], ?_⟩
    intro i
    rw [hres]
    exact slotOf_eq_of_lookup hlook i

/-- With one number of secondary distances for all loaded records, `Search` returns, and no
result is smaller, in the comparison of `sortResults`, than the one before it. -/
theorem Search_sorted {sources : List (TreeSource C E T)} {trees : List (Tree T)}
    (hb : Built sources trees) (ctx : Context C) (hctx : ctx.cause = none) (phrase : Str)
    (L : Nat)
    (huni : ∀ s r, s ∈ sources → r ∈ s.items → (Fuzzable.GetSecondaryDistances r).length = L) :
    ∃ out, Search { trees := trees } ctx phrase = .ok out ∧
      (∀ dr, dr ∈ out → dr.Distances.length = trees.length + 1 + L) ∧
      List.Chain' (fun earlier later : DistanceResult T =>
        distancesLess later.Distances earlier.Distances ≠ some true) out := by
  obtain ⟨R, hst, heq⟩ := Search_eq_sort hb ctx hctx phrase
  have hlen : ∀ dr, dr ∈ appendSecondary R → dr.Distances.length = trees.length + 1 + L := by
    intro dr hdr
    unfold appendSecondary at hdr
    obtain ⟨e, he, hdre⟩ := List.mem_map.1 hdr
    obtain ⟨v, dr0⟩ := e
    subst hdre
    have hl0 : dr0.Distances.length = trees.length + 1 := hst.ok.length_eq (v, dr0) he
    have hv : v ∈ keysOf R := List.mem_map.2 ⟨(v, dr0), he, rfl⟩
    obtain ⟨j, hj, hsj⟩ := (hst.keys_iff v).1 hv
    obtain ⟨s, hs, hmem, _⟩ := (hst.slot_iff v j hj).1 hsj
    have hsm : s ∈ sources := List.getElem?_mem hs
    simp only [List.length_append, hl0, huni s v hsm hmem]
  obtain ⟨out, hout, hsorted⟩ := insertionSort_sorted (SearchError C)
    (trees.length + 1 + L) (appendSecondary R) [] hlen (fun y hy => by cases hy)
    List.chain'_nil
  have hperm : out.Perm (appendSecondary R) := by
    have := insertionSort_perm _ (appendSecondary R) [] out hout
    simpa using this
  refine ⟨out, by rw [heq]; unfold sortResults; exact hout, ?_, hsorted⟩
  intro dr hdr
  exact hlen dr (hperm.mem_iff.1 hdr)

end SearchView

end FuzzyTrie

namespace FuzzyTrie

section RankerClaims
variable {C E T : Type} [DecidableEq T] [Fuzzable T]

/-- A search that returns a result was not cancelled: with a cancelled context `Search`
returns an error as soon as there is a tree, and nothing without a tree. -/
theorem Search_ok_not_cancelled (trees : List (Tree T)) (ctx : Context C) (phrase : Str)
    (out : List (DistanceResult T)) (hout : Search { trees := trees } ctx phrase = .ok out)
    (dr : DistanceResult T) (hdr : dr ∈ out) : ctx.cause = none := by
  cases hc : ctx.cause with
  | none => rfl
  | some c =>
    exfalso
    cases trees with
    | nil =>
      have : Search ({ trees := [] } : DistanceTrees T) ctx phrase = .ok [] := rfl
      rw [this] at hout
      simp only [Except.ok.injEq] at hout
      subst hout
      cases hdr
    | cons t ts =>
      have h1 : searchTree { trees := t :: ts } ctx 0 phrase [] = .error (.error c) := by
        unfold searchTree
        simp only [List.getElem?_cons_zero]
        rw [sweepLoop]
        simp only [hc]
      have h2 : searchTrees { trees := t :: ts } ctx phrase (List.range (t :: ts).length) [] =
          .error (.error (.searchTreeFailed 0 c)) := by
        rw [List.range_eq_range', List.length_cons, List.range'_succ, searchTrees, h1]
      unfold Search at hout
      simp only [h2] at hout
      cases hout

omit [DecidableEq T] [Fuzzable T] in
theorem lt_length_of_mem_GetValues {h : Heap T} {n : Nat} {v : T} (hv : v ∈ GetValues h n) :
    n < h.length := by
  unfold GetValues at hv
  cases hn : h[n]? with
  | none => rw [hn] at hv; cases hv
  | some nd => exact lt_length_of_getElem? hn

theorem getElem?_perTree {perTree sec : List (Option Int)} {tc i : Nat}
    (hlen : perTree.length = tc + 1) (hi : i ≤ tc) :
    (perTree ++ sec)[i]? = some ((perTree[i]?).getD none) := by
  have hlt : i < perTree.length := by omega
  rw [List.getElem?_append_left hlt, List.getElem?_eq_getElem hlt]
  simp

/-- When all loaded records supply the same number of secondary distances and the context
is not cancelled, `Search` succeeds and the records in its output are
exactly the records that, in at least one tree, were loaded into the tree under a
normalized key that contains the normalized phrase as a subsequence; no record is listed
twice. -/
theorem Search_returns_matching_records (sources : List (TreeSource C E T))
    (trees : List (Tree T)) (hb : Built sources trees) (ctx : Context C)
    (hctx : ctx.cause = none) (phrase : Str) (L : Nat)
    (huni : ∀ s r, s ∈ sources → r ∈ s.items → (Fuzzable.GetSecondaryDistances r).length = L) :
    ∃ out, Search (NewDistanceTrees trees) ctx phrase = .ok out ∧
      (out.map (fun dr => dr.Result)).Nodup ∧
      ∀ r, r ∈ out.map (fun dr => dr.Result) ↔ ∃ i, MatchesIn sources phrase r i := by
  obtain ⟨out, hout, _, _⟩ := Search_sorted hb ctx hctx phrase L huni
  obtain ⟨R, hst, hperm, _⟩ := Search_result_view hb ctx hctx phrase out hout
  refine ⟨out, hout, (hperm.nodup_iff).2 hst.ok.nodup, ?_⟩
  intro r
  rw [hperm.mem_iff, hst.keys_iff r]
  constructor
  · rintro ⟨j, hj, hs⟩
    exact ⟨j, (hst.slot_iff r j hj).1 hs⟩
  · rintro ⟨i, hm⟩
    obtain ⟨s, hs, _, _⟩ := id hm
    have hi : i < trees.length := by
      rw [← hb.length_eq]; exact lt_length_of_getElem? hs
    exact ⟨i, hi, (hst.slot_iff r i hi).2 hm⟩

/-- C3: in a result of `Search` the distance at a tree index is non-nil exactly when the
record was loaded into that tree under a normalized key that contains the normalized phrase
as a subsequence, and nil exactly when it did not match there. -/
theorem Distances_slot_iff_match (sources : List (TreeSource C E T)) (trees : List (Tree T))
    (hb : Built sources trees) (ctx : Context C) (phrase : Str)
    (out : List (DistanceResult T))
    (hout : Search (NewDistanceTrees trees) ctx phrase = .ok out) (dr : DistanceResult T)
    (hdr : dr ∈ out) (i : Nat) (hi : i < trees.length) :
    ((∃ w, dr.Distances[i]? = some (some w)) ↔ MatchesIn sources phrase dr.Result i) ∧
    (dr.Distances[i]? = some none ↔ ¬ MatchesIn sources phrase dr.Result i) := by
  have hctx := Search_ok_not_cancelled trees ctx phrase out hout dr hdr
  obtain ⟨R, hst, _, hview⟩ := Search_result_view hb ctx hctx phrase out hout
  obtain ⟨perTree, hlen, hD, hslot⟩ := hview dr hdr
  have hget : dr.Distances[i]? = some (slotOf R dr.Result i) := by
    rw [hD, getElem?_perTree hlen (Nat.le_of_lt hi), ← hslot i]
  rw [hget, ← hst.slot_iff dr.Result i hi]
  constructor
  · constructor
    · rintro ⟨w, hw⟩
      simp only [Option.some.injEq] at hw
      rw [hw]; simp
    · intro hne
      cases hs : slotOf R dr.Result i with
      | none => exact absurd hs hne
      | some w => exact ⟨w, rfl⟩
  · constructor
    · intro h
      simp only [Option.some.injEq] at h
      rw [h]; simp
    · intro h
      have : slotOf R dr.Result i = none := by
        by_contra hc; exact h hc
      rw [this]

/-- C4: when all loaded records supply the same number of secondary distances (and the
context is not cancelled), the list `Search` returns is sorted in the lexicographic order
of the distance vectors: in every pair of adjacent results the second vector is not
strictly smaller than the first. -/
theorem Search_sorted_lex (sources : List (TreeSource C E T)) (trees : List (Tree T))
    (hb : Built sources trees) (ctx : Context C) (hctx : ctx.cause = none) (phrase : Str)
    (L : Nat)
    (huni : ∀ s r, s ∈ sources → r ∈ s.items → (Fuzzable.GetSecondaryDistances r).length = L) :
    ∃ out, Search (NewDistanceTrees trees) ctx phrase = .ok out ∧
      List.Chain' (fun a b : DistanceResult T => ¬ VecLt b.Distances a.Distances) out := by
  obtain ⟨out, hout, hlen, hch⟩ := Search_sorted hb ctx hctx phrase L huni
  refine ⟨out, hout, ?_⟩
  have hall : ∀ a b : DistanceResult T, a ∈ out → b ∈ out →
      distancesLess b.Distances a.Distances ≠ some true → ¬ VecLt b.Distances a.Distances := by
    intro a b ha hb' hne hlt
    exact hne ((distancesLess_iff_VecLt _ _ (by rw [hlen a ha, hlen b hb'])).2 hlt)
  exact (List.Chain'.iff_mem.1 hch).imp (fun a b h => hall a b h.1 h.2.1 h.2.2)

/-- The amended C5: when no loaded record supplies a primary distance factor, the distance
of a result at a tree index `i ≤ 18` (where `10 ^ i` fits the 64-bit `int`) at which its
record matched is `10 ^ i` plus the Levenshtein distance between the phrase and the key
term `K` of the node of that tree that holds the record. -/
theorem Distances_eq_weight_plus_levenshtein (sources : List (TreeSource C E T))
    (trees : List (Tree T)) (hb : Built sources trees) (ctx : Context C) (phrase : Str)
    (hnf : ∀ s r, s ∈ sources → r ∈ s.items → Fuzzable.GetPrimaryDistanceFactor r = none)
    (out : List (DistanceResult T))
    (hout : Search (NewDistanceTrees trees) ctx phrase = .ok out) (dr : DistanceResult T)
    (hdr : dr ∈ out) (i : Nat) (t : Tree T) (ht : trees[i]? = some t) (n : Nat) (K : Str)
    (hhold : dr.Result ∈ GetValues t.nodes n) (hK : GetKeyTerm t.nodes n = some K)
    (hmatch : (normalizeTerm phrase).Sublist K) (hi18 : i ≤ 18) :
    dr.Distances[i]? = some (some (10 ^ i + LevenshteinDistance phrase K)) := by
  have hctx := Search_ok_not_cancelled trees ctx phrase out hout dr hdr
  obtain ⟨R, hst, _, hview⟩ := Search_result_view hb ctx hctx phrase out hout
  obtain ⟨perTree, hlen, hD, hslot⟩ := hview dr hdr
  have hi : i < trees.length := lt_length_of_getElem? ht
  obtain ⟨s, t', hs, ht', hload⟩ := hb.at hi
  rw [ht] at ht'; cases ht'
  obtain ⟨key, hL⟩ := LoadTree_loaded hload
  have hn : n < t.nodes.length := lt_length_of_mem_GetValues hhold
  have hKn : K = key n := by
    rw [GetKeyTerm_eq hL.labelled hn] at hK
    exact (Option.some.inj hK).symm
  have hv := hhold
  rw [GetValues_eq_filter hL hn, List.mem_filter] at hv
  have hkv : s.key dr.Result = key n := by
    have := hv.2
    simp only [decide_eq_true_eq] at this
    exact this
  have hm : MatchesIn sources phrase dr.Result i :=
    ⟨s, hs, hv.1, by rw [hkv, ← hKn]; exact hmatch⟩
  have hne := (hst.slot_iff dr.Result i hi).2 hm
  have hval := hst.value dr.Result i s hi hs hne
    (fun u hu _ => hnf s u (List.getElem?_mem hs) hu)
  rw [hD, getElem?_perTree hlen (Nat.le_of_lt hi), ← hslot i, hval, hkv, ← hKn]
  unfold treeWeight
  rw [if_pos hi18]

/-- The amended C7: the `Distances` of a result hold the `treeCount + 1` entries
`evaluate` allocates, of which the one at index `treeCount` is never written and stays nil,
followed by the secondary distances of the record: the length is
`treeCount + 1 + len(secondary)` and the first secondary distance sits at index
`treeCount + 1`. -/
theorem Distances_length (sources : List (TreeSource C E T)) (trees : List (Tree T))
    (hb : Built sources trees) (ctx : Context C) (phrase : Str)
    (out : List (DistanceResult T))
    (hout : Search (NewDistanceTrees trees) ctx phrase = .ok out) (dr : DistanceResult T)
    (hdr : dr ∈ out) :
    dr.Distances.length = trees.length + 1 + (Fuzzable.GetSecondaryDistances dr.Result).length ∧
    dr.Distances[trees.length]? = some none ∧
    ∀ k, dr.Distances[trees.length + 1 + k]? = (Fuzzable.GetSecondaryDistances dr.Result)[k]? := by
  have hctx := Search_ok_not_cancelled trees ctx phrase out hout dr hdr
  obtain ⟨R, hst, _, hview⟩ := Search_result_view hb ctx hctx phrase out hout
  obtain ⟨perTree, hlen, hD, hslot⟩ := hview dr hdr
  refine ⟨by rw [hD, List.length_append, hlen], ?_, ?_⟩
  · rw [hD, getElem?_perTree hlen (Nat.le_refl _), ← hslot trees.length,
      hst.slot_none dr.Result trees.length (Nat.le_refl _)]
  · intro k
    rw [hD, List.getElem?_append_right (by omega)]
    congr 1
    omega

/-- C8: the last entries of the `Distances` of a result are the secondary distances of its
record, in order, and they stand there once: before them are only the `treeCount + 1`
entries allocated by `evaluate`. -/
theorem Distances_secondary_suffix (sources : List (TreeSource C E T))
    (trees : List (Tree T)) (hb : Built sources trees) (ctx : Context C) (phrase : Str)
    (out : List (DistanceResult T))
    (hout : Search (NewDistanceTrees trees) ctx phrase = .ok out) (dr : DistanceResult T)
    (hdr : dr ∈ out) :
    dr.Distances.drop
        (dr.Distances.length - (Fuzzable.GetSecondaryDistances dr.Result).length) =
      Fuzzable.GetSecondaryDistances dr.Result ∧
    dr.Distances.length =
      trees.length + 1 + (Fuzzable.GetSecondaryDistances dr.Result).length := by
  have hctx := Search_ok_not_cancelled trees ctx phrase out hout dr hdr
  obtain ⟨R, hst, _, hview⟩ := Search_result_view hb ctx hctx phrase out hout
  obtain ⟨perTree, hlen, hD, _⟩ := hview dr hdr
  refine ⟨?_, by rw [hD, List.length_append, hlen]⟩
  rw [hD, List.length_append, Nat.add_sub_cancel]
  exact List.drop_left _ _

end RankerClaims

end FuzzyTrie

namespace FuzzyTrie

section RankerWitnesses

theorem animals_built : Built [Sample.source animals] [Sample.tree animals] := by
  rfl

theorem animals_secondary (s : TreeSource Unit Unit Sample) (r : Sample)
    (hs : s ∈ [Sample.source animals]) (hr : r ∈ s.items) :
    (Fuzzable.GetSecondaryDistances r).length = 1 := by
  simp only [List.mem_singleton] at hs
  subst hs
  simp only [Sample.source, animals, List.mem_cons, List.mem_singleton, List.not_mem_nil,
    or_false] at hr
  rcases hr with rfl | rfl | rfl <;> rfl

theorem animals_no_factor (s : TreeSource Unit Unit Sample) (r : Sample)
    (hs : s ∈ [Sample.source animals]) (hr : r ∈ s.items) :
    Fuzzable.GetPrimaryDistanceFactor r = none := by
  simp only [List.mem_singleton] at hs
  subst hs
  simp only [Sample.source, animals, List.mem_cons, List.mem_singleton, List.not_mem_nil,
    or_false] at hr
  rcases hr with rfl | rfl | rfl <;> rfl

theorem animals_search :
    Search (NewDistanceTrees [Sample.tree animals]) (⟨none⟩ : Context Unit) "CAT".toList =
      .ok [⟨[some 1, none, some 3], ⟨"Cat", none, [some 3]⟩⟩,
           ⟨[some 5, none, some 7], ⟨"Wildcat", none, [some 7]⟩⟩] := by
  decide!

/-- C2, evaluated where it fails: two records filed under the same key, the second with
one secondary distance more than the first.  Both match the phrase "A" with the same
distance.  When the results map yields them in the order of insertion, the comparison of
`sortResults` is called with the longer vector first, reads the shorter one past its end,
and `Search` panics instead of returning the two records; when the map yields them in the
other order, `Search` returns both. -/
theorem Search_uneven_secondary_panics :
    Built [Sample.source unevenSamples] [Sample.tree unevenSamples] ∧
    Search (NewDistanceTrees [Sample.tree unevenSamples]) (⟨none⟩ : Context Unit)
      "A".toList = .error .panic ∧
    SearchOrdered List.reverse (NewDistanceTrees [Sample.tree unevenSamples])
        (⟨none⟩ : Context Unit) "A".toList =
      .ok [⟨[some 1, none, some 5], ⟨"a", none, [some 5]⟩⟩,
           ⟨[some 1, none], ⟨"A", none, []⟩⟩] :=
  ⟨by rfl, by decide!, by decide!⟩

/-- The search for "CAT" among Cat, Wildcat and Dog, which supply one secondary distance
each, returns Cat and Wildcat. -/
theorem Search_returns_matching_records_witness :
    ∃ out, Search (NewDistanceTrees [Sample.tree animals]) (⟨none⟩ : Context Unit)
        "CAT".toList = .ok out ∧
      (out.map (fun dr => dr.Result)).Nodup ∧
      ∀ r, r ∈ out.map (fun dr => dr.Result) ↔
        ∃ i, MatchesIn [Sample.source animals] "CAT".toList r i :=
  Search_returns_matching_records [Sample.source animals] [Sample.tree animals]
    animals_built ⟨none⟩ rfl "CAT".toList 1 animals_secondary

/-- Witness for C3: Cat matches "CAT" in the only tree, and its distance there is set. -/
theorem Distances_slot_iff_match_witness :
    ((∃ w, ([some 1, none, some 3] : List (Option Int))[0]? = some (some w)) ↔
        MatchesIn [Sample.source animals] "CAT".toList ⟨"Cat", none, [some 3]⟩ 0) ∧
      (([some 1, none, some 3] : List (Option Int))[0]? = some none ↔
        ¬ MatchesIn [Sample.source animals] "CAT".toList ⟨"Cat", none, [some 3]⟩ 0) :=
  Distances_slot_iff_match [Sample.source animals] [Sample.tree animals] animals_built ⟨none⟩
    "CAT".toList _ animals_search ⟨[some 1, none, some 3], ⟨"Cat", none, [some 3]⟩⟩
    (List.mem_cons_self _ _) 0 (by decide)

/-- Witness for C4: the search for "CAT" among Cat, Wildcat and Dog returns a sorted list. -/
theorem Search_sorted_lex_witness :
    ∃ out, Search (NewDistanceTrees [Sample.tree animals]) (⟨none⟩ : Context Unit)
        "CAT".toList = .ok out ∧
      List.Chain' (fun a b : DistanceResult Sample => ¬ VecLt b.Distances a.Distances) out :=
  Search_sorted_lex [Sample.source animals] [Sample.tree animals] animals_built ⟨none⟩ rfl
    "CAT".toList 1 animals_secondary

/-- C6, evaluated where it fails: two records share the node ABC, the first with the
primary distance factor 2, the second without a factor.  For the phrase "B" the Levenshtein
distance of the node is 2; the first record gets `1 + 2 * 2 = 5`, and the second record,
which has no factor, gets 5 as well instead of `1 + 2 = 3`, because the scaled distance is
kept in the variable the next record reads.  With the two records in the other order the
record without factor gets 3. -/
theorem evaluate_factor_carries_over :
    Search (NewDistanceTrees [Sample.tree factorSamples]) (⟨none⟩ : Context Unit)
        "B".toList =
      .ok [⟨[some 5, none], ⟨"ABC", some 2, []⟩⟩, ⟨[some 5, none], ⟨"abc", none, []⟩⟩] ∧
    Search (NewDistanceTrees [Sample.tree factorSamples.reverse]) (⟨none⟩ : Context Unit)
        "B".toList =
      .ok [⟨[some 3, none], ⟨"abc", none, []⟩⟩, ⟨[some 5, none], ⟨"ABC", some 2, []⟩⟩] ∧
    LevenshteinDistance "B".toList "ABC".toList = 2 :=
  ⟨by decide!, by decide!, by decide!⟩

/-- Counterexample to C7 as stated: with one tree, the result for Cat, which has one
secondary distance, has three distances and not two; the entry at index 1, the tree count,
is nil, and the secondary distance sits at index 2. -/
theorem Distances_length_counterexample :
    Search (NewDistanceTrees [Sample.tree animals]) (⟨none⟩ : Context Unit) "CAT".toList =
      .ok [⟨[some 1, none, some 3], ⟨"Cat", none, [some 3]⟩⟩,
           ⟨[some 5, none, some 7], ⟨"Wildcat", none, [some 7]⟩⟩] ∧
    ([some 1, none, some 3] : List (Option Int)).length ≠
      [Sample.tree animals].length +
        (Fuzzable.GetSecondaryDistances (⟨"Cat", none, [some 3]⟩ : Sample)).length ∧
    ([some 1, none, some 3] : List (Option Int))[[Sample.tree animals].length]? ≠
      (Fuzzable.GetSecondaryDistances (⟨"Cat", none, [some 3]⟩ : Sample))[0]? :=
  ⟨animals_search, by decide, by decide⟩

/-- Witness for the amended C7: the result for Cat has `1 + 1 + 1` distances, nil at
index 1 and the secondary distance from index 2 on. -/
theorem Distances_length_witness :
    ([some 1, none, some 3] : List (Option Int)).length =
        [Sample.tree animals].length + 1 +
          (Fuzzable.GetSecondaryDistances (⟨"Cat", none, [some 3]⟩ : Sample)).length ∧
      ([some 1, none, some 3] : List (Option Int))[[Sample.tree animals].length]? = some none ∧
      ∀ k, ([some 1, none, some 3] : List (Option Int))[[Sample.tree animals].length + 1 + k]? =
        (Fuzzable.GetSecondaryDistances (⟨"Cat", none, [some 3]⟩ : Sample))[k]? :=
  Distances_length [Sample.source animals] [Sample.tree animals] animals_built ⟨none⟩
    "CAT".toList _ animals_search ⟨[some 1, none, some 3], ⟨"Cat", none, [some 3]⟩⟩
    (List.mem_cons_self _ _)

/-- Witness for C8: the distances of the result for Cat end with its secondary distance. -/
theorem Distances_secondary_suffix_witness :
    ([some 1, none, some 3] : List (Option Int)).drop
        (([some 1, none, some 3] : List (Option Int)).length -
          (Fuzzable.GetSecondaryDistances (⟨"Cat", none, [some 3]⟩ : Sample)).length) =
        Fuzzable.GetSecondaryDistances (⟨"Cat", none, [some 3]⟩ : Sample) ∧
      ([some 1, none, some 3] : List (Option Int)).length =
        [Sample.tree animals].length + 1 +
          (Fuzzable.GetSecondaryDistances (⟨"Cat", none, [some 3]⟩ : Sample)).length :=
  Distances_secondary_suffix [Sample.source animals] [Sample.tree animals] animals_built
    ⟨none⟩ "CAT".toList _ animals_search ⟨[some 1, none, some 3], ⟨"Cat", none, [some 3]⟩⟩
    (List.mem_cons_self _ _)

end RankerWitnesses

end FuzzyTrie

namespace FuzzyTrie

section Maps
variable {T : Type}

theorem mapsOK_appendValue {h : Heap T} (hm : MapsOK h) (n : Nat) (item : T) :
    MapsOK (updateNode h n (fun nd => { nd with values := nd.values ++ [item] })) := by
  intro i nd' hi
  obtain ⟨nd, hnd, _, _, hch, _⟩ := getElem?_appendValue hi
  rw [hch]
  exact hm i nd hnd

theorem keys_nodup_append {l : List (Rune × Nat)} {r : Rune} {c : Nat}
    (hl : (l.map Prod.fst).Nodup) (hr : l.lookup r = none) :
    ((l ++ [(r, c)]).map Prod.fst).Nodup := by
  rw [List.map_append]
  refine List.nodup_append.2 ⟨hl, List.nodup_singleton _, ?_⟩
  intro a ha hb
  simp only [List.map_cons, List.map_nil, List.mem_singleton] at hb
  subst hb
  obtain ⟨p, hp, hpa⟩ := List.mem_map.1 ha
  have := (List.lookup_eq_none_iff.1 hr) p hp
  simp [hpa] at this

theorem mapsOK_withChild {h : Heap T} (hm : MapsOK h) (n : Nat) (r : Rune)
    (hc : childAt h n r = none) : MapsOK (withChild h n r) := by
  intro i nd2 hi
  unfold withChild at hi
  rw [getElem?_updateNode] at hi
  have hold : ∀ (j : Nat) (nd : Node T),
      (h ++ [newTrieNode (some n) (some r)])[j]? = some nd →
        (j < h.length ∧ h[j]? = some nd) ∨ nd = newTrieNode (some n) (some r) := by
    intro j nd hj
    rcases Nat.lt_or_ge j h.length with hlt | hge
    · rw [List.getElem?_append_left hlt] at hj
      exact Or.inl ⟨hlt, hj⟩
    · rw [List.getElem?_append_right hge] at hj
      have hm := List.getElem?_mem hj
      simp only [List.mem_singleton] at hm
      exact Or.inr hm
  by_cases hin : i = n
  · subst hin
    simp only [if_true] at hi
    cases hnd : (h ++ [newTrieNode (some i) (some r)])[i]? with
    | none => rw [hnd] at hi; cases hi
    | some nd =>
      rw [hnd] at hi
      simp only [Option.map_some', Option.some.injEq] at hi
      subst hi
      simp only
      rcases hold i nd hnd with ⟨_, ho⟩ | hn
      · apply keys_nodup_append (hm i nd ho)
        simpa [childAt, ho] using hc
      · subst hn
        simp [newTrieNode]
  · simp only [hin, if_false] at hi
    rcases hold i nd2 hi with ⟨_, ho⟩ | hn
    · exact hm i nd2 ho
    · subst hn
      simp [newTrieNode]

theorem addItem_mapsOK (item : T) :
    ∀ (runes : List Rune) (h : Heap T) (n : Nat), MapsOK h → MapsOK (addItem h n runes item) := by
  intro runes
  induction runes with
  | nil =>
    intro h n hm
    exact mapsOK_appendValue hm n item
  | cons firstRune rest ih =>
    intro h n hm
    unfold addItem
    cases hc : childAt h n firstRune with
    | some c => exact ih h c hm
    | none => exact ih _ h.length (mapsOK_withChild hm n firstRune hc)

theorem loadItems_mapsOK {C E : Type} (ctx : Context C)
    (termExtractor : KeyTermExtractor C E T) :
    ∀ (rest : List T) (h h' : Heap T), MapsOK h →
      loadItems ctx termExtractor h rest = .ok h' → MapsOK h' := by
  intro rest
  induction rest with
  | nil =>
    intro h h' hm hload
    simp only [loadItems, Except.ok.injEq] at hload
    subst hload
    exact hm
  | cons item rest ih =>
    intro h h' hm hload
    rw [loadItems] at hload
    cases hk : termExtractor ctx item with
    | error err => rw [hk] at hload; cases hload
    | ok k =>
      rw [hk] at hload
      exact ih _ h' (addItem_mapsOK item _ h 0 hm) hload

theorem rootNode_mapsOK : MapsOK ([newTrieNode none none] : Heap T) := by
  intro n nd hn
  have := List.getElem?_mem hn
  simp only [List.mem_singleton] at this
  subst this
  simp [newTrieNode]

/-- In a tree returned by `LoadTree` the children maps have one entry per code point. -/
theorem LoadTree_mapsOK {C E : Type} {ctx : Context C} {items : List T}
    {termExtractor : KeyTermExtractor C E T} {t : Tree T}
    (hload : LoadTree ctx items termExtractor = .ok t) : MapsOK t.nodes := by
  unfold LoadTree at hload
  simp only at hload
  cases hli : loadItems ctx termExtractor [newTrieNode none none] items with
  | error err => rw [hli] at hload; cases hload
  | ok h =>
    rw [hli] at hload
    simp only at hload
    cases hg : getLeafNodes h 0 with
    | none => rw [hg] at hload; cases hload
    | some out =>
      rw [hg] at hload
      simp only [Except.ok.injEq] at hload
      subst hload
      exact loadItems_mapsOK ctx termExtractor items _ h rootNode_mapsOK hli

/-- The children of a node are listed once each. -/
theorem childNodes_nodup {h : Heap T} {key : Nat → Str} (hl : Labelled h key) (hm : MapsOK h)
    {n : Nat} (hn : n < h.length) : (childNodes h n).Nodup := by
  obtain ⟨nd, hnd⟩ := exists_getElem?_of_lt hn
  unfold childNodes
  simp only [hnd]
  have hpairs : nd.children.Nodup := List.Nodup.of_map _ (hm n nd hnd)
  apply List.Nodup.map_on _ hpairs
  rintro ⟨r, c⟩ hx ⟨r', c'⟩ hy hxy
  simp only at hxy
  subst hxy
  obtain ⟨cd, hcd, _, hkr⟩ := (hl.child_iff n nd r c hnd).1 hx
  obtain ⟨cd', hcd', _, hkr'⟩ := (hl.child_iff n nd r' c hnd).1 hy
  rw [hcd] at hcd'; cases hcd'
  rw [hkr] at hkr'; cases hkr'
  rfl

/-- The leaf loop lists no node twice: the candidates of a round lie at one depth, below
the leaves found so far. -/
theorem leafLoop_nodup {h : Heap T} {key : Nat → Str} (hl : Labelled h key) (hm : MapsOK h) :
    ∀ (fuel : Nat) (cands leaves : List Nat) (k : Nat) (out : List Nat),
      cands.Nodup → leaves.Nodup →
      (∀ c, c ∈ cands → c < h.length ∧ (key c).length = k) →
      (∀ l, l ∈ leaves → (key l).length < k) →
      leafLoop h fuel cands leaves = some out → out.Nodup := by
  intro fuel
  induction fuel with
  | zero =>
    intro cands leaves k out _ hleaves _ _ hout
    rw [leafLoop] at hout
    by_cases hc : cands.length = 0
    · rw [if_pos hc] at hout
      simp only [Option.some.injEq] at hout
      subst hout
      exact hleaves
    · rw [if_neg hc] at hout
      cases hout
  | succ fuel ih =>
    intro cands leaves k out hcn hleaves hck hlk hout
    rw [leafLoop] at hout
    by_cases hc : cands.length = 0
    · rw [if_pos hc] at hout
      simp only [Option.some.injEq] at hout
      subst hout
      exact hleaves
    · rw [if_neg hc] at hout
      simp only [leafPass_eq, List.nil_append] at hout
      refine ih _ _ (k + 1) out ?_ ?_ ?_ ?_ hout
      · rw [List.nodup_flatMap]
        refine ⟨fun c hcm => childNodes_nodup hl hm (hck c hcm).1, ?_⟩
        apply List.Nodup.pairwise_of_forall_ne hcn
        intro a ha b hb hab
        show List.Disjoint (childNodes h a) (childNodes h b)
        intro x hxa hxb
        obtain ⟨cd, hcd, hpa⟩ := (hl.mem_childNodes (hck a ha).1).1 hxa
        obtain ⟨cd', hcd', hpb⟩ := (hl.mem_childNodes (hck b hb).1).1 hxb
        rw [hcd] at hcd'; cases hcd'
        rw [hpa] at hpb
        exact hab (Option.some.inj hpb)
      · refine List.Nodup.append hleaves (hcn.filter _) ?_
        intro x hx1 hx2
        have h1 := hlk x hx1
        have h2 := (hck x (List.mem_filter.1 hx2).1).2
        omega
      · intro c' hc'
        obtain ⟨c, hcm, hcc⟩ := List.mem_flatMap.1 hc'
        obtain ⟨_, hlen, r, hkey⟩ := hl.child_facts (hck c hcm).1 hcc
        refine ⟨hlen, ?_⟩
        rw [hkey, List.length_append, (hck c hcm).2]
        rfl
      · intro l hlm
        rcases List.mem_append.1 hlm with ho | hn
        · have := hlk l ho; omega
        · have := (hck l (List.mem_filter.1 hn).1).2; omega

theorem getLeafNodes_nodup {h : Heap T} {key : Nat → Str} (hl : Labelled h key)
    (hm : MapsOK h) {out : List Nat} (hout : getLeafNodes h 0 = some out) : out.Nodup := by
  obtain ⟨rt, hrt, _, _⟩ := hl.root
  have h0 : 0 < h.length := lt_length_of_getElem? hrt
  unfold getLeafNodes at hout
  by_cases hroot : (childNodes h 0).length = 0
  · rw [if_pos hroot] at hout
    simp only [Option.some.injEq] at hout
    subst hout
    exact List.nodup_singleton _
  · rw [if_neg hroot] at hout
    refine leafLoop_nodup hl hm h.length (childNodes h 0) [] 1 out
      (childNodes_nodup hl hm h0) List.nodup_nil ?_ ?_ hout
    · intro c hc
      obtain ⟨_, hlen, r, hkey⟩ := hl.child_facts h0 hc
      refine ⟨hlen, ?_⟩
      rw [hkey, hl.key_root]
      rfl
    · intro l hl'; cases hl'

/-- The leaf pointers of a tree returned by `LoadTree` are pairwise distinct. -/
theorem LoadTree_leaves_nodup {C E : Type} {ctx : Context C} {items : List T}
    {termExtractor : KeyTermExtractor C E T} {t : Tree T}
    (hload : LoadTree ctx items termExtractor = .ok t) : t.leafNodes.Nodup := by
  have hm := LoadTree_mapsOK hload
  obtain ⟨key, hL⟩ := LoadTree_loaded hload
  unfold LoadTree at hload
  simp only at hload
  cases hli : loadItems ctx termExtractor [newTrieNode none none] items with
  | error err => rw [hli] at hload; cases hload
  | ok h =>
    rw [hli] at hload
    simp only at hload
    cases hg : getLeafNodes h 0 with
    | none => rw [hg] at hload; cases hload
    | some out =>
      rw [hg] at hload
      simp only [Except.ok.injEq] at hload
      subst hload
      exact getLeafNodes_nodup hL.labelled hm hg

end Maps

section Chains
variable {T : Type}

/-- Following parent pointers leads to a node whose label is a prefix. -/
theorem prefix_of_parentIter {h : Heap T} {key : Nat → Str} (hl : Labelled h key) :
    ∀ (k f a : Nat), f < h.length → parentIter h k f = some a →
      a < h.length ∧ key a <+: key f := by
  intro k
  induction k with
  | zero =>
    intro f a hf hp
    simp only [parentIter, Option.some.injEq] at hp
    subst hp
    exact ⟨hf, List.prefix_refl _⟩
  | succ k ih =>
    intro f a hf hp
    rw [parentIter] at hp
    rcases hl.parent_cases hf with ⟨_, hnone⟩ | ⟨p, r, hpar, hlt, hkey⟩
    · rw [hnone] at hp; cases hp
    · rw [hpar] at hp
      obtain ⟨ha, hpre⟩ := ih p a (by omega) hp
      exact ⟨ha, hpre.trans (by rw [hkey]; exact List.prefix_append _ _)⟩

/-- A node whose label is a prefix is reached by following parent pointers. -/
theorem parentIter_of_prefix {h : Heap T} {key : Nat → Str} (hl : Labelled h key) {a : Nat}
    (ha : a < h.length) :
    ∀ (f : Nat), f < h.length → key a <+: key f → ∃ k, parentIter h k f = some a := by
  intro f
  induction f using Nat.strong_induction_on with
  | _ f ih =>
    intro hf hpre
    by_cases haf : a = f
    · subst haf
      exact ⟨0, rfl⟩
    · obtain ⟨p, hpar, hlt, hap, _, _⟩ := hl.toward_parent ha hf hpre haf
      obtain ⟨k, hk⟩ := ih p hlt (by omega) hap
      exact ⟨k + 1, by rw [parentIter, hpar]; exact hk⟩

end Chains

section LeafClaims
variable {C E T : Type}

/-- C11: the leaf nodes of a tree built by `LoadTree` are exactly the nodes of the trie
without children: every listed node is reached from the root and has no children, every
childless node reached from the root is listed, and no node is listed twice. -/
theorem GetLeafNodes_eq_childless (ctx : Context C) (items : List T)
    (termExtractor : KeyTermExtractor C E T) (t : Tree T)
    (hload : LoadTree ctx items termExtractor = .ok t) :
    (∀ l, l ∈ t.GetLeafNodes →
      (∃ runes, RootPath t.nodes l runes) ∧ (childNodes t.nodes l).length = 0) ∧
    (∀ l runes, RootPath t.nodes l runes → (childNodes t.nodes l).length = 0 →
      l ∈ t.GetLeafNodes) ∧
    t.GetLeafNodes.Nodup := by
  obtain ⟨key, hL⟩ := LoadTree_loaded hload
  refine ⟨?_, ?_, LoadTree_leaves_nodup hload⟩
  · intro l hl
    obtain ⟨hlen, hch⟩ := (hL.leaf_iff l).1 hl
    exact ⟨⟨key l, RootPath.of_labelled hL.labelled l hlen⟩, by rw [hch]; rfl⟩
  · intro l runes hp hch
    exact (hL.leaf_iff l).2 ⟨(hp.eq_key hL.labelled).1, List.length_eq_zero.1 hch⟩

/-- Witness for C11: the tree of cat, cat, cataracts, dog has the two leaves DOG and
CATARACTS. -/
theorem GetLeafNodes_eq_childless_witness :
    testTree.GetLeafNodes = [12, 9] ∧
    ((∀ l, l ∈ testTree.GetLeafNodes →
      (∃ runes, RootPath testTree.nodes l runes) ∧ (childNodes testTree.nodes l).length = 0) ∧
    (∀ l runes, RootPath testTree.nodes l runes → (childNodes testTree.nodes l).length = 0 →
      l ∈ testTree.GetLeafNodes) ∧
    testTree.GetLeafNodes.Nodup) :=
  ⟨rfl, GetLeafNodes_eq_childless (⟨none⟩ : Context Unit) testItems TestItem.getText testTree
    testTree_loaded⟩

/-- C12: every item loaded into a tree by a successful `LoadTree` is held by a leaf of the
tree or by a node reached from a leaf by following `GetParentNode` finitely many times. -/
theorem leaf_reaches_holder (ctx : Context C) (items : List T)
    (termExtractor : KeyTermExtractor C E T) (t : Tree T)
    (hload : LoadTree ctx items termExtractor = .ok t) (item : T) (hitem : item ∈ items) :
    ∃ L n k, L ∈ t.GetLeafNodes ∧ parentIter t.nodes k L = some n ∧
      item ∈ GetValues t.nodes n := by
  obtain ⟨key, hL⟩ := LoadTree_loaded hload
  obtain ⟨n, hn, hkn⟩ := hL.filed.has_node item hitem
  have hv : item ∈ GetValues t.nodes n := by
    rw [GetValues_eq_filter hL hn, List.mem_filter]
    exact ⟨hitem, by simp [hkn]⟩
  obtain ⟨L, hLm, hpre⟩ := hL.leaf_cover (t.nodes.length - n) n (Nat.le_refl _) hn
  have hLlen : L < t.nodes.length := ((hL.leaf_iff L).1 hLm).1
  obtain ⟨k, hk⟩ := parentIter_of_prefix hL.labelled hn L hLlen hpre
  exact ⟨L, n, k, hLm, hk, hv⟩

/-- Witness for C12: the cats, held by the interior node CAT (at 3), are reached from the
leaf CATARACTS (at 9) in six steps. -/
theorem leaf_reaches_holder_witness :
    (parentIter testTree.nodes 6 9 = some 3 ∧
      (⟨0, "cat"⟩ : TestItem) ∈ GetValues testTree.nodes 3) ∧
    ∃ L n k, L ∈ testTree.GetLeafNodes ∧ parentIter testTree.nodes k L = some n ∧
      (⟨0, "cat"⟩ : TestItem) ∈ GetValues testTree.nodes n :=
  ⟨by decide!, leaf_reaches_holder (⟨none⟩ : Context Unit) testItems TestItem.getText testTree
    testTree_loaded ⟨0, "cat"⟩ (by decide)⟩

/-- C13: containment is monotone along the parent chain of a tree built by `LoadTree`: if
`Contains(P)` is false at a node it is false at every node reached from it by following
`GetParentNode`, and if it is true at such an ancestor it is true at the node. -/
theorem Contains_monotone (ctx : Context C) (items : List T)
    (termExtractor : KeyTermExtractor C E T) (t : Tree T)
    (hload : LoadTree ctx items termExtractor = .ok t) (n : Nat) (hn : n < t.nodes.length)
    (k a : Nat) (hanc : parentIter t.nodes k n = some a) (phrase : Str) :
    (Contains t.nodes n phrase = some false → Contains t.nodes a phrase = some false) ∧
    (Contains t.nodes a phrase = some true → Contains t.nodes n phrase = some true) := by
  obtain ⟨key, hL⟩ := LoadTree_loaded hload
  obtain ⟨ha, hpre⟩ := prefix_of_parentIter hL.labelled k n a hn hanc
  rw [Contains_eq hL.labelled hn, Contains_eq hL.labelled ha]
  have hmono : (normalizeTerm phrase).Sublist (key a) → (normalizeTerm phrase).Sublist (key n) :=
    fun hs => hs.trans hpre.sublist
  constructor
  · intro hf
    simp only [Option.some.injEq, decide_eq_false_iff_not] at hf ⊢
    exact fun hs => hf (hmono hs)
  · intro ht
    simp only [Option.some.injEq, decide_eq_true_eq] at ht ⊢
    exact hmono ht

/-- Witness for C13: "o" is not contained in CAT (at 3), nor in its ancestor C (at 1). -/
theorem Contains_monotone_witness :
    (Contains testTree.nodes 3 "o".toList = some false ∧ parentIter testTree.nodes 2 3 = some 1) ∧
    (Contains testTree.nodes 3 "o".toList = some false →
      Contains testTree.nodes 1 "o".toList = some false) ∧
    (Contains testTree.nodes 1 "o".toList = some true →
      Contains testTree.nodes 3 "o".toList = some true) :=
  ⟨by decide!, Contains_monotone (⟨none⟩ : Context Unit) testItems TestItem.getText testTree
    testTree_loaded 3 (by decide) 2 1 (by decide!) "o".toList⟩

end LeafClaims

end FuzzyTrie

namespace FuzzyTrie

section SortChain
variable {T : Type}

/-- The inner loop of the insertion sort, whenever it returns, keeps the part before the
position in order, whatever the lengths of the vectors. -/
theorem sinkInto_chain (E : Type) (x : DistanceResult T) :
    ∀ (sorted r : List (DistanceResult T)),
      sinkInto (E := E) x sorted = .ok r →
      List.Chain' (fun later earlier : DistanceResult T =>
        distancesLess later.Distances earlier.Distances ≠ some true) sorted →
      List.Chain' (fun later earlier : DistanceResult T =>
          distancesLess later.Distances earlier.Distances ≠ some true) r ∧
        (∀ z, z ∈ r.head? → z = x ∨ z ∈ sorted.head?) := by
  intro sorted
  induction sorted with
  | nil =>
    intro r h _
    simp only [sinkInto, Except.ok.injEq] at h
    subst h
    exact ⟨List.chain'_singleton _, by simp⟩
  | cons y ys ih =>
    intro r h hch
    rw [sinkInto] at h
    cases hc : distancesLess x.Distances y.Distances with
    | none => rw [hc] at h; cases h
    | some c =>
      rw [hc] at h
      cases c with
      | false =>
        simp only [Except.ok.injEq] at h
        subst h
        exact ⟨List.chain'_cons.2 ⟨by rw [hc]; simp, hch⟩, by simp⟩
      | true =>
        simp only at h
        cases hr : sinkInto (E := E) x ys with
        | error f => rw [hr] at h; cases h
        | ok r' =>
          rw [hr] at h
          simp only [Except.ok.injEq] at h
          subst h
          obtain ⟨hch', hhead⟩ := ih r' hr hch.tail
          refine ⟨?_, by simp⟩
          rw [List.chain'_cons']
          refine ⟨?_, hch'⟩
          intro z hz
          rcases hhead z hz with he | ho
          · subst he
            rw [distancesLess_asymm _ _ hc]
            simp
          · exact (List.chain'_cons'.1 hch).1 z ho

/-- The insertion sort, whenever it returns, returns a list in which no element is smaller
than the one before it. -/
theorem insertionSort_chain (E : Type) :
    ∀ (l sorted out : List (DistanceResult T)),
      insertionSort (E := E) l sorted = .ok out →
      List.Chain' (fun later earlier : DistanceResult T =>
        distancesLess later.Distances earlier.Distances ≠ some true) sorted →
      List.Chain' (fun earlier later : DistanceResult T =>
        distancesLess later.Distances earlier.Distances ≠ some true) out := by
  intro l
  induction l with
  | nil =>
    intro sorted out h hch
    simp only [insertionSort, Except.ok.injEq] at h
    subst h
    rw [List.chain'_reverse]
    exact hch
  | cons x rest ih =>
    intro sorted out h hch
    rw [insertionSort] at h
    cases hs : sinkInto (E := E) x sorted with
    | error f => rw [hs] at h; cases h
    | ok r =>
      rw [hs] at h
      exact ih r out h (sinkInto_chain E x sorted r hs hch).1

end SortChain

section TreeOrder
variable {C E T : Type} [DecidableEq T] [Fuzzable T]

omit [DecidableEq T] [Fuzzable T] in
/-- A rearrangement of a well-formed results map is well formed. -/
theorem ResultsOK_perm {R R' : Results T} {tc : Nat} (hok : ResultsOK R tc)
    (hperm : R'.Perm R) : ResultsOK R' tc :=
  ⟨(List.Perm.nodup_iff (hperm.map Prod.fst)).2 hok.nodup,
    fun e he => hok.result_eq e (hperm.mem_iff.1 he),
    fun e he => hok.length_eq e (hperm.mem_iff.1 he)⟩

/-- With a cancelled context and at least one tree the loop of `Search` over the trees
fails at tree 0. -/
theorem searchTrees_cancelled (trees : List (Tree T)) (ctx : Context C) (phrase : Str)
    (c : C) (hc : ctx.cause = some c) (hne : trees ≠ []) :
    searchTrees { trees := trees } ctx phrase (List.range trees.length) [] =
      .error (.error (.searchTreeFailed 0 c)) := by
  cases trees with
  | nil => exact absurd rfl hne
  | cons t ts =>
    have h1 : searchTree { trees := t :: ts } ctx 0 phrase [] = .error (.error c) := by
      unfold searchTree
      simp only [List.getElem?_cons_zero]
      rw [sweepLoop]
      simp only [hc]
    rw [List.range_eq_range', List.length_cons, List.range'_succ, searchTrees, h1]

/-- What `Search` returns, whatever the order in which the map yields its entries: the list
is in order (no result is smaller, in the comparison of `sortResults`, than the one before
it), and every result is an entry of the final results map with the secondary distances of
its record appended to the `treeCount + 1` distances `evaluate` allocated. -/
theorem SearchOrdered_view {sources : List (TreeSource C E T)} {trees : List (Tree T)}
    (hb : Built sources trees) (order : Results T → Results T)
    (hperm : ∀ R, (order R).Perm R) (ctx : Context C) (hctx : ctx.cause = none)
    (phrase : Str) (out : List (DistanceResult T))
    (hout : SearchOrdered order { trees := trees } ctx phrase = .ok out) :
    ∃ R, SearchState sources phrase trees.length trees.length R ∧
      (out.map (fun dr => dr.Result)).Perm (keysOf R) ∧
      List.Chain' (fun earlier later : DistanceResult T =>
        distancesLess later.Distances earlier.Distances ≠ some true) out ∧
      ∀ dr, dr ∈ out → ∃ perTree : List (Option Int),
        perTree.length = trees.length + 1 ∧
        dr.Distances = perTree ++ Fuzzable.GetSecondaryDistances dr.Result ∧
        ∀ i, slotOf R dr.Result i = (perTree[i]?).getD none := by
  obtain ⟨R, hres, hst⟩ := searchTrees_all hb ctx hctx phrase
  unfold SearchOrdered at hout
  simp only [hres] at hout
  have hsorted : out.Perm (appendSecondary (order R)) := by
    have := insertionSort_perm _ (appendSecondary (order R)) [] out hout
    simpa using this
  have hok' : ResultsOK (order R) trees.length := ResultsOK_perm hst.ok (hperm R)
  refine ⟨R, hst, ?_, ?_, ?_⟩
  · have h1 := hsorted.map (fun dr : DistanceResult T => dr.Result)
    rw [map_Result_appendSecondary hok'] at h1
    exact h1.trans ((hperm R).map Prod.fst)
  · exact insertionSort_chain (SearchError C) (appendSecondary (order R)) [] out hout
      List.chain'_nil
  · intro dr hdr
    have hmem := hsorted.mem_iff.1 hdr
    unfold appendSecondary at hmem
    obtain ⟨e, he, hdre⟩ := List.mem_map.1 hmem
    have heR : e ∈ R := (hperm R).mem_iff.1 he
    obtain ⟨v, dr0⟩ := e
    have hresult : dr0.Result = v := hst.ok.result_eq (v, dr0) heR
    have hlen : dr0.Distances.length = trees.length + 1 := hst.ok.length_eq (v, dr0) heR
    have hlook := hst.ok.lookup_of_mem heR
    subst hdre
    simp only
    refine ⟨dr0.Distances, hlen, by rw [hresult], ?_⟩
    intro i
    rw [hresult]
    exact slotOf_eq_of_lookup hlook i

/-- C14: in the output of `Search`, whatever the order in which the results map yields its
entries before the sort, every record that matched in tree 0 is placed before every record
that did not match in tree 0, whatever the other distances are: a result whose record
matches in tree 0 has a smaller position than a result whose record does not. -/
theorem Search_tree0_matches_first (sources : List (TreeSource C E T)) (trees : List (Tree T))
    (hb : Built sources trees) (order : Results T → Results T)
    (hperm : ∀ R, (order R).Perm R) (ctx : Context C) (phrase : Str)
    (out : List (DistanceResult T))
    (hout : SearchOrdered order (NewDistanceTrees trees) ctx phrase = .ok out)
    (h0 : 0 < trees.length) (i j : Nat) (hi : i < out.length) (hj : j < out.length)
    (hmi : MatchesIn sources phrase out[i].Result 0)
    (hmj : ¬ MatchesIn sources phrase out[j].Result 0) : i < j := by
  have hctx : ctx.cause = none := by
    cases hc : ctx.cause with
    | none => rfl
    | some c =>
      exfalso
      have hne : trees ≠ [] := fun e => by rw [e] at h0; exact Nat.lt_irrefl 0 h0
      have herr := searchTrees_cancelled trees ctx phrase c hc hne
      unfold SearchOrdered NewDistanceTrees at hout
      simp only [herr] at hout
      cases hout
  obtain ⟨R, hst, _, hch, hview⟩ := SearchOrdered_view hb order hperm ctx hctx phrase out hout
  have hfirst : ∀ dr : DistanceResult T, dr ∈ out →
      ∃ d rest, dr.Distances = d :: rest ∧
        (d ≠ none ↔ MatchesIn sources phrase dr.Result 0) := by
    intro dr hdr
    obtain ⟨perTree, hlen, hD, hslot⟩ := hview dr hdr
    cases perTree with
    | nil => simp at hlen
    | cons d pt =>
      refine ⟨d, pt ++ Fuzzable.GetSecondaryDistances dr.Result, by rw [hD]; rfl, ?_⟩
      have hs : slotOf R dr.Result 0 = d := by rw [hslot 0]; simp
      rw [← hs]
      exact hst.slot_iff dr.Result 0 h0
  have hstep : ∀ a b : DistanceResult T, a ∈ out → b ∈ out →
      distancesLess b.Distances a.Distances ≠ some true →
      (MatchesIn sources phrase b.Result 0 → MatchesIn sources phrase a.Result 0) := by
    intro a b ha hb' hne hmb
    obtain ⟨da, ra, hDa, hia⟩ := hfirst a ha
    obtain ⟨db, rb, hDb, hib⟩ := hfirst b hb'
    by_contra hma
    have hda : da = none := by
      by_contra hc
      exact hma (hia.1 hc)
    have hdb : db ≠ none := hib.2 hmb
    apply hne
    rw [hDa, hDb, hda]
    cases db with
    | none => exact absurd rfl hdb
    | some w => simp [distancesLess]
  have hch2 : List.Chain' (fun a b : DistanceResult T =>
      MatchesIn sources phrase b.Result 0 → MatchesIn sources phrase a.Result 0) out :=
    (List.Chain'.iff_mem.1 hch).imp (fun a b h => hstep a b h.1 h.2.1 h.2.2)
  haveI : IsTrans (DistanceResult T) (fun a b : DistanceResult T =>
      MatchesIn sources phrase b.Result 0 → MatchesIn sources phrase a.Result 0) :=
    ⟨fun _ _ _ h1 h2 h => h1 (h2 h)⟩
  have hpw := List.chain'_iff_pairwise.1 hch2
  by_contra hlt
  have hne : i ≠ j := by
    intro e
    subst e
    exact hmj hmi
  have hji : j < i := by omega
  exact hmj (List.pairwise_iff_getElem.1 hpw j i hj hi hji hmi)

end TreeOrder

section LoadErrors
variable {C E T : Type}

/-- The traced loop returns what the loop returns. -/
theorem loadItemsTraced_fst (ctx : Context C) (termExtractor : KeyTermExtractor C E T) :
    ∀ (items : List T) (h : Heap T),
      (loadItemsTraced ctx termExtractor h items).1 = loadItems ctx termExtractor h items := by
  intro items
  induction items with
  | nil => intro h; rfl
  | cons item rest ih =>
    intro h
    rw [loadItemsTraced, loadItems]
    cases hk : termExtractor ctx item with
    | error err => rfl
    | ok k => exact ih _

/-- With an extractor that succeeds on every item, the extractor is called on every item,
in order. -/
theorem loadItemsTraced_ok (ctx : Context C) (termExtractor : KeyTermExtractor C E T) :
    ∀ (items : List T) (h : Heap T),
      (∀ item, item ∈ items → ∃ k, termExtractor ctx item = .ok k) →
      (loadItemsTraced ctx termExtractor h items).2 = items := by
  intro items
  induction items with
  | nil => intro h _; rfl
  | cons item rest ih =>
    intro h hok
    obtain ⟨k, hk⟩ := hok item (List.mem_cons_self _ _)
    rw [loadItemsTraced, hk]
    simp only
    rw [ih _ (fun it hit => hok it (List.mem_cons_of_mem _ hit))]

/-- At the first item the extractor fails on, the loop returns the extractor's error,
wrapped, and the extractor has been called on the items up to that one and no other. -/
theorem loadItems_fail (ctx : Context C) (termExtractor : KeyTermExtractor C E T)
    (bad : T) (post : List T) (e : E) (hbad : termExtractor ctx bad = .error e) :
    ∀ (pre : List T) (h : Heap T),
      (∀ item, item ∈ pre → ∃ k, termExtractor ctx item = .ok k) →
      loadItems ctx termExtractor h (pre ++ bad :: post) = .error (.extractFailed e) ∧
      (loadItemsTraced ctx termExtractor h (pre ++ bad :: post)).2 = pre ++ [bad] := by
  intro pre
  induction pre with
  | nil =>
    intro h _
    simp only [List.nil_append]
    rw [loadItems, loadItemsTraced, hbad]
    exact ⟨rfl, rfl⟩
  | cons item rest ih =>
    intro h hok
    obtain ⟨k, hk⟩ := hok item (List.mem_cons_self _ _)
    obtain ⟨h1, h2⟩ := ih (addItem h 0 (normalizeTerm k) item)
      (fun it hit => hok it (List.mem_cons_of_mem _ hit))
    simp only [List.cons_append]
    rw [loadItems, loadItemsTraced, hk]
    simp only
    exact ⟨h1, by rw [h2]⟩

/-- Among items on one of which the extractor fails there is a first such item. -/
theorem first_failure (ctx : Context C) (termExtractor : KeyTermExtractor C E T) :
    ∀ (items : List T), (∃ item, item ∈ items ∧ ∃ e, termExtractor ctx item = .error e) →
      ∃ pre bad post e, items = pre ++ bad :: post ∧
        (∀ item, item ∈ pre → ∃ k, termExtractor ctx item = .ok k) ∧
        termExtractor ctx bad = .error e := by
  intro items
  induction items with
  | nil => rintro ⟨item, hm, _⟩; cases hm
  | cons x rest ih =>
    rintro ⟨item, hm, e, he⟩
    cases hx : termExtractor ctx x with
    | error ex =>
      refine ⟨[], x, rest, ex, rfl, ?_, hx⟩
      intro it hit
      cases hit
    | ok k =>
      have hrest : ∃ item, item ∈ rest ∧ ∃ e, termExtractor ctx item = .error e := by
        rcases List.mem_cons.1 hm with heq | hr
        · subst heq
          rw [hx] at he
          cases he
        · exact ⟨item, hr, e, he⟩
      obtain ⟨pre, bad, post, e', hsplit, hpre, hbad⟩ := ih hrest
      refine ⟨x :: pre, bad, post, e', by rw [hsplit]; rfl, ?_, hbad⟩
      intro it hit
      rcases List.mem_cons.1 hit with heq | hp
      · subst heq; exact ⟨k, hx⟩
      · exact hpre it hp

/-- The loop of `LoadTree` reads the context only through the extractor. -/
theorem loadItems_congr_ctx (ctx ctx2 : Context C) (termExtractor : KeyTermExtractor C E T) :
    ∀ (items : List T) (h : Heap T),
      (∀ item, item ∈ items → termExtractor ctx item = termExtractor ctx2 item) →
      loadItems ctx termExtractor h items = loadItems ctx2 termExtractor h items := by
  intro items
  induction items with
  | nil => intro h _; rfl
  | cons item rest ih =>
    intro h hsame
    rw [loadItems, loadItems, ← hsame item (List.mem_cons_self _ _)]
    cases hk : termExtractor ctx item with
    | error err => rfl
    | ok k => exact ih _ (fun it hit => hsame it (List.mem_cons_of_mem _ hit))

/-- C15: `LoadTree` returns an error exactly when the key extractor fails on some item.
When the extractor succeeds on every item, `LoadTree` returns a tree and the extractor is
called on every item.  When it fails, with error `e`, on an item after succeeding on the
items before it, `LoadTree` returns no tree but the error that wraps `e`, and the extractor
has been called on the items up to the failing one and on none after it.  (The calls are
those of the traced loop, which returns what the loop of `LoadTree` returns.) -/
theorem LoadTree_error_iff_extractor_fails (ctx : Context C) (items : List T)
    (termExtractor : KeyTermExtractor C E T) :
    ((∀ item, item ∈ items → ∃ k, termExtractor ctx item = .ok k) →
      (∃ t, LoadTree ctx items termExtractor = .ok t) ∧
      (loadItemsTraced ctx termExtractor [newTrieNode none none] items).2 = items) ∧
    (∀ pre bad post e, items = pre ++ bad :: post →
      (∀ item, item ∈ pre → ∃ k, termExtractor ctx item = .ok k) →
      termExtractor ctx bad = .error e →
      LoadTree ctx items termExtractor = .error (.error (.extractFailed e)) ∧
      (loadItemsTraced ctx termExtractor [newTrieNode none none] items).2 = pre ++ [bad]) ∧
    ((∃ f, LoadTree ctx items termExtractor = .error f) ↔
      ∃ item, item ∈ items ∧ ∃ e, termExtractor ctx item = .error e) ∧
    (loadItemsTraced ctx termExtractor [newTrieNode none none] items).1 =
      loadItems ctx termExtractor [newTrieNode none none] items := by
  have hfail : ∀ pre bad post e, items = pre ++ bad :: post →
      (∀ item, item ∈ pre → ∃ k, termExtractor ctx item = .ok k) →
      termExtractor ctx bad = .error e →
      LoadTree ctx items termExtractor = .error (.error (.extractFailed e)) ∧
      (loadItemsTraced ctx termExtractor [newTrieNode none none] items).2 = pre ++ [bad] := by
    intro pre bad post e hsplit hpre hbad
    obtain ⟨h1, h2⟩ := loadItems_fail ctx termExtractor bad post e hbad pre
      [newTrieNode none none] hpre
    subst hsplit
    refine ⟨?_, h2⟩
    unfold LoadTree
    simp only [h1]
  refine ⟨?_, hfail, ?_, loadItemsTraced_fst ctx termExtractor items _⟩
  · intro hok
    exact ⟨LoadTree_ok hok, loadItemsTraced_ok ctx termExtractor items _ hok⟩
  · constructor
    · rintro ⟨f, hf⟩
      by_contra hno
      have hok : ∀ item, item ∈ items → ∃ k, termExtractor ctx item = .ok k := by
        intro item hm
        cases hk : termExtractor ctx item with
        | error e => exact absurd ⟨item, hm, e, hk⟩ hno
        | ok k => exact ⟨k, rfl⟩
      obtain ⟨t, ht⟩ := LoadTree_ok hok
      rw [ht] at hf
      cases hf
    · intro hex
      obtain ⟨pre, bad, post, e, hsplit, hpre, hbad⟩ := first_failure ctx termExtractor items hex
      exact ⟨_, (hfail pre bad post e hsplit hpre hbad).1⟩

/-- Witness for C15: with an extractor that fails on "dog", loading cat, cat, cataracts,
dog, eel returns the wrapped error and the extractor is not called on eel; loading the
items before dog returns a tree. -/
theorem LoadTree_error_iff_extractor_fails_witness :
    (LoadTree (⟨none⟩ : Context Unit) (testItems ++ [⟨4, "eel"⟩]) dogFails =
        .error (.error (.extractFailed "no key for dog")) ∧
      (loadItemsTraced (⟨none⟩ : Context Unit) dogFails [newTrieNode none none]
        (testItems ++ [⟨4, "eel"⟩])).2 = testItems) ∧
    ((∃ f, LoadTree (⟨none⟩ : Context Unit) (testItems ++ [⟨4, "eel"⟩]) dogFails = .error f) ↔
      ∃ item, item ∈ testItems ++ [⟨4, "eel"⟩] ∧
        ∃ e, dogFails (⟨none⟩ : Context Unit) item = .error e) :=
  ⟨(LoadTree_error_iff_extractor_fails (⟨none⟩ : Context Unit) (testItems ++ [⟨4, "eel"⟩])
      dogFails).2.1 [⟨0, "cat"⟩, ⟨1, "cat"⟩, ⟨2, "cataracts"⟩] ⟨3, "dog"⟩ [⟨4, "eel"⟩]
      "no key for dog" rfl
      (by
        intro item hm
        simp only [List.mem_cons, List.mem_singleton, List.not_mem_nil, or_false] at hm
        rcases hm with rfl | rfl | rfl
        · exact ⟨"cat".toList, rfl⟩
        · exact ⟨"cat".toList, rfl⟩
        · exact ⟨"cataracts".toList, rfl⟩)
      rfl,
    (LoadTree_error_iff_extractor_fails (⟨none⟩ : Context Unit) (testItems ++ [⟨4, "eel"⟩])
      dogFails).2.2.1⟩

end LoadErrors

section Cancellation
variable {C E T : Type}

/-- C16: when the cancellation signal has already fired, with cause `c`, and the ranker has
at least one tree, `Search` returns the error that carries `c` (met at tree 0) and no
list of results. -/
theorem Search_cancelled [DecidableEq T] [Fuzzable T] (trees : List (Tree T))
    (ctx : Context C) (phrase : Str) (c : C) (hc : ctx.cause = some c) (hne : trees ≠ []) :
    Search (NewDistanceTrees trees) ctx phrase = .error (.error (.searchTreeFailed 0 c)) := by
  cases trees with
  | nil => exact absurd rfl hne
  | cons t ts =>
    have h1 : searchTree { trees := t :: ts } ctx 0 phrase [] = .error (.error c) := by
      unfold searchTree
      simp only [List.getElem?_cons_zero]
      rw [sweepLoop]
      simp only [hc]
    have h2 : searchTrees { trees := t :: ts } ctx phrase (List.range (t :: ts).length) [] =
        .error (.error (.searchTreeFailed 0 c)) := by
      rw [List.range_eq_range', List.length_cons, List.range'_succ, searchTrees, h1]
    unfold Search NewDistanceTrees
    simp only [h2]

/-- Witness for C16: a search among Cat, Wildcat and Dog with a context cancelled with
cause 7. -/
theorem Search_cancelled_witness :
    Search (NewDistanceTrees [Sample.tree animals]) (⟨some 7⟩ : Context Nat) "CAT".toList =
      .error (.error (.searchTreeFailed 0 7)) :=
  Search_cancelled [Sample.tree animals] ⟨some 7⟩ "CAT".toList 7 rfl (by simp)

/-- Counterexample to C17 as stated: with a context that is cancelled before the build,
`LoadTree` of the four items cat, cat, cataracts, dog does not abort: it returns the tree
it returns without cancellation. -/
theorem LoadTree_context_only_through_extractor_counterexample :
    (⟨some ()⟩ : Context Unit).cause = some () ∧ testItems ≠ [] ∧
      LoadTree (⟨some ()⟩ : Context Unit) testItems TestItem.getText = .ok testTree :=
  ⟨rfl, by decide, rfl⟩

/-- The amended C17: `LoadTree` does not poll the cancellation signal; it reads the context
only by handing it to the key extractor.  Whatever the state of the signal, `LoadTree`
returns what it returns with any other context for which the extractor answers the same on
every item: a cancellation aborts the build only as a failure of the extractor. -/
theorem LoadTree_context_only_through_extractor (ctx ctx2 : Context C) (items : List T)
    (termExtractor : KeyTermExtractor C E T)
    (hsame : ∀ item, item ∈ items → termExtractor ctx item = termExtractor ctx2 item) :
    LoadTree ctx items termExtractor = LoadTree ctx2 items termExtractor := by
  unfold LoadTree
  simp only
  rw [loadItems_congr_ctx ctx ctx2 termExtractor items _ hsame]

/-- Witness for the amended C17: the extractor of the test reads the text and not the
context, so loading with a cancelled context is loading with a context that is not. -/
theorem LoadTree_context_only_through_extractor_witness :
    LoadTree (⟨some ()⟩ : Context Unit) testItems TestItem.getText =
      LoadTree (⟨none⟩ : Context Unit) testItems TestItem.getText :=
  LoadTree_context_only_through_extractor ⟨some ()⟩ ⟨none⟩ testItems TestItem.getText
    (fun _ _ => rfl)

end Cancellation

end FuzzyTrie

namespace FuzzyTrie

section VecOrder

theorem slotLt_irrefl (a : Option Int) : ¬ slotLt a a := by
  cases a with
  | none => simp [slotLt]
  | some x => simp [slotLt]

theorem slotLt_trichotomy (a b : Option Int) (hne : a ≠ b) : slotLt a b ∨ slotLt b a := by
  cases a with
  | none =>
    cases b with
    | none => exact absurd rfl hne
    | some y => right; simp [slotLt]
  | some x =>
    cases b with
    | none => left; simp [slotLt]
    | some y =>
      have hxy : x ≠ y := fun e => hne (by rw [e])
      simp only [slotLt]
      omega

theorem slotLt_neg_trans (a c : Option Int) (h : slotLt a c) (b : Option Int) :
    slotLt a b ∨ slotLt b c := by
  cases a with
  | none => simp [slotLt] at h
  | some x =>
    cases b with
    | none => left; simp [slotLt]
    | some y =>
      cases c with
      | none => right; simp [slotLt]
      | some z =>
        simp only [slotLt] at h ⊢
        omega

/-- No vector is smaller than itself. -/
theorem VecLt_irrefl : ∀ (a : List (Option Int)), ¬ VecLt a a := by
  intro a
  induction a with
  | nil => intro h; cases h
  | cons x as ih =>
    intro h
    cases h with
    | head hs => exact slotLt_irrefl x hs
    | tail ht => exact ih ht

/-- A vector between a smaller and a larger one, of the same length, is larger than the
one or smaller than the other. -/
theorem VecLt_neg_trans :
    ∀ (c a : List (Option Int)), VecLt c a → ∀ (b : List (Option Int)),
      b.length = c.length → VecLt c b ∨ VecLt b a := by
  intro c a h
  induction h with
  | @head x z cs as hs =>
    intro b hb
    cases b with
    | nil => simp at hb
    | cons y bs =>
      rcases slotLt_neg_trans x z hs y with h1 | h2
      · exact Or.inl (VecLt.head h1)
      · exact Or.inr (VecLt.head h2)
  | @tail x cs as _ ih =>
    intro b hb
    cases b with
    | nil => simp at hb
    | cons y bs =>
      by_cases hxy : x = y
      · subst hxy
        have hlen : bs.length = cs.length := by simpa using hb
        rcases ih bs hlen with h1 | h2
        · exact Or.inl (VecLt.tail h1)
        · exact Or.inr (VecLt.tail h2)
      · rcases slotLt_trichotomy x y hxy with h1 | h2
        · exact Or.inl (VecLt.head h1)
        · exact Or.inr (VecLt.head h2)

/-- After a common beginning the rest decides. -/
theorem VecLt_append_left (p : List (Option Int)) {x y : List (Option Int)} (h : VecLt x y) :
    VecLt (p ++ x) (p ++ y) := by
  induction p with
  | nil => exact h
  | cons a p ih => exact VecLt.tail ih

end VecOrder

section EmptyPhrase
variable {C E T : Type} [DecidableEq T] [Fuzzable T]

omit [DecidableEq T] [Fuzzable T] in
/-- Between vectors of one length, "not smaller than the one before" extends from
neighbours to all pairs of a list. -/
theorem pairwise_of_chain_VecLt {N : Nat} {out : List (DistanceResult T)}
    (hlen : ∀ dr, dr ∈ out → dr.Distances.length = N)
    (hch : List.Chain' (fun a b : DistanceResult T => ¬ VecLt b.Distances a.Distances) out) :
    List.Pairwise (fun a b : DistanceResult T => ¬ VecLt b.Distances a.Distances) out := by
  have hch2 : List.Chain' (fun a b : DistanceResult T =>
      a.Distances.length = N ∧ b.Distances.length = N ∧ ¬ VecLt b.Distances a.Distances) out :=
    (List.Chain'.iff_mem.1 hch).imp (fun a b h => ⟨hlen a h.1, hlen b h.2.1, h.2.2⟩)
  haveI : IsTrans (DistanceResult T) (fun a b : DistanceResult T =>
      a.Distances.length = N ∧ b.Distances.length = N ∧ ¬ VecLt b.Distances a.Distances) := by
    constructor
    rintro a b c ⟨ha, hb, hab⟩ ⟨_, hc, hbc⟩
    refine ⟨ha, hc, ?_⟩
    intro hca
    rcases VecLt_neg_trans _ _ hca b.Distances (by rw [hb, hc]) with h1 | h2
    · exact hbc h1
    · exact hab h2
  exact (List.chain'_iff_pairwise.1 hch2).imp (fun h => h.2.2)

/-- With one number of secondary distances for all loaded records, `Search` returns a list
in which no result is lexicographically smaller than any result before it. -/
theorem Search_pairwise {sources : List (TreeSource C E T)} {trees : List (Tree T)}
    (hb : Built sources trees) (ctx : Context C) (hctx : ctx.cause = none) (phrase : Str)
    (L : Nat)
    (huni : ∀ s r, s ∈ sources → r ∈ s.items → (Fuzzable.GetSecondaryDistances r).length = L) :
    ∃ out, Search { trees := trees } ctx phrase = .ok out ∧
      List.Pairwise (fun a b : DistanceResult T => ¬ VecLt b.Distances a.Distances) out := by
  obtain ⟨out, hout, hlen, hch⟩ := Search_sorted hb ctx hctx phrase L huni
  refine ⟨out, hout, pairwise_of_chain_VecLt hlen ?_⟩
  have hall : ∀ a b : DistanceResult T, a ∈ out → b ∈ out →
      distancesLess b.Distances a.Distances ≠ some true → ¬ VecLt b.Distances a.Distances := by
    intro a b ha hb' hne hlt
    exact hne ((distancesLess_iff_VecLt _ _ (by rw [hlen a ha, hlen b hb'])).2 hlt)
  exact (List.Chain'.iff_mem.1 hch).imp (fun a b h => hall a b h.1 h.2.1 h.2.2)

omit [DecidableEq T] [Fuzzable T] in
/-- Every loaded record matches the empty phrase in the tree it was loaded into. -/
theorem MatchesIn_empty (sources : List (TreeSource C E T)) (r : T) (i : Nat) :
    MatchesIn sources "".toList r i ↔ ∃ s, sources[i]? = some s ∧ r ∈ s.items := by
  constructor
  · rintro ⟨s, hs, hr, _⟩
    exact ⟨s, hs, hr⟩
  · rintro ⟨s, hs, hr⟩
    exact ⟨s, hs, hr, List.nil_sublist _⟩

/-- When all loaded records supply the same number of secondary distances and the context
is not cancelled, `Search("")` returns, and returns every loaded record
exactly once: the records of its output are the records loaded into some tree, whatever
node holds them (the root for the empty key, an interior node or a leaf), and none is
listed twice. -/
theorem Search_empty_returns_all (sources : List (TreeSource C E T)) (trees : List (Tree T))
    (hb : Built sources trees) (ctx : Context C) (hctx : ctx.cause = none) (L : Nat)
    (huni : ∀ s r, s ∈ sources → r ∈ s.items → (Fuzzable.GetSecondaryDistances r).length = L) :
    ∃ out, Search (NewDistanceTrees trees) ctx "".toList = .ok out ∧
      (out.map (fun dr => dr.Result)).Nodup ∧
      ∀ r, r ∈ out.map (fun dr => dr.Result) ↔ ∃ s, s ∈ sources ∧ r ∈ s.items := by
  obtain ⟨out, hout, _, _⟩ := Search_sorted hb ctx hctx "".toList L huni
  obtain ⟨R, hst, hperm, _⟩ := Search_result_view hb ctx hctx "".toList out hout
  refine ⟨out, hout, (hperm.nodup_iff).2 hst.ok.nodup, ?_⟩
  intro r
  rw [hperm.mem_iff, hst.keys_iff r]
  constructor
  · rintro ⟨j, hj, hs⟩
    obtain ⟨s, hsj, hr⟩ := (MatchesIn_empty sources r j).1 ((hst.slot_iff r j hj).1 hs)
    exact ⟨s, List.getElem?_mem hsj, hr⟩
  · rintro ⟨s, hs, hr⟩
    obtain ⟨i, hi, hget⟩ := List.getElem_of_mem hs
    have hsi : sources[i]? = some s := by rw [List.getElem?_eq_getElem hi, hget]
    have hit : i < trees.length := by rw [← hb.length_eq]; exact hi
    exact ⟨i, hit, (hst.slot_iff r i hit).2 ((MatchesIn_empty sources r i).2 ⟨s, hsi, hr⟩)⟩

/-- The amended C20: for the empty phrase the secondary distances decide among results
whose entries for the trees are the same.  When all loaded records supply the same number
of secondary distances (and the context is not cancelled), `Search("")` returns, and of two
results with the same first `tree_count + 1` distances the one whose secondary-distance
vector is lexicographically smaller comes first. -/
theorem Search_empty_secondary_among_ties (sources : List (TreeSource C E T))
    (trees : List (Tree T)) (hb : Built sources trees) (ctx : Context C)
    (hctx : ctx.cause = none) (L : Nat)
    (huni : ∀ s r, s ∈ sources → r ∈ s.items → (Fuzzable.GetSecondaryDistances r).length = L) :
    ∃ out, Search (NewDistanceTrees trees) ctx "".toList = .ok out ∧
      ∀ (i j : Nat) (hi : i < out.length) (hj : j < out.length),
        out[i].Distances.take (trees.length + 1) = out[j].Distances.take (trees.length + 1) →
        VecLt (Fuzzable.GetSecondaryDistances out[i].Result)
          (Fuzzable.GetSecondaryDistances out[j].Result) →
        i < j := by
  obtain ⟨out, hout, hpw⟩ := Search_pairwise hb ctx hctx "".toList L huni
  obtain ⟨R, hst, _, hview⟩ := Search_result_view hb ctx hctx "".toList out hout
  refine ⟨out, hout, ?_⟩
  intro i j hi hj htake hsec
  obtain ⟨pi, hpil, hDi, _⟩ := hview out[i] (List.getElem_mem hi)
  obtain ⟨pj, hpjl, hDj, _⟩ := hview out[j] (List.getElem_mem hj)
  have hpp : pi = pj := by
    rw [hDi, hDj, ← hpil, List.take_left, hpil, ← hpjl, List.take_left] at htake
    exact htake
  have hlt : VecLt out[i].Distances out[j].Distances := by
    rw [hDi, hDj, hpp]
    exact VecLt_append_left pj hsec
  by_contra hij
  have hne : i ≠ j := by
    intro e
    subst e
    exact VecLt_irrefl _ hsec
  have hji : j < i := by omega
  exact List.pairwise_iff_getElem.1 hpw j i hj hi hji hlt

end EmptyPhrase

section MoreWitnesses

theorem assets_built : Built assetSources assetTrees := by
  rfl

theorem assets_search :
    Search (NewDistanceTrees assetTrees) (⟨none⟩ : Context Unit) "ADA".toList =
      .ok [⟨[some 4, none, none, some 2], ⟨"Amanda", "Trie", 2⟩⟩,
           ⟨[none, some 10, none, some 1], ⟨"Bob", "Ada", 1⟩⟩] := by
  decide!

/-- Witness for C14: for the phrase "ADA", Amanda matches weakly in tree 0 (developers) and
Bob matches exactly in tree 1 (projects) only, with the smaller secondary distance.  In a
run in which the results map yields Bob before Amanda, the sort puts Amanda at position 0
and Bob at position 1. -/
theorem Search_tree0_matches_first_witness :
    (searchTrees (NewDistanceTrees assetTrees) (⟨none⟩ : Context Unit) "ADA".toList
        (List.range 2) [] =
      .ok [((⟨"Amanda", "Trie", 2⟩ : Asset), ⟨[some 4, none, none], ⟨"Amanda", "Trie", 2⟩⟩),
        ((⟨"Bob", "Ada", 1⟩ : Asset), ⟨[none, some 10, none], ⟨"Bob", "Ada", 1⟩⟩)] ∧
      appendSecondary (List.reverse
        [((⟨"Amanda", "Trie", 2⟩ : Asset), (⟨[some 4, none, none], ⟨"Amanda", "Trie", 2⟩⟩ :
          DistanceResult Asset)),
        ((⟨"Bob", "Ada", 1⟩ : Asset), ⟨[none, some 10, none], ⟨"Bob", "Ada", 1⟩⟩)]) =
        [⟨[none, some 10, none, some 1], ⟨"Bob", "Ada", 1⟩⟩,
         ⟨[some 4, none, none, some 2], ⟨"Amanda", "Trie", 2⟩⟩] ∧
      SearchOrdered List.reverse (NewDistanceTrees assetTrees) (⟨none⟩ : Context Unit)
          "ADA".toList =
        .ok [⟨[some 4, none, none, some 2], ⟨"Amanda", "Trie", 2⟩⟩,
             ⟨[none, some 10, none, some 1], ⟨"Bob", "Ada", 1⟩⟩]) ∧
    MatchesIn assetSources "ADA".toList ⟨"Amanda", "Trie", 2⟩ 0 ∧
    ¬ MatchesIn assetSources "ADA".toList ⟨"Bob", "Ada", 1⟩ 0 ∧
    MatchesIn assetSources "ADA".toList ⟨"Bob", "Ada", 1⟩ 1 ∧
    (0 : Nat) < 1 :=
  have hmi : MatchesIn assetSources "ADA".toList ⟨"Amanda", "Trie", 2⟩ 0 :=
    ⟨Asset.byDeveloper assets, rfl, by decide, by decide!⟩
  have hmj : ¬ MatchesIn assetSources "ADA".toList ⟨"Bob", "Ada", 1⟩ 0 := by
    rintro ⟨s, hs, _, hsub⟩
    have hs2 : s = Asset.byDeveloper assets := by
      have : some (Asset.byDeveloper assets) = some s := hs
      exact (Option.some.inj this).symm
    subst hs2
    revert hsub
    decide!
  have hrun : SearchOrdered List.reverse (NewDistanceTrees assetTrees)
      (⟨none⟩ : Context Unit) "ADA".toList =
      .ok [⟨[some 4, none, none, some 2], ⟨"Amanda", "Trie", 2⟩⟩,
           ⟨[none, some 10, none, some 1], ⟨"Bob", "Ada", 1⟩⟩] := by
    decide!
  ⟨⟨by decide!, by decide!, hrun⟩, hmi, hmj,
    ⟨Asset.byProject assets, rfl, by decide, by decide!⟩,
    Search_tree0_matches_first assetSources assetTrees assets_built List.reverse
      (fun R => List.reverse_perm R) ⟨none⟩ "ADA".toList _ hrun (by decide) 0 1 (by decide)
      (by decide) hmi hmj⟩

/-- C18, evaluated where it fails: `evaluate` hands the phrase as typed to the Levenshtein
distance, while the key term of the node is upper case.  Among Cat, Wildcat and Dog the
search for "cat" gives Cat the distance `1 + 3` and Wildcat `1 + 7`, the search for the
normalized phrase "CAT" gives them `1 + 0` and `1 + 4`: the same records in the same order,
with other distances. -/
theorem Search_raw_phrase_distance :
    Search (NewDistanceTrees [Sample.tree animals]) (⟨none⟩ : Context Unit) "cat".toList =
      .ok [⟨[some 4, none, some 3], ⟨"Cat", none, [some 3]⟩⟩,
           ⟨[some 8, none, some 7], ⟨"Wildcat", none, [some 7]⟩⟩] ∧
    Search (NewDistanceTrees [Sample.tree animals]) (⟨none⟩ : Context Unit)
        (normalizeTerm "cat".toList) =
      .ok [⟨[some 1, none, some 3], ⟨"Cat", none, [some 3]⟩⟩,
           ⟨[some 5, none, some 7], ⟨"Wildcat", none, [some 7]⟩⟩] ∧
    LevenshteinDistance "cat".toList "CAT".toList = 3 ∧
    LevenshteinDistance (normalizeTerm "cat".toList) "CAT".toList = 0 :=
  ⟨by decide!, by decide!, by decide!, by decide!⟩

/-- C19, evaluated where it fails: two records filed under the same key, the second with
one secondary distance more than the first.  For the empty phrase both get the same
distance.  When the results map yields them in the order of insertion, the comparison of
`sortResults` is called with the longer vector first, reads the shorter one past its end,
and `Search` panics instead of returning the two records; when the map yields them in the
other order, `Search` returns both. -/
theorem Search_empty_uneven_secondary_panics :
    Built [Sample.source unevenSamples] [Sample.tree unevenSamples] ∧
    Search (NewDistanceTrees [Sample.tree unevenSamples]) (⟨none⟩ : Context Unit)
      "".toList = .error .panic ∧
    SearchOrdered List.reverse (NewDistanceTrees [Sample.tree unevenSamples])
        (⟨none⟩ : Context Unit) "".toList =
      .ok [⟨[some 2, none, some 5], ⟨"a", none, [some 5]⟩⟩,
           ⟨[some 2, none], ⟨"A", none, []⟩⟩] :=
  ⟨by rfl, by decide!, by decide!⟩

theorem rootSamples_built : Built [Sample.source rootSamples] [Sample.tree rootSamples] := by
  rfl

theorem rootSamples_secondary (s : TreeSource Unit Unit Sample) (r : Sample)
    (hs : s ∈ [Sample.source rootSamples]) (hr : r ∈ s.items) :
    (Fuzzable.GetSecondaryDistances r).length = 1 := by
  simp only [List.mem_singleton] at hs
  subst hs
  simp only [Sample.source, rootSamples, List.mem_cons, List.mem_singleton, List.not_mem_nil,
    or_false] at hr
  rcases hr with rfl | rfl | rfl <;> rfl

/-- Of the three records under "", "Ca" and "Cat", one secondary distance each, the first is
held by the root, the second by the interior node CA and the third by the leaf CAT; the
search for the empty phrase returns the three. -/
theorem Search_empty_returns_all_witness :
    ((Sample.tree rootSamples).GetLeafNodes = [3] ∧
      GetValues (Sample.tree rootSamples).nodes 0 = [⟨"", none, [some 0]⟩] ∧
      GetValues (Sample.tree rootSamples).nodes 2 = [⟨"Ca", none, [some 2]⟩] ∧
      Search (NewDistanceTrees [Sample.tree rootSamples]) (⟨none⟩ : Context Unit) "".toList =
        .ok [⟨[some 1, none, some 0], ⟨"", none, [some 0]⟩⟩,
             ⟨[some 3, none, some 2], ⟨"Ca", none, [some 2]⟩⟩,
             ⟨[some 4, none, some 3], ⟨"Cat", none, [some 3]⟩⟩]) ∧
    ∃ out, Search (NewDistanceTrees [Sample.tree rootSamples]) (⟨none⟩ : Context Unit)
        "".toList = .ok out ∧
      (out.map (fun dr => dr.Result)).Nodup ∧
      ∀ r, r ∈ out.map (fun dr => dr.Result) ↔
        ∃ s, s ∈ [Sample.source rootSamples] ∧ r ∈ s.items :=
  ⟨⟨by decide!, by decide!, by decide!, by decide!⟩,
    Search_empty_returns_all [Sample.source rootSamples] [Sample.tree rootSamples]
      rootSamples_built ⟨none⟩ rfl 1 rootSamples_secondary⟩

/-- Counterexample to C20 as stated.  With one tree over "AB" (secondary distance 1) and
"A" (secondary distance 2), `Search("")` puts "A" first: the distance for the tree is
`1 + 1` for "A" and `1 + 2` for "AB" and is compared before the secondary distances.  With
two trees, one record loaded into tree 0 only and one into tree 1 only under the same key,
the record of tree 0 comes first although its secondary distance is the larger one. -/
theorem Search_empty_secondary_among_ties_counterexample :
    Search (NewDistanceTrees [Sample.tree shortLong]) (⟨none⟩ : Context Unit) "".toList =
      .ok [⟨[some 2, none, some 2], ⟨"A", none, [some 2]⟩⟩,
           ⟨[some 3, none, some 1], ⟨"AB", none, [some 1]⟩⟩] ∧
    VecLt (Fuzzable.GetSecondaryDistances (⟨"AB", none, [some 1]⟩ : Sample))
      (Fuzzable.GetSecondaryDistances (⟨"A", none, [some 2]⟩ : Sample)) ∧
    Search (NewDistanceTrees [Sample.tree [⟨"Cat", none, [some 2]⟩],
        Sample.tree [⟨"Cat", none, [some 1]⟩]]) (⟨none⟩ : Context Unit) "".toList =
      .ok [⟨[some 4, none, none, some 2], ⟨"Cat", none, [some 2]⟩⟩,
           ⟨[none, some 13, none, some 1], ⟨"Cat", none, [some 1]⟩⟩] :=
  ⟨by decide!, VecLt.head (show (1 : Int) < 2 by decide), by decide!⟩

theorem tiedSamples_built : Built [Sample.source tiedSamples] [Sample.tree tiedSamples] := by
  rfl

theorem tiedSamples_secondary (s : TreeSource Unit Unit Sample) (r : Sample)
    (hs : s ∈ [Sample.source tiedSamples]) (hr : r ∈ s.items) :
    (Fuzzable.GetSecondaryDistances r).length = 1 := by
  simp only [List.mem_singleton] at hs
  subst hs
  simp only [Sample.source, tiedSamples, List.mem_cons, List.mem_singleton, List.not_mem_nil,
    or_false] at hr
  rcases hr with rfl | rfl <;> rfl

/-- Witness for the amended C20: "Cat" (secondary distance 9) and "cat" (secondary
distance 4) share the node CAT and the distance `1 + 3`; the search for the empty phrase
returns "cat" before "Cat". -/
theorem Search_empty_secondary_among_ties_witness :
    Search (NewDistanceTrees [Sample.tree tiedSamples]) (⟨none⟩ : Context Unit) "".toList =
      .ok [⟨[some 4, none, some 4], ⟨"cat", none, [some 4]⟩⟩,
           ⟨[some 4, none, some 9], ⟨"Cat", none, [some 9]⟩⟩] ∧
    ∃ out, Search (NewDistanceTrees [Sample.tree tiedSamples]) (⟨none⟩ : Context Unit)
        "".toList = .ok out ∧
      ∀ (i j : Nat) (hi : i < out.length) (hj : j < out.length),
        out[i].Distances.take ([Sample.tree tiedSamples].length + 1) =
          out[j].Distances.take ([Sample.tree tiedSamples].length + 1) →
        VecLt (Fuzzable.GetSecondaryDistances out[i].Result)
          (Fuzzable.GetSecondaryDistances out[j].Result) →
        i < j :=
  ⟨by decide!,
    Search_empty_secondary_among_ties [Sample.source tiedSamples] [Sample.tree tiedSamples]
      tiedSamples_built ⟨none⟩ rfl 1 tiedSamples_secondary⟩

end MoreWitnesses

end FuzzyTrie

namespace FuzzyTrie

section Frames
variable {T : Type} [DecidableEq T] [Fuzzable T]

omit [Fuzzable T] in
theorem KeepsSlots_refl (i : Nat) (R : Results T) : KeepsSlots i R R :=
  fun _ dr h => ⟨dr, h, rfl, rfl, fun _ _ => rfl, fun _ hd => hd⟩

omit [Fuzzable T] in
theorem KeepsSlots_trans {i : Nat} {R1 R2 R3 : Results T} (h12 : KeepsSlots i R1 R2)
    (h23 : KeepsSlots i R2 R3) : KeepsSlots i R1 R3 := by
  intro v dr hv
  obtain ⟨dr2, hv2, hr2, hl2, hf2, hk2⟩ := h12 v dr hv
  obtain ⟨dr3, hv3, hr3, hl3, hf3, hk3⟩ := h23 v dr2 hv2
  exact ⟨dr3, hv3, hr3.trans hr2, hl3.trans hl2, fun j hj => (hf3 j hj).trans (hf2 j hj),
    fun d hd => hk3 d (hk2 d hd)⟩

omit [Fuzzable T] in
/-- A new entry leaves the entries the map has as they are. -/
theorem KeepsSlots_append (i : Nat) (R : Results T) (e : T × DistanceResult T) :
    KeepsSlots i R (R ++ [e]) := by
  intro v dr hv
  refine ⟨dr, ?_, rfl, rfl, fun _ _ => rfl, fun _ hd => hd⟩
  rw [List.lookup_append, hv]
  rfl

omit [Fuzzable T] in
/-- Writing the distance of `v` at position `i`, where none is set, leaves every distance
that is set as it is. -/
theorem KeepsSlots_setDistance (i : Nat) (R : Results T) (v : T) (w : Int)
    (hcur : ∀ dr, R.lookup v = some dr → dr.Distances[i]? = some none) :
    KeepsSlots i R (setDistance R v i w) := by
  intro u dr hu
  rw [lookup_setDistance, hu]
  simp only [Option.map_some']
  by_cases huv : u = v
  · subst huv
    rw [if_pos rfl]
    refine ⟨_, rfl, rfl, by simp, ?_, ?_⟩
    · intro j hj
      simp only
      rw [List.getElem?_set_ne (Ne.symm hj)]
    · intro d hd
      rw [hcur dr hu] at hd
      cases hd
  · rw [if_neg huv]
    exact ⟨dr, rfl, rfl, rfl, fun _ _ => rfl, fun _ hd => hd⟩

/-- One round of the loop over the values of a node, for any state of the results map: it
panics, or it goes on with a map that keeps what was set. -/
theorem evaluateValues_step (E : Type) (i tc : Nat) (v : T) (R : Results T) (d : Int)
    (rest : List T) :
    evaluateValues (E := E) i tc (v :: rest) R d = .error .panic ∨
      ∃ R1 d1, evaluateValues (E := E) i tc (v :: rest) R d = evaluateValues i tc rest R1 d1 ∧
        KeepsSlots i R R1 := by
  cases hlook : R.lookup v with
  | some dr =>
    cases hget : dr.Distances[i]? with
    | none =>
      left
      rw [evaluateValues]
      simp only [hlook, hget]
    | some x =>
      right
      cases x with
      | some y =>
        refine ⟨R, d, ?_, KeepsSlots_refl i R⟩
        rw [evaluateValues]
        simp only [hlook, hget]
      | none =>
        refine ⟨setDistance R v i (treeWeight i + nextDistance v d), nextDistance v d, ?_,
          KeepsSlots_setDistance i R v _ ?_⟩
        · rw [evaluateValues]
          simp only [hlook, hget]
          rfl
        · intro dr' hdr'
          rw [hlook] at hdr'
          cases hdr'
          exact hget
  | none =>
    by_cases hi : i < tc + 1
    · right
      have hget : (List.replicate (tc + 1) (none : Option Int))[i]? = some none := by
        rw [List.getElem?_eq_getElem (by simpa using hi)]
        simp
      refine ⟨setDistance
          (R ++ [(v, { Result := v, Distances := List.replicate (tc + 1) none })]) v i
          (treeWeight i + nextDistance v d), nextDistance v d, ?_,
        KeepsSlots_trans (KeepsSlots_append i R _) (KeepsSlots_setDistance i _ v _ ?_)⟩
      · rw [evaluateValues]
        simp only [hlook, hget]
        rfl
      · intro dr' hdr'
        rw [List.lookup_append, hlook] at hdr'
        simp only [Option.or, List.lookup_cons, List.lookup_nil, beq_self_eq_true,
          Option.some.injEq] at hdr'
        subst hdr'
        exact hget
    · left
      have hget : (List.replicate (tc + 1) (none : Option Int))[i]? = none := by
        rw [List.getElem?_eq_none]
        simpa using hi
      rw [evaluateValues]
      simp only [hlook, hget]

/-- The loop over the values of a node keeps what was set, and never runs out of budget. -/
theorem evaluateValues_keeps (E : Type) (i tc : Nat) :
    ∀ (values : List T) (R : Results T) (d : Int),
      evaluateValues (E := E) i tc values R d ≠ .error .outOfFuel ∧
      ∀ R', evaluateValues (E := E) i tc values R d = .ok R' → KeepsSlots i R R' := by
  intro values
  induction values with
  | nil =>
    intro R d
    refine ⟨by simp [evaluateValues], ?_⟩
    intro R' h
    simp only [evaluateValues, Except.ok.injEq] at h
    subst h
    exact KeepsSlots_refl i R
  | cons v rest ih =>
    intro R d
    rcases evaluateValues_step E i tc v R d rest with hp | ⟨R1, d1, heq, hk⟩
    · rw [hp]
      exact ⟨by simp, fun R' h => by cases h⟩
    · rw [heq]
      exact ⟨(ih R1 d1).1, fun R' h => KeepsSlots_trans hk ((ih R1 d1).2 R' h)⟩

/-- What `evaluate` returns, for any state of the results map: the map keeps what was set,
and the nodes to examine next are none or the parent of the node. -/
theorem evaluate_keeps (E : Type) (phrase : Str) (i tc : Nat) (R : Results T) (h : Heap T)
    (n : Nat) (R' : Results T) (add : List Nat)
    (hev : evaluate (E := E) phrase i tc R h n = .ok (R', add)) :
    KeepsSlots i R R' ∧ (add = [] ∨ add = (GetParentNode h n).toList) := by
  unfold evaluate at hev
  cases hc : Contains h n phrase with
  | none => rw [hc] at hev; cases hev
  | some b =>
    rw [hc] at hev
    cases b with
    | false =>
      simp only [Except.ok.injEq, Prod.mk.injEq] at hev
      obtain ⟨h1, h2⟩ := hev
      subst h1; subst h2
      exact ⟨KeepsSlots_refl i R, Or.inl rfl⟩
    | true =>
      simp only at hev
      cases hk : GetKeyTerm h n with
      | none => rw [hk] at hev; cases hev
      | some keyTerm =>
        rw [hk] at hev
        simp only at hev
        cases hv : evaluateValues (E := E) i tc (GetValues h n) R
            (LevenshteinDistance phrase keyTerm) with
        | error f => rw [hv] at hev; cases hev
        | ok R1 =>
          rw [hv] at hev
          simp only at hev
          have hkeep := (evaluateValues_keeps E i tc (GetValues h n) R _).2 R1 hv
          cases hp : GetParentNode h n with
          | none =>
            rw [hp] at hev
            simp only [Except.ok.injEq, Prod.mk.injEq] at hev
            obtain ⟨h1, h2⟩ := hev
            subst h1; subst h2
            exact ⟨hkeep, Or.inl rfl⟩
          | some p =>
            rw [hp] at hev
            simp only [Except.ok.injEq, Prod.mk.injEq] at hev
            obtain ⟨h1, h2⟩ := hev
            subst h1; subst h2
            exact ⟨hkeep, Or.inr rfl⟩

/-- A failure of `evaluate` is a panic, unless `Contains` or `GetKeyTerm` runs out of
budget. -/
theorem evaluate_error (E : Type) (phrase : Str) (i tc : Nat) (R : Results T) (h : Heap T)
    (n : Nat) (hc : Contains h n phrase ≠ none) (hk : GetKeyTerm h n ≠ none) :
    evaluate (E := E) phrase i tc R h n ≠ .error .outOfFuel := by
  unfold evaluate
  cases hc' : Contains h n phrase with
  | none => exact absurd hc' hc
  | some b =>
    cases b with
    | false => simp
    | true =>
      simp only
      cases hk' : GetKeyTerm h n with
      | none => exact absurd hk' hk
      | some keyTerm =>
        simp only
        have hne := (evaluateValues_keeps E i tc (GetValues h n) R
          (LevenshteinDistance phrase keyTerm)).1
        cases hv : evaluateValues (E := E) i tc (GetValues h n) R
            (LevenshteinDistance phrase keyTerm) with
        | error f =>
          simp only
          intro e
          apply hne
          rw [hv]
          simpa using e
        | ok R1 =>
          simp only
          cases GetParentNode h n <;> simp

/-- The visit of one node in the loop of `searchTree`, for any state of the results map:
it fails, by a panic or as `evaluate` does; or it goes on with the same map and nothing or
the parent handed on; or with what `evaluate` returns. -/
theorem sweepPass_cons (E : Type) (phrase : Str) (i tc : Nat) (h : Heap T) (c : Nat)
    (rest : List Nat) (R : Results T) (acc : List Nat) :
    (∃ f, sweepPass (E := E) phrase i tc h (c :: rest) R acc = .error f ∧
      (f = .panic ∨ evaluate (E := E) phrase i tc R h c = .error f)) ∨
    (∃ R1 add, sweepPass (E := E) phrase i tc h (c :: rest) R acc =
        sweepPass phrase i tc h rest R1 (acc ++ add) ∧
      ((R1 = R ∧ (add = [] ∨ add = (GetParentNode h c).toList)) ∨
        evaluate (E := E) phrase i tc R h c = .ok (R1, add))) := by
  have hev : (∃ f, sweepPass (E := E) phrase i tc h (c :: rest) R acc = .error f ∧
        evaluate (E := E) phrase i tc R h c = .error f) ∨
      (∃ R1 add, sweepPass (E := E) phrase i tc h (c :: rest) R acc =
          sweepPass phrase i tc h rest R1 (acc ++ add) ∧
        evaluate (E := E) phrase i tc R h c = .ok (R1, add)) ∨
      GetValues h c = [] ∨
      (∃ v0 vs dr, GetValues h c = v0 :: vs ∧ R.lookup v0 = some dr ∧
        dr.Distances[i]? ≠ some none) := by
    cases hv : GetValues h c with
    | nil => exact Or.inr (Or.inr (Or.inl rfl))
    | cons v0 vs =>
      have hgo : (∃ f, sweepPass (E := E) phrase i tc h (c :: rest) R acc = .error f ∧
            evaluate (E := E) phrase i tc R h c = .error f) ∨
          (∃ R1 add, sweepPass (E := E) phrase i tc h (c :: rest) R acc =
              sweepPass phrase i tc h rest R1 (acc ++ add) ∧
            evaluate (E := E) phrase i tc R h c = .ok (R1, add)) ∨
          ¬ (R.lookup v0 = none ∨ ∃ dr, R.lookup v0 = some dr ∧ dr.Distances[i]? = some none) := by
        by_cases hcase : R.lookup v0 = none ∨
            ∃ dr, R.lookup v0 = some dr ∧ dr.Distances[i]? = some none
        · cases hres : evaluate (E := E) phrase i tc R h c with
          | error f =>
            refine Or.inl ⟨f, ?_, rfl⟩
            rw [sweepPass]
            simp only [hv]
            rcases hcase with hn | ⟨dr, hs, hd⟩
            · simp only [hn, hres]
            · simp only [hs, hd, Option.isSome_none, hres]
          | ok r =>
            refine Or.inr (Or.inl ⟨r.1, r.2, ?_, rfl⟩)
            rw [sweepPass]
            simp only [hv]
            rcases hcase with hn | ⟨dr, hs, hd⟩
            · simp only [hn, hres]
            · simp only [hs, hd, Option.isSome_none, hres]
        · exact Or.inr (Or.inr hcase)
      rcases hgo with h1 | h2 | h3
      · exact Or.inl h1
      · exact Or.inr (Or.inl h2)
      · right; right; right
        cases hl : R.lookup v0 with
        | none => exact absurd (Or.inl hl) h3
        | some dr =>
          refine ⟨v0, vs, dr, rfl, hl, ?_⟩
          intro hd
          exact h3 (Or.inr ⟨dr, hl, hd⟩)
  rcases hev with ⟨f, hp, he⟩ | ⟨R1, add, hp, he⟩ | hnil | ⟨v0, vs, dr, hv, hl, hd⟩
  · exact Or.inl ⟨f, hp, Or.inr he⟩
  · exact Or.inr ⟨R1, add, hp, Or.inr he⟩
  · right
    refine ⟨R, (GetParentNode h c).toList, ?_, Or.inl ⟨rfl, Or.inr rfl⟩⟩
    rw [sweepPass]
    simp only [hnil]
    cases hp : GetParentNode h c with
    | none => simp [Option.toList]
    | some p => simp [Option.toList]
  · cases hget : dr.Distances[i]? with
    | none =>
      left
      refine ⟨.panic, ?_, Or.inl rfl⟩
      rw [sweepPass]
      simp only [hv, hl, hget]
    | some x =>
      cases x with
      | none => exact absurd hget hd
      | some y =>
        right
        refine ⟨R, [], ?_, Or.inl ⟨rfl, Or.inl rfl⟩⟩
        rw [sweepPass]
        simp only [hv, hl, hget, Option.isSome_some, List.append_nil]

/-- One sweep over the current nodes, for any state of the results map: the map keeps what
was set, and every node handed on is the parent of a current node. -/
theorem sweepPass_keeps (E : Type) (phrase : Str) (i tc : Nat) (h : Heap T) :
    ∀ (cur : List Nat) (R : Results T) (acc : List Nat) (R' : Results T) (next : List Nat),
      sweepPass (E := E) phrase i tc h cur R acc = .ok (R', next) →
      KeepsSlots i R R' ∧
        ∀ p, p ∈ next → p ∈ acc ∨ ∃ c, c ∈ cur ∧ GetParentNode h c = some p := by
  intro cur
  induction cur with
  | nil =>
    intro R acc R' next hp
    simp only [sweepPass, Except.ok.injEq, Prod.mk.injEq] at hp
    obtain ⟨h1, h2⟩ := hp
    subst h1; subst h2
    exact ⟨KeepsSlots_refl i R, fun p hp => Or.inl hp⟩
  | cons c rest ih =>
    intro R acc R' next hp
    rcases sweepPass_cons E phrase i tc h c rest R acc with ⟨f, hf, _⟩ | ⟨R1, add, heq, hcase⟩
    · rw [hf] at hp; cases hp
    · rw [heq] at hp
      obtain ⟨hk, hnext⟩ := ih R1 (acc ++ add) R' next hp
      have hadd : KeepsSlots i R R1 ∧ (add = [] ∨ add = (GetParentNode h c).toList) := by
        rcases hcase with ⟨h1, h2⟩ | hev
        · subst h1
          exact ⟨KeepsSlots_refl i R1, h2⟩
        · exact evaluate_keeps E phrase i tc R h c R1 add hev
      refine ⟨KeepsSlots_trans hadd.1 hk, ?_⟩
      intro p hpn
      rcases hnext p hpn with hin | ⟨c', hc', hpar⟩
      · rcases List.mem_append.1 hin with ha | hb
        · exact Or.inl ha
        · right
          refine ⟨c, List.mem_cons_self _ _, ?_⟩
          rcases hadd.2 with he | he
          · rw [he] at hb; cases hb
          · rw [he] at hb
            cases hpar' : GetParentNode h c with
            | none => rw [hpar'] at hb; cases hb
            | some q =>
              rw [hpar'] at hb
              simp only [Option.toList, List.mem_singleton] at hb
              rw [hb]
      · exact Or.inr ⟨c', List.mem_cons_of_mem _ hc', hpar⟩

/-- The loop of `searchTree`, for any state of the results map, keeps what was set. -/
theorem sweepLoop_keeps {C : Type} (ctx : Context C) (phrase : Str) (i tc : Nat)
    (h : Heap T) :
    ∀ (fuel : Nat) (cur : List Nat) (R R' : Results T),
      sweepLoop ctx phrase i tc h fuel cur R = .ok R' → KeepsSlots i R R' := by
  intro fuel
  induction fuel with
  | zero =>
    intro cur R R' hl
    rw [sweepLoop] at hl
    cases hc : ctx.cause with
    | some e => rw [hc] at hl; cases hl
    | none =>
      rw [hc] at hl
      simp only at hl
      cases hp : sweepPass (E := C) phrase i tc h cur R [] with
      | error f => rw [hp] at hl; cases hl
      | ok r =>
        rw [hp] at hl
        simp only at hl
        by_cases hlen : r.2.length = 0
        · rw [if_pos hlen] at hl
          simp only [Except.ok.injEq] at hl
          subst hl
          exact (sweepPass_keeps C phrase i tc h cur R [] r.1 r.2 hp).1
        · rw [if_neg hlen] at hl
          cases hl
  | succ fuel ih =>
    intro cur R R' hl
    rw [sweepLoop] at hl
    cases hc : ctx.cause with
    | some e => rw [hc] at hl; cases hl
    | none =>
      rw [hc] at hl
      simp only at hl
      cases hp : sweepPass (E := C) phrase i tc h cur R [] with
      | error f => rw [hp] at hl; cases hl
      | ok r =>
        rw [hp] at hl
        simp only at hl
        have hk := (sweepPass_keeps C phrase i tc h cur R [] r.1 r.2 hp).1
        by_cases hlen : r.2.length = 0
        · rw [if_pos hlen] at hl
          simp only [Except.ok.injEq] at hl
          subst hl
          exact hk
        · rw [if_neg hlen] at hl
          exact KeepsSlots_trans hk (ih r.2 r.1 R' hl)

/-- The search of tree `i`, for any state of the results map, keeps what was set. -/
theorem searchTree_keeps {C : Type} (wt : DistanceTrees T) (ctx : Context C) (i : Nat)
    (phrase : Str) (R R' : Results T) (hs : searchTree wt ctx i phrase R = .ok R') :
    KeepsSlots i R R' := by
  unfold searchTree at hs
  simp only at hs
  cases ht : wt.trees[i]? with
  | none => rw [ht] at hs; cases hs
  | some t =>
    rw [ht] at hs
    exact sweepLoop_keeps ctx phrase i wt.trees.length t.nodes _ _ R R' hs

/-- The loop of `Search` over the trees: an entry the map has stays, a distance at the
position of a tree that is not searched does not change, and a distance that is set keeps
its value. -/
theorem searchTrees_keeps {C : Type} (wt : DistanceTrees T) (ctx : Context C) (phrase : Str) :
    ∀ (indices : List Nat) (R R' : Results T),
      searchTrees wt ctx phrase indices R = .ok R' →
      ∀ (v : T) (dr : DistanceResult T), R.lookup v = some dr →
        ∃ dr', R'.lookup v = some dr' ∧
          (∀ j, j ∉ indices → dr'.Distances[j]? = dr.Distances[j]?) ∧
          (∀ (j : Nat) (d : Int), dr.Distances[j]? = some (some d) →
            dr'.Distances[j]? = some (some d)) := by
  intro indices
  induction indices with
  | nil =>
    intro R R' hs v dr hv
    simp only [searchTrees, Except.ok.injEq] at hs
    subst hs
    exact ⟨dr, hv, fun _ _ => rfl, fun _ _ hd => hd⟩
  | cons k rest ih =>
    intro R R' hs v dr hv
    rw [searchTrees] at hs
    cases h1 : searchTree wt ctx k phrase R with
    | error f =>
      rw [h1] at hs
      cases f <;> cases hs
    | ok R1 =>
      rw [h1] at hs
      simp only at hs
      obtain ⟨dr1, hv1, _, _, hf1, hk1⟩ := searchTree_keeps wt ctx k phrase R R1 h1 v dr hv
      obtain ⟨dr', hv', hf', hk'⟩ := ih R1 R' hs v dr1 hv1
      refine ⟨dr', hv', ?_, ?_⟩
      · intro j hj
        have hjk : j ≠ k := fun e => hj (by rw [e]; exact List.mem_cons_self _ _)
        have hjr : j ∉ rest := fun hm => hj (List.mem_cons_of_mem _ hm)
        rw [hf' j hjr, hf1 j hjk]
      · intro j d hd
        apply hk' j d
        by_cases hjk : j = k
        · subst hjk
          exact hk1 d hd
        · rw [hf1 j hjk]
          exact hd

end Frames

end FuzzyTrie

namespace FuzzyTrie

section Depths
variable {T : Type}

/-- A node is at least as deep in the store as its label is long. -/
theorem Labelled.key_length_le {h : Heap T} {key : Nat → Str} (hl : Labelled h key) :
    ∀ (n : Nat), n < h.length → (key n).length ≤ n := by
  intro n
  induction n using Nat.strong_induction_on with
  | _ n ih =>
    intro hn
    rcases hl.parent_cases hn with ⟨h0, _⟩ | ⟨p, r, _, hlt, hkey⟩
    · subst h0
      rw [hl.key_root]
      exact Nat.le_refl _
    · have := ih p hlt (by omega)
      rw [hkey, List.length_append, List.length_singleton]
      omega

theorem depth_eq {h : Heap T} {key : Nat → Str} (hl : Labelled h key) {n : Nat}
    (hn : n < h.length) : depth h n = (key n).length := by
  unfold depth
  rw [GetKeyTerm_eq hl hn]

/-- The parent of a node is one level up. -/
theorem depth_parent {h : Heap T} {key : Nat → Str} (hl : Labelled h key) {c p : Nat}
    (hc : c < h.length) (hp : GetParentNode h c = some p) :
    p < h.length ∧ depth h p + 1 = depth h c := by
  rcases hl.parent_cases hc with ⟨_, hnone⟩ | ⟨q, r, hq, hlt, hkey⟩
  · rw [hnone] at hp; cases hp
  · rw [hq] at hp
    cases hp
    have hplen : p < h.length := by omega
    refine ⟨hplen, ?_⟩
    rw [depth_eq hl hplen, depth_eq hl hc, hkey, List.length_append, List.length_singleton]

end Depths

section Termination
variable {T : Type} [DecidableEq T] [Fuzzable T]

/-- One sweep over nodes of a labelled store never runs out of budget. -/
theorem sweepPass_total (E : Type) (phrase : Str) (i tc : Nat) {h : Heap T} {key : Nat → Str}
    (hl : Labelled h key) :
    ∀ (cur : List Nat) (R : Results T) (acc : List Nat), (∀ c, c ∈ cur → c < h.length) →
      sweepPass (E := E) phrase i tc h cur R acc ≠ .error .outOfFuel := by
  intro cur
  induction cur with
  | nil => intro R acc _; simp [sweepPass]
  | cons c rest ih =>
    intro R acc hcur
    have hc : c < h.length := hcur c (List.mem_cons_self _ _)
    rcases sweepPass_cons E phrase i tc h c rest R acc with
      ⟨f, hf, hcase⟩ | ⟨R1, add, heq, _⟩
    · rw [hf]
      intro e
      have hfe : f = .outOfFuel := by simpa using e
      rcases hcase with hp | hev
      · rw [hp] at hfe; cases hfe
      · rw [hfe] at hev
        refine evaluate_error E phrase i tc R h c ?_ ?_ hev
        · rw [Contains_eq hl hc phrase]; simp
        · rw [GetKeyTerm_eq hl hc]; simp
    · rw [heq]
      exact ih R1 (acc ++ add) (fun c' hc' => hcur c' (List.mem_cons_of_mem _ hc'))

/-- The loop of `searchTree` over a labelled store ends within a budget that bounds the
depth of the current nodes, whatever the results map holds. -/
theorem sweepLoop_terminates {C : Type} (ctx : Context C) (phrase : Str) (i tc : Nat)
    {h : Heap T} {key : Nat → Str} (hl : Labelled h key) :
    ∀ (fuel : Nat) (cur : List Nat) (R : Results T),
      (∀ c, c ∈ cur → c < h.length ∧ depth h c ≤ fuel) →
      sweepLoop ctx phrase i tc h fuel cur R ≠ .error .outOfFuel := by
  intro fuel
  induction fuel with
  | zero =>
    intro cur R hcur
    rw [sweepLoop]
    cases hc : ctx.cause with
    | some e => simp
    | none =>
      simp only
      cases hp : sweepPass (E := C) phrase i tc h cur R [] with
      | error f =>
        simp only
        intro e
        apply sweepPass_total C phrase i tc hl cur R [] (fun c hc => (hcur c hc).1)
        rw [hp]
        simpa using e
      | ok r =>
        simp only
        by_cases hlen : r.2.length = 0
        · rw [if_pos hlen]; simp
        · exfalso
          obtain ⟨p, hpm⟩ := List.exists_mem_of_ne_nil r.2
            (fun e => hlen (by rw [e]; rfl))
          rcases (sweepPass_keeps C phrase i tc h cur R [] r.1 r.2 hp).2 p hpm with
            hnil | ⟨c, hcm, hpar⟩
          · cases hnil
          · have := (depth_parent hl (hcur c hcm).1 hpar).2
            have := (hcur c hcm).2
            omega
  | succ fuel ih =>
    intro cur R hcur
    rw [sweepLoop]
    cases hc : ctx.cause with
    | some e => simp
    | none =>
      simp only
      cases hp : sweepPass (E := C) phrase i tc h cur R [] with
      | error f =>
        simp only
        intro e
        apply sweepPass_total C phrase i tc hl cur R [] (fun c hc => (hcur c hc).1)
        rw [hp]
        simpa using e
      | ok r =>
        simp only
        by_cases hlen : r.2.length = 0
        · rw [if_pos hlen]; simp
        · rw [if_neg hlen]
          apply ih
          intro p hpm
          rcases (sweepPass_keeps C phrase i tc h cur R [] r.1 r.2 hp).2 p hpm with
            hnil | ⟨c, hcm, hpar⟩
          · cases hnil
          · obtain ⟨hplen, hdep⟩ := depth_parent hl (hcur c hcm).1 hpar
            have := (hcur c hcm).2
            exact ⟨hplen, by omega⟩

end Termination

section SweepClaims
variable {C E T : Type} [DecidableEq T] [Fuzzable T]

/-- The amended C22: on a node of a tree built by `LoadTree` on which `Contains(phrase)` is
true, `evaluate` (called as `searchTree` calls it) returns exactly the parent of the node
whenever the node has a parent, also when the parent is the root, and no successor when the
node has no parent; the node without a parent is the root. -/
theorem evaluate_returns_parent (F : Type) (ctx : Context C) (items : List T)
    (termExtractor : KeyTermExtractor C E T) (t : Tree T)
    (hload : LoadTree ctx items termExtractor = .ok t) (phrase : Str) (i tc : Nat)
    (hi : i ≤ tc) (R : Results T) (hok : ResultsOK R tc) (n : Nat)
    (hn : n < t.nodes.length) (hc : Contains t.nodes n phrase = some true) :
    (∃ R', evaluate (E := F) phrase i tc R t.nodes n =
      .ok (R', (GetParentNode t.nodes n).toList)) ∧
    (GetParentNode t.nodes n = none ↔ n = 0) := by
  obtain ⟨key, hL⟩ := LoadTree_loaded hload
  have hm : Matches key phrase n := by
    rw [Contains_eq hL.labelled hn phrase] at hc
    simpa [Matches] using hc
  obtain ⟨R', hres, _⟩ := evaluate_match F hL phrase i tc hi R hok hn hm
  refine ⟨⟨R', hres⟩, ?_⟩
  rcases hL.labelled.parent_cases hn with ⟨h0, hnone⟩ | ⟨p, r, hp, hlt, _⟩
  · exact ⟨fun _ => h0, fun _ => hnone⟩
  · constructor
    · intro hnone
      rw [hp] at hnone
      cases hnone
    · intro h0
      omega

/-- C23: on a node on which `Contains(phrase)` is false, `evaluate` returns no successors
and the results map as it was: no entry is created and no distance is written. -/
theorem evaluate_prunes (F : Type) (phrase : Str) (i tc : Nat) (R : Results T) (h : Heap T)
    (n : Nat) (hc : Contains h n phrase = some false) :
    evaluate (E := F) phrase i tc R h n = .ok (R, []) := by
  unfold evaluate
  rw [hc]

/-- C24: first writer wins.  A distance that is set at the position of the tree when
`evaluate` visits a node is left as it is; the same holds for the whole search of a tree;
and over the loop of `Search` a distance, once set, keeps its value in the map for the rest
of the search. -/
theorem first_writer_wins :
    (∀ (F : Type) (phrase : Str) (i tc : Nat) (R : Results T) (h : Heap T) (n : Nat)
        (R' : Results T) (add : List Nat),
      evaluate (E := F) phrase i tc R h n = .ok (R', add) →
      ∀ (v : T) (dr : DistanceResult T) (d : Int), R.lookup v = some dr →
        dr.Distances[i]? = some (some d) →
        ∃ dr', R'.lookup v = some dr' ∧ dr'.Distances[i]? = some (some d)) ∧
    (∀ (wt : DistanceTrees T) (ctx : Context C) (i : Nat) (phrase : Str) (R R' : Results T),
      searchTree wt ctx i phrase R = .ok R' →
      ∀ (v : T) (dr : DistanceResult T) (d : Int), R.lookup v = some dr →
        dr.Distances[i]? = some (some d) →
        ∃ dr', R'.lookup v = some dr' ∧ dr'.Distances[i]? = some (some d)) ∧
    (∀ (wt : DistanceTrees T) (ctx : Context C) (phrase : Str) (indices : List Nat)
        (R R' : Results T),
      searchTrees wt ctx phrase indices R = .ok R' →
      ∀ (v : T) (dr : DistanceResult T) (j : Nat) (d : Int), R.lookup v = some dr →
        dr.Distances[j]? = some (some d) →
        ∃ dr', R'.lookup v = some dr' ∧ dr'.Distances[j]? = some (some d)) := by
  refine ⟨?_, ?_, ?_⟩
  · intro F phrase i tc R h n R' add hev v dr d hv hd
    obtain ⟨dr', hv', _, _, _, hk⟩ := (evaluate_keeps F phrase i tc R h n R' add hev).1 v dr hv
    exact ⟨dr', hv', hk d hd⟩
  · intro wt ctx i phrase R R' hs v dr d hv hd
    obtain ⟨dr', hv', _, _, _, hk⟩ := searchTree_keeps wt ctx i phrase R R' hs v dr hv
    exact ⟨dr', hv', hk d hd⟩
  · intro wt ctx phrase indices R R' hs v dr j d hv hd
    obtain ⟨dr', hv', _, hk⟩ := searchTrees_keeps wt ctx phrase indices R R' hs v dr hv
    exact ⟨dr', hv', hk j d hd⟩

/-- C25: on a tree built by `LoadTree` the sweep of `searchTree` terminates, for every
phrase, every state of the results map and every context.  Every node a round hands on is
the parent of a node of the round, one level up; so a budget that bounds the depth of the
leaves is enough for the loop (which, with budget `fuel`, runs at most `fuel + 1` rounds),
and `searchTree`, whose budget is the number of nodes, does not run out of it. -/
theorem searchTree_terminates (ctx0 : Context C) (items : List T)
    (termExtractor : KeyTermExtractor C E T) (t : Tree T)
    (hload : LoadTree ctx0 items termExtractor = .ok t) (wt : DistanceTrees T) (i : Nat)
    (ht : wt.trees[i]? = some t) (F : Type) (ctx : Context F) (phrase : Str)
    (R : Results T) :
    searchTree wt ctx i phrase R ≠ .error .outOfFuel ∧
    (∀ fuel, (∀ l, l ∈ t.GetLeafNodes → depth t.nodes l ≤ fuel) →
      sweepLoop ctx phrase i wt.trees.length t.nodes fuel t.GetLeafNodes R ≠
        .error .outOfFuel) ∧
    (∀ (cur : List Nat) (R1 R2 : Results T) (next : List Nat),
      (∀ c, c ∈ cur → c < t.nodes.length) →
      sweepPass (E := F) phrase i wt.trees.length t.nodes cur R1 [] = .ok (R2, next) →
      ∀ p, p ∈ next → ∃ c, c ∈ cur ∧ GetParentNode t.nodes c = some p ∧
        depth t.nodes p + 1 = depth t.nodes c) := by
  obtain ⟨key, hL⟩ := LoadTree_loaded hload
  have hleaf : ∀ l, l ∈ t.GetLeafNodes → l < t.nodes.length :=
    fun l hl => ((hL.leaf_iff l).1 hl).1
  refine ⟨?_, ?_, ?_⟩
  · unfold searchTree
    simp only [ht]
    apply sweepLoop_terminates ctx phrase i wt.trees.length hL.labelled
    intro l hl
    refine ⟨hleaf l hl, ?_⟩
    rw [depth_eq hL.labelled (hleaf l hl)]
    have := hL.labelled.key_length_le l (hleaf l hl)
    have := hleaf l hl
    omega
  · intro fuel hfuel
    apply sweepLoop_terminates ctx phrase i wt.trees.length hL.labelled
    exact fun l hl => ⟨hleaf l hl, hfuel l hl⟩
  · intro cur R1 R2 next hcur hp p hpm
    rcases (sweepPass_keeps F phrase i wt.trees.length t.nodes cur R1 [] R2 next hp).2 p hpm
      with hnil | ⟨c, hcm, hpar⟩
    · cases hnil
    · exact ⟨c, hcm, hpar, (depth_parent hL.labelled (hcur c hcm) hpar).2⟩

omit [DecidableEq T] [Fuzzable T] in
/-- C26: in a tree built by `LoadTree`, the child stored under a code point in the children
of a node has that code point as key rune and the node as parent; the root has no key rune
and no parent; and the key term of a node other than the root is the key term of its parent
followed by its own key rune. -/
theorem LoadTree_structure (ctx : Context C) (items : List T)
    (termExtractor : KeyTermExtractor C E T) (t : Tree T)
    (hload : LoadTree ctx items termExtractor = .ok t) :
    (∀ (n : Nat) (r : Rune) (c : Nat), childAt t.nodes n r = some c →
      ∃ cd, t.nodes[c]? = some cd ∧ cd.keyRune = some r ∧ cd.parent = some n) ∧
    (∃ rt, t.nodes[0]? = some rt ∧ rt.keyRune = none ∧ rt.parent = none) ∧
    (∀ (n : Nat) (nd : Node T), t.nodes[n]? = some nd → n ≠ 0 →
      ∃ p r keyTerm, nd.parent = some p ∧ nd.keyRune = some r ∧
        GetKeyTerm t.nodes p = some keyTerm ∧
        GetKeyTerm t.nodes n = some (keyTerm ++ [r])) := by
  obtain ⟨key, hL⟩ := LoadTree_loaded hload
  refine ⟨?_, hL.labelled.root, ?_⟩
  · intro n r c hc
    unfold childAt at hc
    cases hnd : t.nodes[n]? with
    | none => rw [hnd] at hc; cases hc
    | some nd =>
      rw [hnd] at hc
      obtain ⟨cd, hcd, hpar, hkr⟩ := (hL.labelled.child_iff n nd r c hnd).1 (lookup_mem hc)
      exact ⟨cd, hcd, hkr, hpar⟩
  · intro n nd hnd hn0
    have hn : n < t.nodes.length := lt_length_of_getElem? hnd
    obtain ⟨p, r, hlt, hpar, hkr, hkey⟩ := hL.labelled.nonroot n nd hnd (by omega)
    refine ⟨p, r, key p, hpar, hkr, GetKeyTerm_eq hL.labelled (by omega), ?_⟩
    rw [GetKeyTerm_eq hL.labelled hn, hkey]

/-- C27: the search of tree `i` writes only position `i`.  An entry the results map has
when `searchTree` is called is there afterwards with the same distance at every position
other than `i`; so over the loop of `Search` the distances at the positions of the trees
searched before are the same after the search of every later tree. -/
theorem searchTree_writes_only_slot :
    (∀ (wt : DistanceTrees T) (ctx : Context C) (i : Nat) (phrase : Str) (R R' : Results T),
      searchTree wt ctx i phrase R = .ok R' →
      ∀ (v : T) (dr : DistanceResult T), R.lookup v = some dr →
        ∃ dr', R'.lookup v = some dr' ∧
          ∀ j, j ≠ i → dr'.Distances[j]? = dr.Distances[j]?) ∧
    (∀ (wt : DistanceTrees T) (ctx : Context C) (phrase : Str) (indices : List Nat)
        (R R' : Results T),
      searchTrees wt ctx phrase indices R = .ok R' →
      ∀ (v : T) (dr : DistanceResult T), R.lookup v = some dr →
        ∃ dr', R'.lookup v = some dr' ∧
          ∀ j, j ∉ indices → dr'.Distances[j]? = dr.Distances[j]?) := by
  refine ⟨?_, ?_⟩
  · intro wt ctx i phrase R R' hs v dr hv
    obtain ⟨dr', hv', _, _, hf, _⟩ := searchTree_keeps wt ctx i phrase R R' hs v dr hv
    exact ⟨dr', hv', hf⟩
  · intro wt ctx phrase indices R R' hs v dr hv
    obtain ⟨dr', hv', hf, _⟩ := searchTrees_keeps wt ctx phrase indices R R' hs v dr hv
    exact ⟨dr', hv', hf⟩

end SweepClaims

end FuzzyTrie

namespace FuzzyTrie

section Comparison

theorem slotLt_trans {a b c : Option Int} (h1 : slotLt a b) (h2 : slotLt b c) :
    slotLt a c := by
  cases a with
  | none => simp [slotLt] at h1
  | some x =>
    cases b with
    | none => simp [slotLt] at h2
    | some y =>
      cases c with
      | none => simp [slotLt]
      | some z =>
        simp only [slotLt] at h1 h2 ⊢
        omega

/-- The lexicographic order of distance vectors is transitive. -/
theorem VecLt_trans :
    ∀ (a b : List (Option Int)), VecLt a b → ∀ (c : List (Option Int)), VecLt b c →
      VecLt a c := by
  intro a b h
  induction h with
  | @head x y as bs hs =>
    intro c hbc
    cases hbc with
    | head hs2 => exact VecLt.head (slotLt_trans hs hs2)
    | tail _ => exact VecLt.head hs
  | @tail x as bs _ ih =>
    intro c hbc
    cases hbc with
    | head hs2 => exact VecLt.head hs2
    | tail ht => exact VecLt.tail (ih _ ht)

/-- Of two different vectors of one length, one is smaller than the other. -/
theorem VecLt_trichotomy :
    ∀ (a b : List (Option Int)), a.length = b.length → a ≠ b → VecLt a b ∨ VecLt b a := by
  intro a
  induction a with
  | nil =>
    intro b hlen hne
    cases b with
    | nil => exact absurd rfl hne
    | cons y bs => simp at hlen
  | cons x as ih =>
    intro b hlen hne
    cases b with
    | nil => simp at hlen
    | cons y bs =>
      by_cases hxy : x = y
      · subst hxy
        have hlen' : as.length = bs.length := by simpa using hlen
        have hne' : as ≠ bs := fun e => hne (by rw [e])
        rcases ih bs hlen' hne' with h1 | h2
        · exact Or.inl (VecLt.tail h1)
        · exact Or.inr (VecLt.tail h2)
      · rcases slotLt_trichotomy x y hxy with h1 | h2
        · exact Or.inl (VecLt.head h1)
        · exact Or.inr (VecLt.head h2)

/-- On vectors of equal length the comparison of `sortResults` answers, and answers "not
less" exactly when the first vector is not smaller. -/
theorem distancesLess_false_iff (a b : List (Option Int)) (hlen : a.length = b.length) :
    distancesLess a b = some false ↔ ¬ VecLt a b := by
  obtain ⟨x, hx⟩ := distancesLess_isSome a b (Nat.le_of_eq hlen)
  rw [← distancesLess_iff_VecLt a b hlen, hx]
  cases x <;> simp

/-- The comparison of `sortResults` at a vector and a proper extension of it that ties on
all common positions: with the longer vector first it reads the shorter one past its end;
with the shorter vector first it answers "not less". -/
theorem distancesLess_extension :
    ∀ (b : List (Option Int)) (x : Option Int) (rest : List (Option Int)),
      distancesLess (b ++ x :: rest) b = none ∧
      distancesLess b (b ++ x :: rest) = some false := by
  intro b
  induction b with
  | nil => intro x rest; exact ⟨rfl, rfl⟩
  | cons y b ih =>
    intro x rest
    obtain ⟨h1, h2⟩ := ih x rest
    cases y with
    | none => exact ⟨by simpa [distancesLess] using h1, by simpa [distancesLess] using h2⟩
    | some d => exact ⟨by simpa [distancesLess] using h1, by simpa [distancesLess] using h2⟩

/-- C21, evaluated where it fails: the comparison of `sortResults` is not defined for
vectors of different lengths.  When the first vector extends the second and all common
positions tie, the comparison reads the second vector past its end, whatever the vectors
are; `sortResults` panics on two such results, and so does `Search` when two records under
one key supply different numbers of secondary distances. -/
theorem distancesLess_reads_past_end :
    (∀ (b : List (Option Int)) (x : Option Int) (rest : List (Option Int)),
      distancesLess (b ++ x :: rest) b = none ∧
      distancesLess b (b ++ x :: rest) = some false) ∧
    distancesLess [some 1, none, some 5] [some 1, none] = none ∧
    sortResults (E := Unit)
        [(⟨[some 1, none], "x"⟩ : DistanceResult String), ⟨[some 1, none, some 5], "y"⟩] =
      .error .panic ∧
    Search (NewDistanceTrees [Sample.tree unevenSamples]) (⟨none⟩ : Context Unit)
      "a".toList = .error .panic :=
  ⟨distancesLess_extension, by decide!, by decide!, by decide!⟩

/-- C28: on distance vectors of one length the comparison of `sortResults` is a strict weak
ordering: it is irreflexive, asymmetric and transitive, and "neither is less than the
other" holds exactly when the two vectors are equal position by position, and is
transitive. -/
theorem distancesLess_strict_weak_order (L : Nat) :
    (∀ a : List (Option Int), a.length = L → distancesLess a a = some false) ∧
    (∀ a b : List (Option Int), a.length = L → b.length = L →
      distancesLess a b = some true → distancesLess b a = some false) ∧
    (∀ a b c : List (Option Int), a.length = L → b.length = L → c.length = L →
      distancesLess a b = some true → distancesLess b c = some true →
      distancesLess a c = some true) ∧
    (∀ a b : List (Option Int), a.length = L → b.length = L →
      ((distancesLess a b = some false ∧ distancesLess b a = some false) ↔ a = b)) ∧
    (∀ a b c : List (Option Int), a.length = L → b.length = L → c.length = L →
      (distancesLess a b = some false ∧ distancesLess b a = some false) →
      (distancesLess b c = some false ∧ distancesLess c b = some false) →
      (distancesLess a c = some false ∧ distancesLess c a = some false)) := by
  have hirr : ∀ a : List (Option Int), distancesLess a a = some false :=
    fun a => (distancesLess_false_iff a a rfl).2 (VecLt_irrefl a)
  have heq : ∀ a b : List (Option Int), a.length = L → b.length = L →
      ((distancesLess a b = some false ∧ distancesLess b a = some false) ↔ a = b) := by
    intro a b ha hb
    have hab : a.length = b.length := by rw [ha, hb]
    constructor
    · rintro ⟨h1, h2⟩
      by_contra hne
      rcases VecLt_trichotomy a b hab hne with h | h
      · exact (distancesLess_false_iff a b hab).1 h1 h
      · exact (distancesLess_false_iff b a hab.symm).1 h2 h
    · intro e
      subst e
      exact ⟨hirr a, hirr a⟩
  refine ⟨fun a _ => hirr a, ?_, ?_, heq, ?_⟩
  · intro a b _ _ h
    exact distancesLess_asymm a b h
  · intro a b c ha hb hc h1 h2
    have hab : a.length = b.length := by rw [ha, hb]
    have hbc : b.length = c.length := by rw [hb, hc]
    have hac : a.length = c.length := by rw [ha, hc]
    rw [distancesLess_iff_VecLt a b hab] at h1
    rw [distancesLess_iff_VecLt b c hbc] at h2
    rw [distancesLess_iff_VecLt a c hac]
    exact VecLt_trans a b h1 c h2
  · intro a b c ha hb hc h1 h2
    have e1 := (heq a b ha hb).1 h1
    have e2 := (heq b c hb hc).1 h2
    exact (heq a c ha hc).2 (e1.trans e2)

/-- Witness for C28: three vectors of length 3, with a tie at the first position, a nil
and values. -/
theorem distancesLess_strict_weak_order_witness :
    distancesLess [some 1, some 2, none] [some 1, none, some 0] = some true ∧
    distancesLess [some 1, none, some 0] [some 1, none, some 4] = some true ∧
    distancesLess [some 1, some 2, none] [some 1, none, some 4] = some true ∧
    distancesLess [some 1, none, some 4] [some 1, some 2, none] = some false :=
  have h1 : distancesLess [some 1, some 2, none] [some 1, none, some 0] = some true := by
    decide
  have h2 : distancesLess [some 1, none, some 0] [some 1, none, some 4] = some true := by
    decide
  have h3 := (distancesLess_strict_weak_order 3).2.2.1 [some 1, some 2, none]
    [some 1, none, some 0] [some 1, none, some 4] rfl rfl rfl h1 h2
  ⟨h1, h2, h3, (distancesLess_strict_weak_order 3).2.1 [some 1, some 2, none]
    [some 1, none, some 4] rfl rfl h3⟩

end Comparison

section LeafValues
variable {C E T : Type}

/-- Adding an item below a node makes a store in which every node without children holds a
value, when that was so before at every node but the one the item is added below. -/
theorem addItem_holds (item : T) :
    ∀ (runes : List Rune) (h : Heap T) (n : Nat), (∀ m, m ≠ n → HoldsValue h m) →
      ∀ m, HoldsValue (addItem h n runes item) m := by
  intro runes
  induction runes with
  | nil =>
    intro h n hother m nd hm hch
    unfold addItem at hm
    rw [getElem?_updateNode] at hm
    by_cases hmn : m = n
    · subst hmn
      simp only [if_true] at hm
      cases hnd : h[m]? with
      | none => rw [hnd] at hm; cases hm
      | some nd0 =>
        rw [hnd] at hm
        simp only [Option.map_some', Option.some.injEq] at hm
        subst hm
        simp
    · simp only [hmn, if_false] at hm
      exact hother m hmn nd hm hch
  | cons firstRune rest ih =>
    intro h n hother
    unfold addItem
    cases hc : childAt h n firstRune with
    | some c =>
      apply ih h c
      intro m hmc
      by_cases hmn : m = n
      · subst hmn
        intro nd hm hch
        exfalso
        unfold childAt at hc
        rw [hm] at hc
        simp only at hc
        rw [hch] at hc
        cases hc
      · exact hother m hmn
    | none =>
      apply ih _ h.length
      intro m hml nd hm hch
      have hm' := hm
      unfold withChild at hm'
      rw [getElem?_updateNode] at hm'
      by_cases hmn : m = n
      · subst hmn
        simp only [if_true] at hm'
        cases hnd : (h ++ [newTrieNode (some m) (some firstRune)])[m]? with
        | none => rw [hnd] at hm'; cases hm'
        | some nd0 =>
          rw [hnd] at hm'
          simp only [Option.map_some', Option.some.injEq] at hm'
          subst hm'
          simp at hch
      · simp only [hmn, if_false] at hm'
        have hlt : m < h.length := by
          have := lt_length_of_getElem? hm'
          simp only [List.length_append, List.length_singleton] at this
          omega
        rw [List.getElem?_append_left hlt] at hm'
        exact hother m hmn nd hm' hch

/-- After the loop of `LoadTree` over a non-empty list of items every node without children
holds a value. -/
theorem loadItems_holds (ctx : Context C) (termExtractor : KeyTermExtractor C E T) :
    ∀ (items : List T) (h h' : Heap T), (∀ m, m ≠ 0 → HoldsValue h m) →
      (items = [] → HoldsValue h 0) →
      loadItems ctx termExtractor h items = .ok h' → ∀ m, HoldsValue h' m := by
  intro items
  induction items with
  | nil =>
    intro h h' hother hroot hload m
    simp only [loadItems, Except.ok.injEq] at hload
    subst hload
    by_cases hm : m = 0
    · subst hm; exact hroot rfl
    · exact hother m hm
  | cons item rest ih =>
    intro h h' hother _ hload
    rw [loadItems] at hload
    cases hk : termExtractor ctx item with
    | error err => rw [hk] at hload; cases hload
    | ok k =>
      rw [hk] at hload
      have hall := addItem_holds item (normalizeTerm k) h 0 hother
      exact ih _ h' (fun m _ => hall m) (fun _ => hall 0) hload

/-- C29: in a tree built by `LoadTree` from a non-empty list of items every leaf node holds
at least one value.  For the empty list of items the leaf nodes are the root alone, the
root holds no value, and `Search` over the tree, with a context that is not cancelled,
returns the empty list and no error. -/
theorem leaves_hold_values [DecidableEq T] [Fuzzable T] (ctx : Context C) (items : List T)
    (termExtractor : KeyTermExtractor C E T) (t : Tree T)
    (hload : LoadTree ctx items termExtractor = .ok t) :
    (items ≠ [] → ∀ l, l ∈ t.GetLeafNodes → GetValues t.nodes l ≠ []) ∧
    (items = [] → t.GetLeafNodes = [0] ∧ GetValues t.nodes 0 = [] ∧
      ∀ (F : Type) (ctx2 : Context F) (phrase : Str), ctx2.cause = none →
        Search (NewDistanceTrees [t]) ctx2 phrase = .ok []) := by
  constructor
  · intro hne l hl
    obtain ⟨key, hL⟩ := LoadTree_loaded hload
    obtain ⟨hlen, hch⟩ := (hL.leaf_iff l).1 hl
    have hholds : ∀ m, HoldsValue t.nodes m := by
      unfold LoadTree at hload
      simp only at hload
      cases hli : loadItems ctx termExtractor [newTrieNode none none] items with
      | error err => rw [hli] at hload; cases hload
      | ok h =>
        rw [hli] at hload
        simp only at hload
        cases hg : getLeafNodes h 0 with
        | none => rw [hg] at hload; cases hload
        | some out =>
          rw [hg] at hload
          simp only [Except.ok.injEq] at hload
          subst hload
          refine loadItems_holds ctx termExtractor items _ h ?_ (fun e => absurd e hne) hli
          intro m hm nd hnd
          have := lt_length_of_getElem? hnd
          simp only [List.length_singleton] at this
          omega
    obtain ⟨nd, hnd⟩ := exists_getElem?_of_lt hlen
    have hchildren : nd.children = [] := by
      unfold childNodes at hch
      simp only [hnd] at hch
      exact List.map_eq_nil_iff.1 hch
    unfold GetValues
    simp only [hnd]
    exact hholds l nd hnd hchildren
  · intro he
    subst he
    have ht : t = { nodes := [newTrieNode none none], leafNodes := [0] } := by
      have h0 : LoadTree ctx ([] : List T) termExtractor =
          .ok { nodes := [newTrieNode none none], leafNodes := [0] } := rfl
      rw [h0] at hload
      exact (Except.ok.inj hload).symm
    subst ht
    refine ⟨rfl, rfl, ?_⟩
    intro F ctx2 phrase hctx
    obtain ⟨cause⟩ := ctx2
    simp only at hctx
    subst hctx
    rfl

end LeafValues

section SweepWitnesses

theorem animals_loaded :
    LoadTree (Sample.source animals).ctx animals (Sample.source animals).termExtractor =
      .ok (Sample.tree animals) := by
  rfl

/-- Counterexample to C22 as stated: in the tree of Cat, Wildcat and Dog the node C (at 1)
has the root as its parent; `Contains("C")` is true at it, and `evaluate` returns the root
as the node to examine next, not nothing. -/
theorem evaluate_returns_parent_counterexample :
    Contains (Sample.tree animals).nodes 1 "C".toList = some true ∧
    GetParentNode (Sample.tree animals).nodes 1 = some 0 ∧
    GetParentNode (Sample.tree animals).nodes 0 = none ∧
    evaluate (E := Unit) "C".toList 0 1 ([] : Results Sample) (Sample.tree animals).nodes 1 =
      .ok ([], [0]) := by
  decide!

/-- Witness for the amended C22: at the node C (at 1) of the tree of Cat, Wildcat and Dog
`evaluate` returns the parent of the node, which is the root. -/
theorem evaluate_returns_parent_witness :
    GetParentNode (Sample.tree animals).nodes 1 = some 0 ∧
    ((∃ R', evaluate (E := Unit) "C".toList 0 1 ([] : Results Sample)
        (Sample.tree animals).nodes 1 =
      .ok (R', (GetParentNode (Sample.tree animals).nodes 1).toList)) ∧
    (GetParentNode (Sample.tree animals).nodes 1 = none ↔ 1 = 0)) :=
  ⟨by decide!, evaluate_returns_parent Unit (Sample.source animals).ctx animals
    (Sample.source animals).termExtractor (Sample.tree animals) animals_loaded "C".toList 0 1
    (by decide) [] ⟨List.nodup_nil, (fun _ h => by cases h), (fun _ h => by cases h)⟩ 1
    (by decide!) (by decide!)⟩

/-- Witness for C23: `Contains("CAT")` is false at the node DOG (at 13) of the tree of Cat,
Wildcat and Dog; `evaluate` returns the map as it was, without an entry for Dog, and no
node to examine. -/
theorem evaluate_prunes_witness :
    GetValues (Sample.tree animals).nodes 13 = [⟨"Dog", none, [some 3]⟩] ∧
    evaluate (E := Unit) "CAT".toList 0 1
        [((⟨"Cat", none, [some 3]⟩ : Sample), ⟨[some 1, none], ⟨"Cat", none, [some 3]⟩⟩)]
        (Sample.tree animals).nodes 13 =
      .ok ([((⟨"Cat", none, [some 3]⟩ : Sample), ⟨[some 1, none], ⟨"Cat", none, [some 3]⟩⟩)],
        []) :=
  ⟨by decide!, evaluate_prunes Unit "CAT".toList 0 1 _ (Sample.tree animals).nodes 13
    (by decide!)⟩

/-- Witness for C24: the distance of Cat for tree 0 is set to 99 when `evaluate` visits the
node CAT (at 3), which holds Cat; it is 99 afterwards, not `1 + 0`. -/
theorem first_writer_wins_witness :
    GetValues (Sample.tree animals).nodes 3 = [⟨"Cat", none, [some 3]⟩] ∧
    ∃ dr', List.lookup (⟨"Cat", none, [some 3]⟩ : Sample)
        [((⟨"Cat", none, [some 3]⟩ : Sample), (⟨[some 99, none], ⟨"Cat", none, [some 3]⟩⟩ :
          DistanceResult Sample))] = some dr' ∧
      dr'.Distances[0]? = some (some 99) :=
  ⟨by decide!, (first_writer_wins (C := Unit) (T := Sample)).1 Unit "CAT".toList 0 1
    [((⟨"Cat", none, [some 3]⟩ : Sample), ⟨[some 99, none], ⟨"Cat", none, [some 3]⟩⟩)]
    (Sample.tree animals).nodes 3 _ [2] (by decide!) ⟨"Cat", none, [some 3]⟩
    ⟨[some 99, none], ⟨"Cat", none, [some 3]⟩⟩ 99 (by decide!) (by decide!)⟩

/-- Witness for C25: the deepest leaf of the tree of Cat, Wildcat and Dog is WILDCAT, at
depth 7; for the empty phrase the sweep runs through all eight levels, a budget of 7 is
enough for it and a budget of 6 is not. -/
theorem searchTree_terminates_witness :
    (∀ l, l ∈ (Sample.tree animals).GetLeafNodes → depth (Sample.tree animals).nodes l ≤ 7) ∧
    sweepLoop (⟨none⟩ : Context Unit) "".toList 0 1 (Sample.tree animals).nodes 6
      (Sample.tree animals).GetLeafNodes ([] : Results Sample) = .error .outOfFuel ∧
    sweepLoop (⟨none⟩ : Context Unit) "".toList 0 1 (Sample.tree animals).nodes 7
      (Sample.tree animals).GetLeafNodes ([] : Results Sample) ≠ .error .outOfFuel :=
  ⟨by decide!, by decide!,
    (searchTree_terminates (Sample.source animals).ctx animals
      (Sample.source animals).termExtractor (Sample.tree animals) animals_loaded
      (NewDistanceTrees [Sample.tree animals]) 0 rfl Unit ⟨none⟩ "".toList []).2.1 7
      (by decide!)⟩

/-- Witness for C26: in the tree of cat, cat, cataracts, dog the child under 'A' of the
node C (at 1) is the node at 2, with key rune 'A' and parent 1, and the key term of the
node at 2 is that of the node at 1 followed by 'A'. -/
theorem LoadTree_structure_witness :
    (childAt testTree.nodes 1 'A' = some 2 ∧
      GetKeyTerm testTree.nodes 1 = some "C".toList ∧
      GetKeyTerm testTree.nodes 2 = some "CA".toList) ∧
    ∃ cd, testTree.nodes[2]? = some cd ∧ cd.keyRune = some 'A' ∧ cd.parent = some 1 :=
  ⟨by decide!, (LoadTree_structure (⟨none⟩ : Context Unit) testItems TestItem.getText
    testTree testTree_loaded).1 1 'A' 2 (by decide!)⟩

/-- Witness for C27: after the search of tree 0 (developers) for "ADA" the map holds Amanda
with the distance 4 at position 0; the search of tree 1 (projects) adds Bob and leaves the
distances of Amanda at the positions other than 1 as they were. -/
theorem searchTree_writes_only_slot_witness :
    searchTree (NewDistanceTrees assetTrees) (⟨none⟩ : Context Unit) 1 "ADA".toList
        [((⟨"Amanda", "Trie", 2⟩ : Asset), ⟨[some 4, none, none], ⟨"Amanda", "Trie", 2⟩⟩)] =
      .ok [((⟨"Amanda", "Trie", 2⟩ : Asset), ⟨[some 4, none, none], ⟨"Amanda", "Trie", 2⟩⟩),
        ((⟨"Bob", "Ada", 1⟩ : Asset), ⟨[none, some 10, none], ⟨"Bob", "Ada", 1⟩⟩)] ∧
    ∃ dr', List.lookup (⟨"Amanda", "Trie", 2⟩ : Asset)
        [((⟨"Amanda", "Trie", 2⟩ : Asset), (⟨[some 4, none, none], ⟨"Amanda", "Trie", 2⟩⟩ :
          DistanceResult Asset)),
        ((⟨"Bob", "Ada", 1⟩ : Asset), ⟨[none, some 10, none], ⟨"Bob", "Ada", 1⟩⟩)] =
          some dr' ∧
      ∀ j, j ≠ 1 → dr'.Distances[j]? =
        ([some 4, none, none] : List (Option Int))[j]? :=
  ⟨by decide!, (searchTree_writes_only_slot (C := Unit) (T := Asset)).1
    (NewDistanceTrees assetTrees) ⟨none⟩ 1 "ADA".toList
    [((⟨"Amanda", "Trie", 2⟩ : Asset), ⟨[some 4, none, none], ⟨"Amanda", "Trie", 2⟩⟩)] _
    (by decide!) ⟨"Amanda", "Trie", 2⟩ ⟨[some 4, none, none], ⟨"Amanda", "Trie", 2⟩⟩
    (by decide!)⟩

/-- Witness for C29: the leaves of the tree of Cat, Wildcat and Dog hold Cat, Dog and
Wildcat; the tree of no items has the root as its only leaf, and a search over it returns
the empty list. -/
theorem leaves_hold_values_witness :
    ((Sample.tree animals).GetLeafNodes = [3, 13, 10] ∧
      ∀ l, l ∈ (Sample.tree animals).GetLeafNodes →
        GetValues (Sample.tree animals).nodes l ≠ []) ∧
    ((Sample.tree []).GetLeafNodes = [0] ∧ GetValues (Sample.tree []).nodes 0 = [] ∧
      ∀ (F : Type) (ctx2 : Context F) (phrase : Str), ctx2.cause = none →
        Search (NewDistanceTrees [Sample.tree []]) ctx2 phrase = .ok []) :=
  ⟨⟨by decide!, (leaves_hold_values (Sample.source animals).ctx animals
      (Sample.source animals).termExtractor (Sample.tree animals) animals_loaded).1
      (by decide)⟩,
    (leaves_hold_values (Sample.source []).ctx [] (Sample.source []).termExtractor
      (Sample.tree []) rfl).2 rfl⟩

end SweepWitnesses

end FuzzyTrie

namespace FuzzyTrie

section AnyOrder
variable {C E T : Type} [DecidableEq T] [Fuzzable T]

/-- Whatever the order in which the results map yields its entries and whatever the numbers
of secondary distances: when `Search` returns, the records in its output are exactly the
records that match in at least one tree, and no record is listed twice. -/
theorem SearchOrdered_records (sources : List (TreeSource C E T)) (trees : List (Tree T))
    (hb : Built sources trees) (order : Results T → Results T)
    (hperm : ∀ R, (order R).Perm R) (ctx : Context C) (hctx : ctx.cause = none)
    (phrase : Str) (out : List (DistanceResult T))
    (hout : SearchOrdered order (NewDistanceTrees trees) ctx phrase = .ok out) :
    (out.map (fun dr => dr.Result)).Nodup ∧
      ∀ r, r ∈ out.map (fun dr => dr.Result) ↔ ∃ i, MatchesIn sources phrase r i := by
  obtain ⟨R, hst, hkeys, _, _⟩ := SearchOrdered_view hb order hperm ctx hctx phrase out hout
  refine ⟨(hkeys.nodup_iff).2 hst.ok.nodup, ?_⟩
  intro r
  rw [hkeys.mem_iff, hst.keys_iff r]
  constructor
  · rintro ⟨j, hj, hs⟩
    exact ⟨j, (hst.slot_iff r j hj).1 hs⟩
  · rintro ⟨i, hm⟩
    obtain ⟨s, hs, _, _⟩ := id hm
    have hi : i < trees.length := by
      rw [← hb.length_eq]; exact lt_length_of_getElem? hs
    exact ⟨i, hi, (hst.slot_iff r i hi).2 hm⟩

end AnyOrder

section WeightWitnesses

theorem assets_no_factor (s : TreeSource Unit Unit Asset) (r : Asset)
    (_hs : s ∈ assetSources) (_hr : r ∈ s.items) :
    Fuzzable.GetPrimaryDistanceFactor r = none :=
  rfl

theorem assets_search_AD :
    Search (NewDistanceTrees assetTrees) (⟨none⟩ : Context Unit) "AD".toList =
      .ok [⟨[some 5, none, none, some 2], ⟨"Amanda", "Trie", 2⟩⟩,
           ⟨[none, some 11, none, some 1], ⟨"Bob", "Ada", 1⟩⟩] := by
  decide!

/-- Counterexample to C5 as stated: a ranker with twenty trees, the record Cat loaded into
the last one only.  For the phrase "CAT" the record matches in tree 19 with Levenshtein
distance 0, and its distance there is not `10 ^ 19 + 0`, which no 64-bit `int` holds, but
the least `int` (the conversion of the power on amd64). -/
theorem Distances_eq_weight_plus_levenshtein_counterexample :
    Built deepSources deepTrees ∧
    Search (NewDistanceTrees deepTrees) (⟨none⟩ : Context Unit) "CAT".toList =
      .ok [⟨List.replicate 19 none ++ [some (-9223372036854775808), none],
        ⟨"Cat", none, []⟩⟩] ∧
    (∃ t, deepTrees[19]? = some t ∧ GetKeyTerm t.nodes 3 = some "CAT".toList ∧
      (⟨"Cat", none, []⟩ : Sample) ∈ GetValues t.nodes 3) ∧
    LevenshteinDistance "CAT".toList "CAT".toList = 0 ∧
    (List.replicate 19 none ++ [some (-9223372036854775808), none] :
        List (Option Int))[19]? ≠
      some (some (10 ^ 19 + LevenshteinDistance "CAT".toList "CAT".toList)) :=
  ⟨by rfl, by decide!, ⟨Sample.tree [⟨"Cat", none, []⟩], by rfl, by decide!, by decide!⟩,
    by decide!, by decide!⟩

/-- Witness for the amended C5: for the phrase "AD", Bob matches in tree 1 (projects) at
the node ADA (at 3), and his distance there is `10 ^ 1 + levenshtein("AD", "ADA")`, which
is `10 + 1`. -/
theorem Distances_eq_weight_plus_levenshtein_witness :
    ([none, some 11, none, some 1] : List (Option Int))[1]? =
        some (some (10 ^ 1 + LevenshteinDistance "AD".toList "ADA".toList)) ∧
      LevenshteinDistance "AD".toList "ADA".toList = 1 :=
  ⟨Distances_eq_weight_plus_levenshtein assetSources assetTrees assets_built ⟨none⟩
    "AD".toList assets_no_factor _ assets_search_AD
    ⟨[none, some 11, none, some 1], ⟨"Bob", "Ada", 1⟩⟩
    (List.mem_cons_of_mem _ (List.mem_cons_self _ _)) 1
    (TreeSource.tree (Asset.byProject assets)) rfl 3 "ADA".toList (by decide!) (by decide!)
    (by decide!) (by decide),
    by decide!⟩

end WeightWitnesses

end FuzzyTrie
